import Mathlib

/-!
Shallow embedding of the path-finding module (`pathfind.py`) of the
puzzle-code repository, together with proofs checking the natural-language
specification's claims against it.

Python nodes and edges are identified by their position in the graph's
arena (`nodes` and `edges` lists); object identity in Python corresponds to
arena-index identity here.  Synthetic search edges (`_InverseEdge`,
`_DoubleEdge`) are a separate inductive type `PEdge` layered over arena
indices; they are created only inside a search and never enter the graph's
adjacency lists, mirroring the source.  Non-terminating loops are modelled
with fuel; `Res.out` is fuel exhaustion, `Res.fatal` is an assertion
failure / uncaught exception, and `Res.noPath` is the recoverable `NoPath`
exception.
-/

namespace PF

/-- `Edge(source, destination, ref, weight)` — arena record; `ref` is
irrelevant to the algorithms and omitted. -/
structure Edge where
  src : Nat
  dst : Nat
  weight : Int
deriving DecidableEq, Repr

/-- `Node(ref, weight, edges)` — `out` is the node's list of outgoing
edges, stored as arena indices in append order. -/
structure Node where
  weight : Int
  out : List Nat
deriving DecidableEq, Repr

/-- `Graph` — the list of nodes (a `UserList`) plus the edge arena. -/
structure Graph where
  nodes : List Node
  edges : List Edge
deriving DecidableEq, Repr

def emptyGraph : Graph := ⟨[], []⟩

/-- `Graph.add_node(ref, weight)`: returns the new graph and the node's id. -/
def addNode (g : Graph) (w : Int) : Graph × Nat :=
  ({ g with nodes := g.nodes ++ [⟨w, []⟩] }, g.nodes.length)

/-- `Node.add_edge(neighbour, ref, weight)`: appends an `Edge` to the arena
and its index to the source node's outgoing list. -/
def addEdge (g : Graph) (s d : Nat) (w : Int) : Graph × Nat :=
  let eid := g.edges.length
  let n := g.nodes.getD s ⟨0, []⟩
  (⟨g.nodes.set s { n with out := n.out ++ [eid] }, g.edges ++ [⟨s, d, w⟩]⟩, eid)

/-- `Node.add_bidirectional_edge`: two independent edges. -/
def addBiEdge (g : Graph) (s d : Nat) (w : Int) : Graph :=
  (addEdge (addEdge g s d w).1 d s w).1

def nw (g : Graph) (v : Nat) : Int := (g.nodes.getD v ⟨0, []⟩).weight

def nodeOut (g : Graph) (v : Nat) : List Nat := (g.nodes.getD v ⟨0, []⟩).out

def arenaEdge (g : Graph) (i : Nat) : Edge := g.edges.getD i ⟨0, 0, 0⟩

/-- A search-time edge: a plain arena edge, an `_InverseEdge` of an edge, or
a `_DoubleEdge` of two edges.  Only plain edges live in the graph. -/
inductive PEdge where
  | plain (id : Nat)
  | invOf (e : PEdge)
  | dbl (e1 e2 : PEdge)
deriving DecidableEq, Repr

/-- Endpoints of a search edge: `_InverseEdge` swaps source and destination,
`_DoubleEdge` runs from the first edge's source to the second's destination. -/
def pends (g : Graph) : PEdge → Nat × Nat
  | .plain i => ((arenaEdge g i).src, (arenaEdge g i).dst)
  | .invOf e => ((pends g e).2, (pends g e).1)
  | .dbl a b => ((pends g a).1, (pends g b).2)

def psrc (g : Graph) (e : PEdge) : Nat := (pends g e).1

def pdst (g : Graph) (e : PEdge) : Nat := (pends g e).2

/-- Weight of a search edge: `_InverseEdge` negates, `_DoubleEdge` adds. -/
def pwt (g : Graph) : PEdge → Int
  | .plain i => (arenaEdge g i).weight
  | .invOf e => - pwt g e
  | .dbl a b => pwt g a + pwt g b

/-- `isinstance(trace, _InverseEdge)`. -/
def isInv : PEdge → Bool
  | .invOf _ => true
  | _ => false

/-- The final leg of a search edge is an `_InverseEdge` (a `_DoubleEdge`
ends with its second component). -/
def lastInv : PEdge → Bool
  | .invOf _ => true
  | .dbl _ b => lastInv b
  | .plain _ => false

/-- Outcome of a (fueled) computation.  `noPath` carries the `NoPath`
exception's `source` (`none` encodes Python's `None`), `destination` and
optional `k`; `fatal` is a failed `assert` or an uncaught `KeyError` /
`IndexError` / `ValueError`; `out` means the fuel ran out (the Python loop
would still be running). -/
inductive Res (α : Type) where
  | ok (a : α)
  | noPath (src : Option Nat) (dst : Nat) (k : Option Nat)
  | fatal
  | out
deriving DecidableEq, Repr

def Res.bind : Res α → (α → Res β) → Res β
  | .ok a, f => f a
  | .noPath s d k, _ => .noPath s d k
  | .fatal, _ => .fatal
  | .out, _ => .out

/-- Finite-map operations on association lists (Python `dict`s keyed by
object identity = arena id). -/
def getk {α : Type} : List (Nat × α) → Nat → Option α
  | [], _ => none
  | (k, v) :: t, k' => if k = k' then some v else getk t k'

def setk {α : Type} : List (Nat × α) → Nat → α → List (Nat × α)
  | [], k, v => [(k, v)]
  | (k', v') :: t, k, v => if k' = k then (k, v) :: t else (k', v') :: setk t k v

/-- Search configuration: the class-attribute strategy switches of
`PathFinder` and its subclasses, plus the heuristic. -/
structure Config where
  lifo : Bool
  stopFirst : Bool
  sortQueue : Bool
  h : Nat → Nat → Int

/-- Which `_get_edges` / `_add_to_queue` overrides are active. -/
inductive Algo where
  | plain
  | bhandari
  | suurballe
deriving DecidableEq, Repr

/-- Per-`create_tree` read-only context: graph, configuration, destination,
and (for Bhandari/Suurballe) the `_forward_edges` set and the
`_inverse_edges` dict, the latter stored as interior node ↦ the accepted
path's edge into it (the inverse edge itself is `PEdge.invOf` of it). -/
structure Ctx where
  g : Graph
  cfg : Config
  algo : Algo
  dest : Nat
  forward : List PEdge
  invmap : List (Nat × PEdge)

/-- Mutable search state: `_prev`, `_mincost`, `_minpathcost`, the queue and
the iteration counter.  `early` records which exit the loop took (`break`
at the destination versus exhausting the queue); it is observational only
and does not influence the algorithm. -/
structure SState where
  prev : List (Nat × Option PEdge)
  mincost : List (Nat × Int)
  minpath : List (Nat × Int)
  queue : List Nat
  iters : Nat
  early : Bool

/-- `initialise_path_find` plus `queue = [start]`. -/
def initState (ctx : Ctx) (s : Nat) (iters0 : Nat) : SState :=
  { prev := [(s, none)]
    mincost := [(s, nw ctx.g s)]
    minpath := [(s, nw ctx.g s + ctx.cfg.h s ctx.dest)]
    queue := [s]
    iters := iters0
    early := false }

/-- `_get_edges`: the base class returns the node's edge list; Bhandari and
Suurballe suppress edges already used by an accepted path and add the
node's inverse edge, in that order. -/
def searchEdges (ctx : Ctx) (v : Nat) : List PEdge :=
  match ctx.algo with
  | .plain => (nodeOut ctx.g v).map .plain
  | _ =>
    ((nodeOut ctx.g v).map .plain).filter (fun e => decide (¬ e ∈ ctx.forward)) ++
      (match getk ctx.invmap v with
       | some fe => [.invOf fe]
       | none => [])

/-- `_better_path`: no recorded cost, or strictly cheaper. -/
def better (st : SState) (v : Nat) (c : Int) : Bool :=
  match getk st.mincost v with
  | none => true
  | some cur => decide (c < cur)

/-- The shared tail of `_add_to_queue`: record cost, estimated cost and
predecessor, and append the node to the queue unless already pending. -/
def addQbase (ctx : Ctx) (st : SState) (v : Nat) (c : Int) (tr : PEdge) : SState :=
  { st with
    mincost := setk st.mincost v c
    minpath := setk st.minpath v (c + ctx.cfg.h v ctx.dest)
    prev := setk st.prev v (some tr)
    queue := if v ∈ st.queue then st.queue else st.queue ++ [v] }

/-- `_add_to_queue`.  Suurballe's override: a non-inverse step onto a node
with a pending inverse edge is (after `assert node != destination` and the
`_DoubleEdge` connectivity assert) replaced by the atomic `_DoubleEdge`
across that inverse edge, re-checked with `_better_path` at the combined
cost; otherwise the base behaviour. -/
def addQ (ctx : Ctx) (st : SState) (v : Nat) (c : Int) (tr : PEdge) : Res SState :=
  match ctx.algo with
  | .suurballe =>
    match isInv tr, getk ctx.invmap v with
    | false, some fe =>
      if v = ctx.dest then .fatal
      else
        let e2 : PEdge := .invOf fe
        let v2 := pdst ctx.g e2
        let c2 := c + pwt ctx.g e2 + nw ctx.g v2
        if pdst ctx.g tr = psrc ctx.g e2 then
          if better st v2 c2 then .ok (addQbase ctx st v2 c2 (.dbl tr e2))
          else .ok st
        else .fatal
    | _, _ => .ok (addQbase ctx st v c tr)
  | _ => .ok (addQbase ctx st v c tr)

/-- The relaxation of the popped node's outgoing edges (the `for edge in
self._get_edges(node)` loop of `create_tree`). -/
def relaxAll (ctx : Ctx) (cur : Int) (st : SState) : List PEdge → Res SState
  | [] => .ok st
  | e :: rest =>
    let nb := pdst ctx.g e
    let tc := cur + pwt ctx.g e + nw ctx.g nb
    if better st nb tc then
      match addQ ctx st nb tc e with
      | .ok st' => relaxAll ctx cur st' rest
      | r => r
    else relaxAll ctx cur st rest

/-- Stable insertion into a descending-sorted queue: the new element goes in
front of the first element whose key is not larger. -/
def insDesc (key : Nat → Int) (a : Nat) : List Nat → List Nat
  | [] => [a]
  | b :: l => if key b ≤ key a then a :: b :: l else b :: insDesc key a l

/-- `queue.sort(key=minpathcost, reverse=True)` — Python's sort is stable,
and a stable descending sort is unique, so insertion sort reproduces it. -/
def sortDesc (key : Nat → Int) : List Nat → List Nat
  | [] => []
  | a :: l => insDesc key a (sortDesc key l)

/-- `queue.pop(-1)` (LIFO). -/
def popLast : List Nat → Nat × List Nat
  | [] => (0, [])
  | [a] => (a, [])
  | a :: b :: l =>
    let p := popLast (b :: l)
    (p.1, a :: p.2)

/-- `queue.pop(0)` (FIFO). -/
def popHead : List Nat → Nat × List Nat
  | [] => (0, [])
  | a :: l => (a, l)

def qkey (st : SState) (v : Nat) : Int := (getk st.minpath v).getD 0

/-- Sort the queue if configured (`queue.sort(key=..., reverse=True)`) and
pop at the configured end (`queue.pop(self.queue_type)`). -/
def popQueue (cfg : Config) (key : Nat → Int) (q : List Nat) : Nat × List Nat :=
  let q1 := if cfg.sortQueue then sortDesc key q else q
  if cfg.lifo then popLast q1 else popHead q1

/-- The `while queue:` loop of `create_tree`: count the iteration, sort the
queue if configured, pop per queue discipline, stop early at the
destination if configured, otherwise relax the popped node's edges. -/
def searchLoop (ctx : Ctx) : Nat → SState → Res SState
  | 0, _ => .out
  | fuel + 1, st =>
    match st.queue with
    | [] => .ok st
    | _ :: _ =>
      let st1 : SState := { st with iters := st.iters + 1 }
      let p := popQueue ctx.cfg (qkey st1) st1.queue
      let cur := (getk st1.mincost p.1).getD 0
      if ctx.cfg.stopFirst ∧ p.1 = ctx.dest then
        .ok { st1 with queue := p.2, early := true }
      else
        match relaxAll ctx cur { st1 with queue := p.2 } (searchEdges ctx p.1) with
        | .ok st2 => searchLoop ctx fuel st2
        | r => r

/-- `create_tree(start, destination)`. -/
def createTree (ctx : Ctx) (s : Nat) (iters0 fuel : Nat) : Res SState :=
  searchLoop ctx fuel (initState ctx s iters0)

/-- The walk of `PathFinder.trace_path`'s `while edge != None` loop,
prepending each predecessor edge and its source.  A missing `_prev` entry
mid-walk is an uncaught `KeyError`. -/
def walkPrev (g : Graph) (prev : List (Nat × Option PEdge)) :
    Nat → Option PEdge → List PEdge → List Nat → Res (List PEdge × List Nat)
  | _, none, path, hops => .ok (path, hops)
  | 0, some _, _, _ => .out
  | fuel + 1, some e, path, hops =>
    match getk prev (psrc g e) with
    | none => .fatal
    | some pe => walkPrev g prev fuel pe (e :: path) (psrc g e :: hops)

/-- A single-path search result: `path` (edges), `hops` (nodes), `cost`. -/
structure SResult where
  path : List PEdge
  hops : List Nat
  cost : Int
deriving DecidableEq, Repr

/-- `PathFinder.trace_path(destination)`: read the destination's cost and
predecessor (a missing entry raises `NoPath(None, destination)`) and walk
the predecessor chain. -/
def tracePath (g : Graph) (st : SState) (d : Nat) (fuel : Nat) : Res SResult :=
  match getk st.mincost d, getk st.prev d with
  | some c, some oe =>
    Res.bind (walkPrev g st.prev fuel oe [] [d]) fun ph => .ok ⟨ph.1, ph.2, c⟩
  | _, _ => .noPath none d none

/-- `PathFinder.solve(start, destination)`: build the tree, fail with
`NoPath(start, destination)` if the destination got no predecessor entry,
otherwise trace the path. -/
def solve (g : Graph) (cfg : Config) (s d : Nat) (fuel : Nat) : Res SResult :=
  let ctx : Ctx := ⟨g, cfg, .plain, d, [], []⟩
  Res.bind (createTree ctx s 0 fuel) fun st =>
    if (getk st.prev d).isSome then tracePath g st d fuel
    else .noPath (some s) d none

/-- Configurations of the five single-path variants (`queue_type`,
`stop_first_answer`, `sort_queue` class attributes). -/
def pathFinderCfg : Config := ⟨true, true, true, fun _ _ => 0⟩
def bfsCfg : Config := ⟨false, true, false, fun _ _ => 0⟩
def dfsCfg : Config := ⟨true, true, false, fun _ _ => 0⟩
def dijkstraCfg : Config := ⟨true, true, true, fun _ _ => 0⟩
def bellmanFordCfg : Config := ⟨true, false, true, fun _ _ => 0⟩
def aStarCfg (h : Nat → Nat → Int) : Config := ⟨true, true, true, h⟩
/-- `Bhandari`/`Suurballe` set `stop_first_answer = False`. -/
def bhandariCfg : Config := ⟨true, false, true, fun _ _ => 0⟩

/-- State of a `Bhandari`/`Suurballe` run: the accepted paths with their
hops and costs (appended as `None` and filled in by `_update_hops`), and
the accumulated iteration counter. -/
structure KState where
  paths : List (List PEdge)
  hopsl : List (Option (List Nat))
  costs : List (Option Int)
  iters : Nat
deriving DecidableEq, Repr

/-- The `_inverse_edges` construction of `Bhandari.initialise_path_find`:
for each edge of each accepted path, record its destination hop unless it
is the overall destination; a hop met twice fails the
`assert hop not in self._inverse_edges`. -/
def buildInv (g : Graph) (d : Nat) : List PEdge → List (Nat × PEdge) → Res (List (Nat × PEdge))
  | [], m => .ok m
  | e :: rest, m =>
    let hop := pdst g e
    if hop = d then buildInv g d rest m
    else
      match getk m hop with
      | some _ => .fatal
      | none => buildInv g d rest (m ++ [(hop, e)])

/-- The walk of `Bhandari.trace_path`: `assert edge not in path`, expand a
`_DoubleEdge` into its two constituents, prepend, follow `_prev`. -/
def bwalk (g : Graph) (prev : List (Nat × Option PEdge)) :
    Nat → Option PEdge → List PEdge → Res (List PEdge)
  | _, none, path => .ok path
  | 0, some _, _ => .out
  | fuel + 1, some e, path =>
    if e ∈ path then .fatal
    else
      let path' :=
        match e with
        | .dbl e1 e2 => e1 :: e2 :: path
        | _ => e :: path
      match getk prev (psrc g e) with
      | none => .fatal
      | some pe => bwalk g prev fuel pe path'

/-- `Bhandari.trace_path(destination)`: append the traced raw path and
placeholder hops/cost entries. -/
def bTrace (g : Graph) (prev : List (Nat × Option PEdge)) (d : Nat) (fuel : Nat)
    (ks : KState) : Res KState :=
  match getk prev d with
  | none => .noPath none d none
  | some oe =>
    Res.bind (bwalk g prev fuel oe []) fun p =>
      .ok { ks with
        paths := ks.paths ++ [p]
        hopsl := ks.hopsl ++ [none]
        costs := ks.costs ++ [none] }

/-- `Bhandari._update_hops(k)`: recompute hops and cost of path `l` from
its edge sequence; an empty path is an uncaught `IndexError`. -/
def updateHops (g : Graph) (ks : KState) (l : Nat) : Res KState :=
  match ks.paths.getD l [] with
  | [] => .fatal
  | e :: rest =>
    let hops := psrc g e :: (e :: rest).map (pdst g)
    let cost := ((e :: rest).map (pwt g)).sum + (hops.map (nw g)).sum
    .ok { ks with
      hopsl := ks.hopsl.set l (some hops)
      costs := ks.costs.set l (some cost) }

def updateMany (g : Graph) : List Nat → KState → Res KState
  | [], ks => .ok ks
  | l :: rest, ks => Res.bind (updateHops g ks l) (updateMany g rest)

/-- Index of the first occurrence of `e` (Python `list.index`). -/
def firstIdx (e : PEdge) : List PEdge → Option Nat
  | [] => none
  | x :: l => if x = e then some 0 else (firstIdx e l).map (· + 1)

/-- `Bhandari._path_edge_index(edge)`: the first path containing the edge,
with its position there. -/
def pathEdgeIndex (e : PEdge) : List (List PEdge) → Option (Nat × Nat)
  | [] => none
  | p :: rest =>
    match firstIdx e p with
    | some i => some (0, i)
    | none =>
      match pathEdgeIndex e rest with
      | some ki => some (ki.1 + 1, ki.2)
      | none => none

/-- The scan of `untangle_paths` over the captured newest path `orig` from
its last index down to 0: at each `_InverseEdge`, locate the forward edge
in the current paths (a failed lookup is an uncaught `ValueError`) and
splice the two paths' tails.  Returns the new paths and the extra dirty
indices. -/
def untangleAt (kk : Nat) (orig : List PEdge) :
    Nat → List (List PEdge) → List Nat → Res (List (List PEdge) × List Nat)
  | 0, paths, dirty => .ok (paths, dirty)
  | i + 1, paths, dirty =>
    match orig.getD i (.plain 0) with
    | .invOf fe =>
      match pathEdgeIndex fe paths with
      | none => .fatal
      | some lj =>
        let l := lj.1
        let j := lj.2
        let pk := paths.getD kk []
        let pl := paths.getD l []
        let newk := pk.take i ++ pl.drop (j + 1)
        let newl := pl.take j ++ pk.drop (i + 1)
        untangleAt kk orig i ((paths.set l newl).set kk newk) (dirty ++ [l])
    | _ => untangleAt kk orig i paths dirty

/-- `Bhandari.untangle_paths()`. -/
def untangle (g : Graph) (ks : KState) : Res KState :=
  let kk := ks.paths.length - 1
  let orig := ks.paths.getD kk []
  Res.bind (untangleAt kk orig orig.length ks.paths []) fun pd =>
    updateMany g (kk :: pd.2) { ks with paths := pd.1 }

/-- One iteration of `Bhandari.solve`'s `for c in range(k)` loop:
`initialise_path_find` (via the context's `forward`/`invmap`), the search,
the `destination not in self._prev` check raising
`NoPath(start, destination, k)`, `trace_path`, `untangle_paths`; from the
second iteration on `stop_first_answer` is forced to `False`. -/
def bsolveLoop (g : Graph) (cfg : Config) (algo : Algo) (s d reqk : Nat) (fuel : Nat) :
    Nat → Bool → KState → Res KState
  | 0, _, ks => .ok ks
  | c + 1, sf, ks =>
    let fwd := ks.paths.flatten
    Res.bind (buildInv g d fwd []) fun inv =>
      let ctx : Ctx := ⟨g, { cfg with stopFirst := sf }, algo, d, fwd, inv⟩
      Res.bind (searchLoop ctx fuel (initState ctx s ks.iters)) fun st =>
        if (getk st.prev d).isSome then
          Res.bind (bTrace g st.prev d fuel { ks with iters := st.iters }) fun ks1 =>
            Res.bind (untangle g ks1) fun ks2 =>
              bsolveLoop g cfg algo s d reqk fuel c false ks2
        else .noPath (some s) d (some reqk)

/-- `Bhandari.solve(start, destination, k)` (and, with `algo = suurballe`,
`Suurballe.solve`). -/
def bsolve (g : Graph) (cfg : Config) (algo : Algo) (s d k : Nat) (fuel : Nat) : Res KState :=
  bsolveLoop g cfg algo s d k fuel k cfg.stopFirst ⟨[], [], [], 0⟩

/-! The module's own test graphs.  `five_by_five`: a 5×5 grid of unit-weight
edges; node `(i, j)` gets id `5*i + j` by creation order, and each node
links to its north and west neighbours bidirectionally on creation. -/

def grid5 : Graph :=
  (List.range 5).foldl
    (fun g i =>
      (List.range 5).foldl
        (fun g j =>
          let gv := addNode g 0
          let g := gv.1
          let v := gv.2
          let g :=
            if 1 ≤ i then (addEdge (addEdge g v (5 * (i - 1) + j) 1).1 (5 * (i - 1) + j) v 1).1
            else g
          if 1 ≤ j then (addEdge (addEdge g v (5 * i + j - 1) 1).1 (5 * i + j - 1) v 1).1
          else g)
        g)
    emptyGraph

/-- `planar_coord_distance` on grid5 ids. -/
def manhattan (v d : Nat) : Int :=
  |(v / 5 : Int) - (d / 5 : Int)| + |(v % 5 : Int) - (d % 5 : Int)|

/-- `two_paths(ef_weight, cd_weight, df_weight)`; nodes A..H are ids 0..7. -/
def twoPaths (ef cd df : Int) : Graph :=
  let g := (List.range 8).foldl (fun g _ => (addNode g 0).1) emptyGraph
  let g := addBiEdge g 0 1 1
  let g := addBiEdge g 0 4 1
  let g := addBiEdge g 1 2 1
  let g := if cd < 0 then (addEdge (addEdge g 2 3 cd).1 3 2 (-cd)).1 else addBiEdge g 2 3 cd
  let g := addBiEdge g 3 4 1
  let g := if df < 0 then (addEdge (addEdge g 3 5 df).1 5 3 (-df)).1 else addBiEdge g 3 5 df
  let g := addBiEdge g 3 7 1
  let g := if ef < 0 then (addEdge (addEdge g 4 5 ef).1 5 4 (-ef)).1 else addBiEdge g 4 5 ef
  let g := addBiEdge g 5 6 1
  addBiEdge g 6 7 1

/-- `two_intertwined_paths`; nodes A..P are ids 0..15. -/
def twoIntertwined : Graph :=
  let g := (List.range 16).foldl (fun g _ => (addNode g 0).1) emptyGraph
  [(0, 1), (0, 4), (1, 2), (2, 3), (3, 4), (3, 11), (4, 5), (5, 6), (6, 7), (7, 8),
   (8, 9), (9, 10), (9, 15), (10, 11), (11, 12), (12, 13), (13, 14), (14, 15)].foldl
    (fun g p => addBiEdge g p.1 p.2 1) g

/-! Small graphs used to exercise corner cases of the claims. -/

/-- Four nodes S P Q D = 0 1 2 3, weights 0; edges S→P (5), S→Q (1),
Q→P (1), P→D (1), in that creation order. -/
def gStale : Graph :=
  let g := (List.range 4).foldl (fun g _ => (addNode g 0).1) emptyGraph
  let g := (addEdge g 0 1 5).1
  let g := (addEdge g 0 2 1).1
  let g := (addEdge g 2 1 1).1
  (addEdge g 1 3 1).1

/-- Eleven nodes: two shortest `0 → … → 6` paths crossing at node `3`
(`0-1-3-4-6` and `0-2-3-5-6`) plus a longer disjoint path `0-7-8-9-10-6`;
all edge weights 1, all node weights 0. -/
def gCross : Graph :=
  let g := (List.range 11).foldl (fun g _ => (addNode g 0).1) emptyGraph
  [(0, 1), (1, 3), (3, 4), (4, 6), (0, 2), (2, 3), (3, 5), (5, 6), (0, 7), (7, 8),
    (8, 9), (9, 10), (10, 6)].foldl (fun g p => (addEdge g p.1 p.2 1).1) g

/-- Two nodes of weight 1 joined by a single edge of weight 1. -/
def gUnit : Graph :=
  let g := (addNode emptyGraph 1).1
  let g := (addNode g 1).1
  (addEdge g 0 1 1).1

/-- One node of weight −1 with a self-loop of edge weight 0: every edge
weight is non-negative, yet every traversal lowers the recorded cost. -/
def gLoop : Graph :=
  let g := (addNode emptyGraph (-1)).1
  (addEdge g 0 0 0).1

/-! ### Specification-side predicates -/

/-- Well-formedness of a graph: a node's edge list indexes real arena edges
whose source is that node, and every arena edge's endpoints are nodes. -/
def WF (g : Graph) : Prop :=
  (∀ v < g.nodes.length, ∀ i ∈ nodeOut g v,
    i < g.edges.length ∧ (arenaEdge g i).src = v) ∧
  ∀ e ∈ g.edges, e.src < g.nodes.length ∧ e.dst < g.nodes.length

/-- Well-formedness of a search context with start node `s`: the graph is
well-formed, `s` is a node, and `_inverse_edges` maps an interior node to
an accepted-path edge into it (never the destination). -/
structure CtxOK (ctx : Ctx) (s : Nat) : Prop where
  wf_out : ∀ v < ctx.g.nodes.length, ∀ i ∈ nodeOut ctx.g v,
    i < ctx.g.edges.length ∧ (arenaEdge ctx.g i).src = v
  wf_edge : ∀ e ∈ ctx.g.edges, e.src < ctx.g.nodes.length ∧ e.dst < ctx.g.nodes.length
  s_lt : s < ctx.g.nodes.length
  inv_wf : ∀ v fe, getk ctx.invmap v = some fe →
    pdst ctx.g fe = v ∧ psrc ctx.g fe < ctx.g.nodes.length ∧ v ≠ ctx.dest

/-- The cost a relaxation charges for traversing a search edge: edge weight
plus destination-node weight, summed over the two halves of a double edge. -/
def charge (g : Graph) : PEdge → Int
  | .plain i => pwt g (.plain i) + nw g (pdst g (.plain i))
  | .invOf e => pwt g (.invOf e) + nw g (pdst g (.invOf e))
  | .dbl a b => charge g a + charge g b

/-- Every `_DoubleEdge` nested in a search edge connects. -/
def DblOK (g : Graph) : PEdge → Prop
  | .dbl a b => DblOK g a ∧ DblOK g b ∧ pdst g a = psrc g b
  | _ => True

/-- `CostReach ctx s v c`: some walk along search edges runs from `s` to
`v` at exact accumulated cost `c` (starting with `s`'s node weight). -/
inductive CostReach (ctx : Ctx) (s : Nat) : Nat → Int → Prop where
  | start : CostReach ctx s s (nw ctx.g s)
  | step {u c e} : CostReach ctx s u c → e ∈ searchEdges ctx u →
      CostReach ctx s (pdst ctx.g e) (c + pwt ctx.g e + nw ctx.g (pdst ctx.g e))

/-- Plain graph reachability along stored edges. -/
inductive GReach (g : Graph) (s : Nat) : Nat → Prop where
  | start : GReach g s s
  | step {u i} : GReach g s u → i ∈ nodeOut g u → GReach g s (arenaEdge g i).dst

/-- `Links g prev v w l c`: following predecessor entries from `v` reaches
`w`; `l` lists the nodes whose entries were used and `c` sums their
charges. -/
inductive Links (g : Graph) (prev : List (Nat × Option PEdge)) : Nat → Nat → List Nat → Int → Prop where
  | nil (v) : Links g prev v v [] 0
  | cons {v w l c e} : getk prev v = some (some e) →
      Links g prev (psrc g e) w l c →
      Links g prev v w (v :: l) (charge g e + c)

/-- The search-state invariant, with an exemption set for the node whose
relaxation is in progress.  `s` is the start node. -/
structure InvE (ctx : Ctx) (s : Nat) (st : SState) (ex : Nat → Prop) : Prop where
  dom_pc : ∀ v, (getk st.mincost v).isSome ↔ (getk st.prev v).isSome
  dom_mp : ∀ v, (getk st.mincost v).isSome ↔ (getk st.minpath v).isSome
  slab : (getk st.mincost s).isSome
  ltn : ∀ v, (getk st.mincost v).isSome → v < ctx.g.nodes.length
  qsub : ∀ v ∈ st.queue, (getk st.mincost v).isSome
  qnodup : st.queue.Nodup
  pnone : ∀ v, getk st.prev v = some none → v = s
  snone : getk st.prev s = some none → getk st.mincost s = some (nw ctx.g s)
  sbound : ∀ c, getk st.mincost s = some c → c ≤ nw ctx.g s
  ssome : ∀ e c, getk st.prev s = some (some e) → getk st.mincost s = some c →
    c < nw ctx.g s
  pedge : ∀ v e, getk st.prev v = some (some e) →
    pdst ctx.g e = v ∧ DblOK ctx.g e ∧
    ∃ cs cv, getk st.mincost (psrc ctx.g e) = some cs ∧
      getk st.mincost v = some cv ∧ cs + charge ctx.g e ≤ cv
  pmem : ctx.algo ≠ .suurballe → ∀ v e, getk st.prev v = some (some e) →
    e ∈ searchEdges ctx (psrc ctx.g e)
  reach : ∀ v c, getk st.mincost v = some c → CostReach ctx s v c
  negcyc : ∀ v l c, Links ctx.g st.prev v v l c → l ≠ [] → c < 0
  quiet : ctx.algo ≠ .suurballe → st.early = false →
    ∀ v c, getk st.mincost v = some c → v ∉ st.queue → ¬ ex v →
    ∀ e ∈ searchEdges ctx v, ∃ cd, getk st.mincost (pdst ctx.g e) = some cd ∧
      cd ≤ c + pwt ctx.g e + nw ctx.g (pdst ctx.g e)
  pprov : ∀ v e, getk st.prev v = some (some e) →
    e ∈ searchEdges ctx (psrc ctx.g e) ∨
    ∃ tr fe, e = .dbl tr (.invOf fe) ∧ isInv tr = false ∧
      tr ∈ searchEdges ctx (psrc ctx.g tr) ∧
      getk ctx.invmap (pdst ctx.g tr) = some fe
  psuur : ctx.algo = .suurballe → ∀ v e, getk st.prev v = some (some e) →
    (getk ctx.invmap v).isSome → lastInv e = true

/-- The plain search-state invariant. -/
def Inv (ctx : Ctx) (s : Nat) (st : SState) : Prop := InvE ctx s st (fun _ => False)

/-- `Mle st st'`: every recorded cost of `st` survives in `st'`, not larger. -/
def Mle (st st' : SState) : Prop :=
  ∀ w c, getk st.mincost w = some c → ∃ c', getk st'.mincost w = some c' ∧ c' ≤ c

/-- Path/hops alignment of a traced result: `hops` are the node endpoints
of consecutive edges of `path`. -/
inductive Chain (g : Graph) : List PEdge → List Nat → Prop where
  | single (v : Nat) : Chain g [] [v]
  | cons {e p h} : Chain g p h → h.head? = some (pdst g e) →
      Chain g (e :: p) (psrc g e :: h)

/-- Reachability along stored edges with an explicit step count. -/
inductive GReachN (g : Graph) (s : Nat) : Nat → Nat → Prop where
  | start : GReachN g s s 0
  | step {u i m} : GReachN g s u m → i ∈ nodeOut g u →
      GReachN g s (arenaEdge g i).dst (m + 1)

/-- How many plain-edge occurrences of a list point into node `x` (the
in-degree of `x` over a multiset of path edges). -/
def plainIntoCnt (g : Graph) (x : Nat) (l : List PEdge) : Nat :=
  l.countP fun e => match e with
    | .plain _ => decide (pdst g e = x)
    | _ => false

/-- How many `_InverseEdge` occurrences of a list annul an edge into `x`
(each such inverse cancels one forward in-edge of `x` during untangling). -/
def invPartnerCnt (g : Graph) (x : Nat) (l : List PEdge) : Nat :=
  l.countP fun e => match e with
    | .invOf fe => decide (pdst g fe = x)
    | _ => false

/-- The invariant of an accepted multi-path state: paths, hop lists and
costs align index-wise; every accepted path is a nonempty chain of stored
arena edges from the start to the destination, and its hops and cost
entries are exactly what `_update_hops` computes from it. -/
def KOK (g : Graph) (s d : Nat) (ks : KState) : Prop :=
  ks.hopsl.length = ks.paths.length ∧ ks.costs.length = ks.paths.length ∧
  ∀ i, i < ks.paths.length →
    ∃ e p, ks.paths.getD i [] = e :: p ∧
      (∀ e' ∈ e :: p, ∃ idx, e' = PEdge.plain idx ∧ idx < g.edges.length) ∧
      (∃ h, Chain g (e :: p) h ∧ h.head? = some s ∧ h.getLast? = some d) ∧
      ks.hopsl.getD i none = some (psrc g e :: (e :: p).map (pdst g)) ∧
      ks.costs.getD i none = some (((e :: p).map (pwt g)).sum +
        ((psrc g e :: (e :: p).map (pdst g)).map (nw g)).sum)

/-- The largest single-step relaxation charge over the arena edges (at
least `0`): a bound on `edge.weight + destination.weight`. -/
def maxCharge (g : Graph) : Int :=
  g.edges.foldr (fun e m => max (e.weight + nw g e.dst) m) 0

/-- How many of the nodes `0 .. n-1` carry a recorded cost. -/
def labCount (mc : List (Nat × Int)) : Nat → Nat
  | 0 => 0
  | n + 1 => labCount mc n + (if (getk mc n).isSome then 1 else 0)

/-- Termination potential of one node: its label clipped to `Nat`, or the
ceiling `(B+1).toNat` while it is unlabelled. -/
def potOf (B : Int) (mc : List (Nat × Int)) (v : Nat) : Nat :=
  match getk mc v with
  | none => (B + 1).toNat
  | some c => c.toNat

/-- Sum of the node potentials over `0 .. n-1`. -/
def potSum (B : Int) (mc : List (Nat × Int)) : Nat → Nat
  | 0 => 0
  | n + 1 => potSum B mc n + potOf B mc n

/-- The ceiling every label stays under on non-negative weights. -/
def termBound (ctx : Ctx) (s : Nat) : Int :=
  nw ctx.g s + (ctx.g.nodes.length : Int) * maxCharge ctx.g

/-- The loop measure: twice the total node potential plus the queue length;
it strictly drops at every iteration of the search loop. -/
def measureOf (ctx : Ctx) (s : Nat) (st : SState) : Nat :=
  2 * potSum (termBound ctx s) st.mincost ctx.g.nodes.length + st.queue.length

/-- The facts that drive termination of the search loop on non-negative
weights: labels are node-indexed, non-negative and bounded by the start
weight plus one maximal charge per labelled node, and queued nodes are
labelled. -/
structure TermInv (ctx : Ctx) (s : Nat) (st : SState) : Prop where
  ltn : ∀ v, (getk st.mincost v).isSome → v < ctx.g.nodes.length
  nonneg : ∀ v c, getk st.mincost v = some c → 0 ≤ c
  bnd : ∀ v c, getk st.mincost v = some c →
    c ≤ nw ctx.g s + (labCount st.mincost ctx.g.nodes.length : Int) * maxCharge ctx.g
  qsub : ∀ v ∈ st.queue, (getk st.mincost v).isSome

/-! ### Basic lemmas about the association-list maps -/

theorem getk_setk {α : Type} (m : List (Nat × α)) (k k' : Nat) (v : α) :
    getk (setk m k v) k' = if k = k' then some v else getk m k' := by
  induction m with
  | nil => simp [getk, setk]
  | cons p t ih =>
    obtain ⟨a, b⟩ := p
    simp only [setk]
    by_cases hak : a = k
    · subst hak
      simp only [if_pos rfl, getk]
      by_cases hk' : a = k' <;> simp [hk']
    · simp only [if_neg hak, getk]
      by_cases hak' : a = k'
      · subst hak'
        have hka : ¬ k = a := fun h => hak h.symm
        simp [hka]
      · simp [hak', ih]

theorem getk_setk_same {α : Type} (m : List (Nat × α)) (k : Nat) (v : α) :
    getk (setk m k v) k = some v := by
  simp [getk_setk]

theorem getk_setk_ne {α : Type} (m : List (Nat × α)) {k k' : Nat} (v : α) (h : k ≠ k') :
    getk (setk m k v) k' = getk m k' := by
  simp [getk_setk, h]

theorem getk_setk_isSome {α : Type} (m : List (Nat × α)) (k k' : Nat) (v : α) :
    (getk (setk m k v) k').isSome ↔ k = k' ∨ (getk m k').isSome := by
  rw [getk_setk]
  by_cases h : k = k' <;> simp [h]

/-! ### Facts about the search-edge enumeration -/

theorem arenaEdge_mem (g : Graph) {i : Nat} (h : i < g.edges.length) :
    arenaEdge g i ∈ g.edges := by
  rw [arenaEdge, List.getD_eq_getElem?_getD, List.getElem?_eq_getElem h]
  exact List.getElem_mem h

/-- Decomposition of `_get_edges`: a yielded edge is a plain edge from the
node's own list or the node's inverse edge. -/
theorem searchEdges_cases {ctx : Ctx} {v : Nat} {e : PEdge} (he : e ∈ searchEdges ctx v) :
    (∃ i, i ∈ nodeOut ctx.g v ∧ e = .plain i) ∨
    (∃ fe, getk ctx.invmap v = some fe ∧ e = .invOf fe) := by
  cases halgo : ctx.algo with
  | plain =>
    simp only [searchEdges, halgo, List.mem_map] at he
    obtain ⟨i, hi, rfl⟩ := he
    exact Or.inl ⟨i, hi, rfl⟩
  | bhandari =>
    simp only [searchEdges, halgo, List.mem_append] at he
    rcases he with he | he
    · obtain ⟨⟨i, hi, rfl⟩, -⟩ := List.mem_filter.mp he |>.imp_left List.mem_map.mp
      exact Or.inl ⟨i, hi, rfl⟩
    · rcases hm : getk ctx.invmap v with - | fe
      · simp [hm] at he
      · simp only [hm, List.mem_singleton] at he
        exact Or.inr ⟨fe, rfl, he⟩
  | suurballe =>
    simp only [searchEdges, halgo, List.mem_append] at he
    rcases he with he | he
    · obtain ⟨⟨i, hi, rfl⟩, -⟩ := List.mem_filter.mp he |>.imp_left List.mem_map.mp
      exact Or.inl ⟨i, hi, rfl⟩
    · rcases hm : getk ctx.invmap v with - | fe
      · simp [hm] at he
      · simp only [hm, List.mem_singleton] at he
        exact Or.inr ⟨fe, rfl, he⟩

theorem searchEdges_src {ctx : Ctx} {s v : Nat} {e : PEdge} (cok : CtxOK ctx s)
    (hv : v < ctx.g.nodes.length) (he : e ∈ searchEdges ctx v) : psrc ctx.g e = v := by
  rcases searchEdges_cases he with ⟨i, hi, rfl⟩ | ⟨fe, hfe, rfl⟩
  · exact (cok.wf_out v hv i hi).2
  · show pdst ctx.g fe = v
    exact (cok.inv_wf v fe hfe).1

theorem searchEdges_dst_lt {ctx : Ctx} {s v : Nat} {e : PEdge} (cok : CtxOK ctx s)
    (hv : v < ctx.g.nodes.length) (he : e ∈ searchEdges ctx v) :
    pdst ctx.g e < ctx.g.nodes.length := by
  rcases searchEdges_cases he with ⟨i, hi, rfl⟩ | ⟨fe, hfe, rfl⟩
  · have hi' := (cok.wf_out v hv i hi).1
    exact (cok.wf_edge _ (arenaEdge_mem ctx.g hi')).2
  · show psrc ctx.g fe < ctx.g.nodes.length
    exact (cok.inv_wf v fe hfe).2.1

theorem searchEdges_charge {ctx : Ctx} {v : Nat} {e : PEdge} (he : e ∈ searchEdges ctx v) :
    charge ctx.g e = pwt ctx.g e + nw ctx.g (pdst ctx.g e) := by
  rcases searchEdges_cases he with ⟨i, hi, rfl⟩ | ⟨fe, hfe, rfl⟩ <;> rfl

theorem searchEdges_dblok {ctx : Ctx} {v : Nat} {e : PEdge} (he : e ∈ searchEdges ctx v) :
    DblOK ctx.g e := by
  rcases searchEdges_cases he with ⟨i, hi, rfl⟩ | ⟨fe, hfe, rfl⟩ <;> trivial

theorem searchEdges_noninv_plain {ctx : Ctx} {v : Nat} {e : PEdge}
    (he : e ∈ searchEdges ctx v) (hni : isInv e = false) : ∃ i, e = PEdge.plain i := by
  rcases searchEdges_cases he with ⟨i, hi, rfl⟩ | ⟨fe, hfe, rfl⟩
  · exact ⟨i, rfl⟩
  · cases hni

/-! ### Predecessor-chain lemmas -/

theorem Links.append {g : Graph} {prev : List (Nat × Option PEdge)} {a b c : Nat}
    {l1 l2 : List Nat} {c1 c2 : Int} (h1 : Links g prev a b l1 c1)
    (h2 : Links g prev b c l2 c2) : Links g prev a c (l1 ++ l2) (c1 + c2) := by
  induction h1 with
  | nil v => simpa using h2
  | cons hv hrest ih =>
    rw [List.cons_append, add_assoc]
    exact Links.cons hv (ih h2)

/-- Chains only consult entries of their visited nodes, so they transfer
between predecessor maps that agree there. -/
theorem Links.congr {g : Graph} {prev prev' : List (Nat × Option PEdge)} {a b : Nat}
    {l : List Nat} {c : Int} (h : Links g prev a b l c)
    (hagree : ∀ x ∈ l, getk prev' x = getk prev x) : Links g prev' a b l c := by
  induction h with
  | nil v => exact Links.nil v
  | cons hv hrest ih =>
    refine Links.cons (by rw [hagree _ (List.mem_cons_self _ _)]; exact hv) ?_
    exact ih fun x hx => hagree x (List.mem_cons_of_mem _ hx)

/-- Split a chain at the first occurrence of a visited node. -/
theorem Links.split {g : Graph} {prev : List (Nat × Option PEdge)} {a b x : Nat}
    {l : List Nat} {c : Int} (h : Links g prev a b l c) (hx : x ∈ l) :
    ∃ l1 l2 c1 c2, l = l1 ++ l2 ∧ l2 ≠ [] ∧ c = c1 + c2 ∧
      Links g prev a x l1 c1 ∧ Links g prev x b l2 c2 := by
  induction h with
  | nil v => cases hx
  | @cons v w l c e hv hrest ih =>
    by_cases hvx : v = x
    · subst hvx
      exact ⟨[], v :: l, 0, charge g e + c, rfl, by simp, by ring,
        Links.nil v, Links.cons hv hrest⟩
    · rcases List.mem_cons.mp hx with h' | h'
      · exact absurd h'.symm hvx
      · obtain ⟨l1, l2, c1, c2, rfl, hne, rfl, ha, hb⟩ := ih h'
        exact ⟨v :: l1, l2, charge g e + c1, c2, rfl, hne, by ring,
          Links.cons hv ha, hb⟩

/-- Downward telescoping: along a predecessor chain the recorded costs drop
by at least the accumulated charge. -/
theorem Links.telescope_ge {g : Graph} {prev : List (Nat × Option PEdge)}
    {mc : List (Nat × Int)} {a b : Nat} {l : List Nat} {c : Int}
    (hped : ∀ v e, getk prev v = some (some e) →
      ∃ cs cv, getk mc (psrc g e) = some cs ∧ getk mc v = some cv ∧
        cs + charge g e ≤ cv)
    (h : Links g prev a b l c) {ca : Int} (hca : getk mc a = some ca) :
    ∃ cb, getk mc b = some cb ∧ cb + c ≤ ca := by
  induction h generalizing ca with
  | nil v => exact ⟨ca, hca, by simp⟩
  | @cons v w l cc e hv hrest ih =>
    obtain ⟨cs, cv, hcs, hcv, hle⟩ := hped v e hv
    obtain ⟨cb, hcb, hble⟩ := ih hcs
    rw [hca] at hcv
    cases hcv
    exact ⟨cb, hcb, by linarith⟩

theorem better_lt {st : SState} {v : Nat} {c : Int} (h : better st v c = true) :
    ∀ c0, getk st.mincost v = some c0 → c < c0 := by
  intro c0 hc0
  unfold better at h
  rw [hc0] at h
  exact of_decide_eq_true h

theorem Mle.trans {s1 s2 s3 : SState} (h12 : Mle s1 s2) (h23 : Mle s2 s3) : Mle s1 s3 := by
  intro w c hc
  obtain ⟨c', hc', hle'⟩ := h12 w c hc
  obtain ⟨c'', hc'', hle''⟩ := h23 w c' hc'
  exact ⟨c'', hc'', le_trans hle'' hle'⟩

theorem Links.cons_inv {g : Graph} {prev : List (Nat × Option PEdge)} {v w : Nat}
    {l : List Nat} {c : Int} (h : Links g prev v w l c) (hne : l ≠ []) :
    ∃ e l' c', getk prev v = some (some e) ∧ Links g prev (psrc g e) w l' c' ∧
      l = v :: l' ∧ c = charge g e + c' := by
  cases h with
  | nil => exact absurd rfl hne
  | cons hv hrest => exact ⟨_, _, _, hv, hrest, rfl, rfl⟩

/-- Overwriting one predecessor entry by a strictly improving relaxation
keeps every predecessor cycle strictly negative. -/
theorem negcyc_update {g : Graph} {prev : List (Nat × Option PEdge)} {mc : List (Nat × Int)}
    {v : Nat} {tr : PEdge} {c : Int}
    (hped : ∀ w e, getk prev w = some (some e) →
      ∃ cs cv, getk mc (psrc g e) = some cs ∧ getk mc w = some cv ∧ cs + charge g e ≤ cv)
    (hneg : ∀ w l c0, Links g prev w w l c0 → l ≠ [] → c0 < 0)
    (hsrc : ∃ cs, getk mc (psrc g tr) = some cs ∧ cs + charge g tr ≤ c)
    (hbet : ∀ c0, getk mc v = some c0 → c < c0) :
    ∀ w l c0, Links g (setk prev v (some tr)) w w l c0 → l ≠ [] → c0 < 0 := by
  suffices h : ∀ n w l c0, l.length ≤ n → Links g (setk prev v (some tr)) w w l c0 →
      l ≠ [] → c0 < 0 by
    exact fun w l c0 hc hne => h l.length w l c0 le_rfl hc hne
  intro n
  induction n with
  | zero =>
    intro w l c0 hlen hcyc hlne
    cases l with
    | nil => exact absurd rfl hlne
    | cons a t => simp at hlen
  | succ n ih =>
    intro w l c0 hlen hcyc hlne
    by_cases hvml : v ∈ l
    · obtain ⟨l1, l2, c1, c2, rfl, hl2ne, rfl, ha, hb⟩ := hcyc.split hvml
      have hrot : Links g (setk prev v (some tr)) v v (l2 ++ l1) (c2 + c1) := hb.append ha
      obtain ⟨e, mid, cmid, hv0, hrest, hleq, hsum⟩ :=
        hrot.cons_inv (fun h => hl2ne (List.append_eq_nil.mp h).1)
      rw [getk_setk_same] at hv0
      have het : e = tr := by
        injection hv0 with h1
        injection h1 with h2
        exact h2.symm
      subst het
      by_cases hvm : v ∈ mid
      · obtain ⟨m1, m2, d1, d2, hmeq, hm2ne, hceq, hma, hmb⟩ := hrest.split hvm
        have hc1 : Links g (setk prev v (some e)) v v (v :: m1) (charge g e + d1) :=
          Links.cons (getk_setk_same _ _ _) hma
        have hlenmid : mid.length ≤ n := by
          have h2 : (l2 ++ l1).length = mid.length + 1 := by
            rw [hleq, List.length_cons]
          rw [List.length_append] at hlen h2
          omega
        have hm1len : (v :: m1).length ≤ n := by
          have hms : mid.length = m1.length + m2.length := by rw [hmeq, List.length_append]
          have hm2 : 1 ≤ m2.length := by
            cases m2 with
            | nil => exact absurd rfl hm2ne
            | cons a t => simp
          simp only [List.length_cons]
          omega
        have hm2len : m2.length ≤ n := by
          have hms : mid.length = m1.length + m2.length := by rw [hmeq, List.length_append]
          omega
        have hneg1 := ih v (v :: m1) (charge g e + d1) hm1len hc1 (by simp)
        have hneg2 := ih v m2 d2 hm2len hmb hm2ne
        linarith
      · have hold : Links g prev (psrc g e) v mid cmid := by
          refine hrest.congr fun x hx => ?_
          exact (@getk_setk_ne _ prev v x (some e) (fun hvx => hvm (by rw [hvx]; exact hx))).symm
        obtain ⟨cs, hcs, hle⟩ := hsrc
        obtain ⟨cb, hcb, hble⟩ := Links.telescope_ge hped hold hcs
        have hclt := hbet cb hcb
        linarith
    · have hold : Links g prev w w l c0 := by
        refine hcyc.congr fun x hx => ?_
        exact (@getk_setk_ne _ prev v x (some tr) (fun hvx => hvml (by rw [hvx]; exact hx))).symm
      exact hneg w l c0 hold hlne

/-- One strictly improving relaxation update preserves the invariant and
only extends/improves the bookkeeping. -/
theorem addQbase_invE {ctx : Ctx} {s : Nat} {st : SState} {ex : Nat → Prop}
    (cok : CtxOK ctx s) (hInv : InvE ctx s st ex)
    {v : Nat} {c : Int} {tr : PEdge}
    (hv : pdst ctx.g tr = v)
    (hsrc : ∃ cs, getk st.mincost (psrc ctx.g tr) = some cs ∧ cs + charge ctx.g tr ≤ c)
    (hmem : ctx.algo ≠ .suurballe → tr ∈ searchEdges ctx (psrc ctx.g tr))
    (hdbl : DblOK ctx.g tr)
    (hprov : tr ∈ searchEdges ctx (psrc ctx.g tr) ∨
      ∃ tr' fe, tr = .dbl tr' (.invOf fe) ∧ isInv tr' = false ∧
        tr' ∈ searchEdges ctx (psrc ctx.g tr') ∧
        getk ctx.invmap (pdst ctx.g tr') = some fe)
    (hsuur : ctx.algo = .suurballe → (getk ctx.invmap v).isSome → lastInv tr = true)
    (hreach : CostReach ctx s v c)
    (hlt : v < ctx.g.nodes.length)
    (hbetter : better st v c = true) :
    InvE ctx s (addQbase ctx st v c tr) ex ∧ Mle st (addQbase ctx st v c tr) ∧
    (∀ w ∈ st.queue, w ∈ (addQbase ctx st v c tr).queue) ∧
    v ∈ (addQbase ctx st v c tr).queue ∧
    (addQbase ctx st v c tr).early = st.early ∧
    (addQbase ctx st v c tr).iters = st.iters ∧
    (addQbase ctx st v c tr).mincost = setk st.mincost v c := by
  have hbet := better_lt hbetter
  have hmle : Mle st (addQbase ctx st v c tr) := by
    intro w c0 hc0
    by_cases hwv : w = v
    · subst hwv
      exact ⟨c, by simp [addQbase, getk_setk_same], le_of_lt (hbet c0 hc0)⟩
    · exact ⟨c0, by
        simpa [addQbase] using (getk_setk_ne st.mincost c (fun h => hwv h.symm)).symm ▸ hc0,
        le_rfl⟩
  have hqmono : ∀ w ∈ st.queue, w ∈ (addQbase ctx st v c tr).queue := by
    intro w hw
    simp only [addQbase]
    by_cases hvq : v ∈ st.queue <;> simp [hvq, hw]
  have hvq : v ∈ (addQbase ctx st v c tr).queue := by
    simp only [addQbase]
    by_cases hvq : v ∈ st.queue <;> simp [hvq]
  refine ⟨?_, hmle, hqmono, hvq, rfl, rfl, rfl⟩
  refine ⟨?_, ?_, ?_, ?_, ?_, ?_, ?_, ?_, ?_, ?_, ?_, ?_, ?_, ?_, ?_, ?_, ?_⟩
  · intro w
    simp only [addQbase, getk_setk_isSome]
    exact or_congr Iff.rfl (hInv.dom_pc w)
  · intro w
    simp only [addQbase, getk_setk_isSome]
    exact or_congr Iff.rfl (hInv.dom_mp w)
  · simp only [addQbase, getk_setk_isSome]
    exact Or.inr hInv.slab
  · intro w hw
    simp only [addQbase, getk_setk_isSome] at hw
    rcases hw with rfl | hw
    · exact hlt
    · exact hInv.ltn w hw
  · intro w hw
    simp only [addQbase] at hw ⊢
    rw [getk_setk_isSome]
    by_cases hvq' : v ∈ st.queue
    · rw [if_pos hvq'] at hw
      exact Or.inr (hInv.qsub w hw)
    · rw [if_neg hvq'] at hw
      rcases List.mem_append.mp hw with hw | hw
      · exact Or.inr (hInv.qsub w hw)
      · simp at hw
        exact Or.inl hw.symm
  · simp only [addQbase]
    by_cases hvq' : v ∈ st.queue
    · simpa [hvq'] using hInv.qnodup
    · simp [hvq', List.nodup_append, hInv.qnodup]
  · intro w hw
    simp only [addQbase] at hw
    rw [getk_setk] at hw
    by_cases hvw : v = w
    · rw [if_pos hvw] at hw
      cases hw
    · rw [if_neg hvw] at hw
      exact hInv.pnone w hw
  · intro hps
    simp only [addQbase] at hps ⊢
    rw [getk_setk] at hps
    by_cases hvs : v = s
    · rw [if_pos hvs] at hps
      cases hps
    · rw [if_neg hvs] at hps
      rw [getk_setk, if_neg hvs]
      exact hInv.snone hps
  · intro c0 hc0
    simp only [addQbase] at hc0
    rw [getk_setk] at hc0
    by_cases hvs : v = s
    · rw [if_pos hvs] at hc0
      injection hc0 with hc0
      subst hc0
      subst hvs
      obtain ⟨cold, hcold⟩ := Option.isSome_iff_exists.mp hInv.slab
      exact le_of_lt (lt_of_lt_of_le (hbet cold hcold) (hInv.sbound cold hcold))
    · rw [if_neg hvs] at hc0
      exact hInv.sbound c0 hc0
  · intro e c0 hps hc0
    simp only [addQbase] at hps hc0
    rw [getk_setk] at hps hc0
    by_cases hvs : v = s
    · rw [if_pos hvs] at hc0
      injection hc0 with hc0
      subst hc0
      subst hvs
      obtain ⟨cold, hcold⟩ := Option.isSome_iff_exists.mp hInv.slab
      exact lt_of_lt_of_le (hbet cold hcold) (hInv.sbound cold hcold)
    · rw [if_neg hvs] at hps hc0
      exact hInv.ssome e c0 hps hc0
  · intro w e hw
    simp only [addQbase] at hw ⊢
    rw [getk_setk] at hw
    by_cases hvw : v = w
    · rw [if_pos hvw] at hw
      injection hw with hw
      injection hw with hw
      subst hw
      subst hvw
      refine ⟨hv, hdbl, ?_⟩
      by_cases hsv : psrc ctx.g tr = v
      · obtain ⟨cs, hcs, hle⟩ := hsrc
        rw [hsv] at hcs
        have hlt' := hbet cs hcs
        refine ⟨c, c, ?_, ?_, ?_⟩
        · rw [hsv, getk_setk_same]
        · rw [getk_setk_same]
        · linarith
      · obtain ⟨cs, hcs, hle⟩ := hsrc
        refine ⟨cs, c, ?_, ?_, hle⟩
        · rw [getk_setk_ne st.mincost c fun h => hsv h.symm]
          exact hcs
        · rw [getk_setk_same]
    · rw [if_neg hvw] at hw
      obtain ⟨hpd, hdb, cs, cv, hcs, hcv, hle⟩ := hInv.pedge w e hw
      refine ⟨hpd, hdb, ?_⟩
      by_cases hsv : psrc ctx.g e = v
      · refine ⟨c, cv, ?_, ?_, ?_⟩
        · rw [hsv, getk_setk_same]
        · rw [getk_setk_ne st.mincost c hvw]
          exact hcv
        · rw [hsv] at hcs
          have := hbet cs hcs
          linarith
      · refine ⟨cs, cv, ?_, ?_, hle⟩
        · rw [getk_setk_ne st.mincost c fun h => hsv h.symm]
          exact hcs
        · rw [getk_setk_ne st.mincost c hvw]
          exact hcv
  · intro halgo w e hw
    simp only [addQbase] at hw
    rw [getk_setk] at hw
    by_cases hvw : v = w
    · rw [if_pos hvw] at hw
      injection hw with hw
      injection hw with hw
      subst hw
      exact hmem halgo
    · rw [if_neg hvw] at hw
      exact hInv.pmem halgo w e hw
  · intro w c0 hc0
    simp only [addQbase] at hc0
    rw [getk_setk] at hc0
    by_cases hvw : v = w
    · rw [if_pos hvw] at hc0
      injection hc0 with hc0
      subst hc0
      exact hvw ▸ hreach
    · rw [if_neg hvw] at hc0
      exact hInv.reach w c0 hc0
  · simp only [addQbase]
    exact negcyc_update
      (fun w e hw => (hInv.pedge w e hw).2.2) hInv.negcyc hsrc hbet
  · intro halgo hearly w c0 hc0 hwq hex e he
    simp only [addQbase] at hearly hc0 hwq
    have hwv : w ≠ v := fun h => hwq (h ▸ hvq)
    rw [getk_setk_ne st.mincost c fun h => hwv h.symm] at hc0
    have hwq' : w ∉ st.queue := fun h => hwq (hqmono w h)
    obtain ⟨cd, hcd, hcdle⟩ := hInv.quiet halgo hearly w c0 hc0 hwq' hex e he
    simp only [addQbase]
    by_cases hdv : pdst ctx.g e = v
    · refine ⟨c, ?_, ?_⟩
      · rw [hdv, getk_setk_same]
      · rw [hdv] at hcd
        have := hbet cd hcd
        linarith
    · refine ⟨cd, ?_, hcdle⟩
      rw [getk_setk_ne st.mincost c fun h => hdv h.symm]
      exact hcd
  · intro w e hw
    simp only [addQbase] at hw
    rw [getk_setk] at hw
    by_cases hvw : v = w
    · rw [if_pos hvw] at hw
      injection hw with hw
      injection hw with hw
      subst hw
      exact hprov
    · rw [if_neg hvw] at hw
      exact hInv.pprov w e hw
  · intro halgo w e hw hw2
    simp only [addQbase] at hw
    rw [getk_setk] at hw
    by_cases hvw : v = w
    · rw [if_pos hvw] at hw
      injection hw with hw
      injection hw with hw
      subst hw
      exact hsuur halgo (by rw [hvw]; exact hw2)
    · rw [if_neg hvw] at hw
      exact hInv.psuur halgo w e hw hw2

theorem lastInv_of_isInv {e : PEdge} (h : isInv e = true) : lastInv e = true := by
  cases e with
  | plain i => cases h
  | invOf a => rfl
  | dbl a b => cases h

theorem better_false {st : SState} {v : Nat} {c : Int} (h : better st v c = false) :
    ∃ c0, getk st.mincost v = some c0 ∧ c0 ≤ c := by
  unfold better at h
  rcases hm : getk st.mincost v with - | c0
  · rw [hm] at h
    cases h
  · rw [hm] at h
    exact ⟨c0, rfl, le_of_not_lt (of_decide_eq_false h)⟩

/-- `_add_to_queue` is the base update in every non-transforming case. -/
theorem addQ_eq_base {ctx : Ctx} {st : SState} {v : Nat} {c : Int} {tr : PEdge}
    (h : ctx.algo ≠ .suurballe ∨ isInv tr = true ∨ getk ctx.invmap v = none) :
    addQ ctx st v c tr = .ok (addQbase ctx st v c tr) := by
  obtain ⟨g, cfg, algo, dest, fwd, inv⟩ := ctx
  cases algo with
  | plain => rfl
  | bhandari => rfl
  | suurballe =>
    rcases h with h | h | h
    · exact absurd rfl h
    · simp only [addQ, h]
    · cases hiv : isInv tr
      · simp only [addQ, hiv]
        simp only at h
        rw [h]
      · simp only [addQ, hiv]

/-- C5's mechanism, isolated: in Suurballe's `_add_to_queue`, a non-inverse
step onto an interior node of an accepted path is offered for relaxation
only as the atomic `_DoubleEdge` across that node's inverse edge, at the
combined cost, relaxing the inverse edge's endpoint. -/
theorem addQ_suur_dbl {ctx : Ctx} {st : SState} {v : Nat} {c : Int} {tr fe : PEdge}
    (halgo : ctx.algo = .suurballe) (htr : isInv tr = false)
    (him : getk ctx.invmap v = some fe) (hvd : v ≠ ctx.dest)
    (hconn : pdst ctx.g tr = psrc ctx.g (.invOf fe)) :
    addQ ctx st v c tr =
      if better st (pdst ctx.g (.invOf fe))
          (c + pwt ctx.g (.invOf fe) + nw ctx.g (pdst ctx.g (.invOf fe)))
      then .ok (addQbase ctx st (pdst ctx.g (.invOf fe))
        (c + pwt ctx.g (.invOf fe) + nw ctx.g (pdst ctx.g (.invOf fe)))
        (.dbl tr (.invOf fe)))
      else .ok st := by
  obtain ⟨g, cfg, algo, dest, fwd, inv⟩ := ctx
  simp only at halgo
  subst halgo
  simp only at htr him hvd hconn ⊢
  simp only [addQ, htr, him, if_neg hvd, if_pos hconn]

theorem relaxAll_cons_false {ctx : Ctx} {cur : Int} {st : SState} {e : PEdge}
    {rest : List PEdge}
    (hb : better st (pdst ctx.g e) (cur + pwt ctx.g e + nw ctx.g (pdst ctx.g e)) = false) :
    relaxAll ctx cur st (e :: rest) = relaxAll ctx cur st rest := by
  simp only [relaxAll, hb, Bool.false_eq_true, if_neg, not_false_iff]

theorem relaxAll_cons_true {ctx : Ctx} {cur : Int} {st : SState} {e : PEdge}
    {rest : List PEdge}
    (hb : better st (pdst ctx.g e) (cur + pwt ctx.g e + nw ctx.g (pdst ctx.g e)) = true) :
    relaxAll ctx cur st (e :: rest) =
      match addQ ctx st (pdst ctx.g e) (cur + pwt ctx.g e + nw ctx.g (pdst ctx.g e)) e with
      | .ok st1 => relaxAll ctx cur st1 rest
      | r => r := by
  simp only [relaxAll, hb, if_true]

/-- The relaxation loop over (a suffix of) the popped node's edges: no
failure, the invariant is preserved, labels only improve, the queue only
grows, and — outside Suurballe — every processed edge ends up relaxed
unless the popped node itself was re-queued· -/
theorem insDesc_perm (key : Nat → Int) (a : Nat) (l : List Nat) :
    List.Perm (a :: l) (insDesc key a l) := by
  induction l with
  | nil => rfl
  | cons b t ih =>
    simp only [insDesc]
    by_cases h : key b ≤ key a
    · rw [if_pos h]
    · rw [if_neg h]
      exact (List.Perm.swap b a t).trans (List.Perm.cons b ih)

theorem sortDesc_perm (key : Nat → Int) (l : List Nat) :
    List.Perm l (sortDesc key l) := by
  induction l with
  | nil => rfl
  | cons a t ih =>
    exact (List.Perm.cons a ih).trans (insDesc_perm key a (sortDesc key t))

theorem popLast_perm : ∀ (q : List Nat), q ≠ [] →
    List.Perm q ((popLast q).1 :: (popLast q).2)
  | [], h => absurd rfl h
  | [a], _ => by simp [popLast]
  | a :: b :: t, _ => by
    have ih := popLast_perm (b :: t) (by simp)
    exact (List.Perm.cons a ih).trans
      (List.Perm.swap (popLast (b :: t)).1 a (popLast (b :: t)).2)

theorem popHead_cons (q : List Nat) (h : q ≠ []) :
    q = (popHead q).1 :: (popHead q).2 := by
  cases q with
  | nil => exact absurd rfl h
  | cons a t => rfl

/-- The popped element together with the rest is a permutation of the
queue, whatever the sort/discipline configuration. -/
theorem popQueue_perm (cfg : Config) (key : Nat → Int) (q0 : List Nat) (h : q0 ≠ []) :
    List.Perm q0 ((popQueue cfg key q0).1 :: (popQueue cfg key q0).2) := by
  have hq : List.Perm q0 (if cfg.sortQueue then sortDesc key q0 else q0) := by
    by_cases hs : cfg.sortQueue
    · rw [if_pos hs]
      exact sortDesc_perm key q0
    · rw [if_neg hs]
  have hne : (if cfg.sortQueue then sortDesc key q0 else q0) ≠ [] := by
    intro hnil
    rw [hnil] at hq
    exact h (List.Perm.eq_nil hq)
  show List.Perm q0
    ((if cfg.lifo then popLast (if cfg.sortQueue then sortDesc key q0 else q0)
      else popHead (if cfg.sortQueue then sortDesc key q0 else q0)).1 ::
     (if cfg.lifo then popLast (if cfg.sortQueue then sortDesc key q0 else q0)
      else popHead (if cfg.sortQueue then sortDesc key q0 else q0)).2)
  by_cases hl : cfg.lifo
  · rw [if_pos hl]
    exact hq.trans (popLast_perm _ hne)
  · rw [if_neg hl]
    exact hq.trans (by rw [← popHead_cons _ hne])

theorem searchLoop_succ (ctx : Ctx) (fuel : Nat) (st : SState) (v0 : Nat) (qt : List Nat)
    (hq : st.queue = v0 :: qt) :
    searchLoop ctx (fuel + 1) st =
      (if ctx.cfg.stopFirst ∧
          (popQueue ctx.cfg (qkey { st with iters := st.iters + 1 }) st.queue).1 = ctx.dest then
        Res.ok { st with
          iters := st.iters + 1
          queue := (popQueue ctx.cfg (qkey { st with iters := st.iters + 1 }) st.queue).2
          early := true }
      else
        match relaxAll ctx
            ((getk st.mincost
              (popQueue ctx.cfg (qkey { st with iters := st.iters + 1 }) st.queue).1).getD 0)
            { st with
              iters := st.iters + 1
              queue := (popQueue ctx.cfg (qkey { st with iters := st.iters + 1 }) st.queue).2 }
            (searchEdges ctx
              (popQueue ctx.cfg (qkey { st with iters := st.iters + 1 }) st.queue).1) with
        | .ok st2 => searchLoop ctx fuel st2
        | r => r) := by
  conv_lhs => rw [searchLoop]
  rw [hq]

/-- Invariance of the state invariant under permuting the queue and
changing the iteration counter. -/
theorem InvE_requeue {ctx : Ctx} {s : Nat} {st st' : SState} {ex : Nat → Prop}
    (h : InvE ctx s st ex)
    (hp : st'.prev = st.prev) (hm : st'.mincost = st.mincost)
    (hmp : st'.minpath = st.minpath) (hq : ∀ v, v ∈ st'.queue ↔ v ∈ st.queue)
    (hnd : st'.queue.Nodup) (he : st'.early = st.early) : InvE ctx s st' ex := by
  refine ⟨?_, ?_, ?_, ?_, ?_, hnd, ?_, ?_, ?_, ?_, ?_, ?_, ?_, ?_, ?_, ?_, ?_⟩
  · intro v
    rw [hm, hp]
    exact h.dom_pc v
  · intro v
    rw [hm, hmp]
    exact h.dom_mp v
  · rw [hm]
    exact h.slab
  · intro v
    rw [hm]
    exact h.ltn v
  · intro v hv
    rw [hm]
    exact h.qsub v ((hq v).mp hv)
  · intro v
    rw [hp]
    exact h.pnone v
  · rw [hp, hm]
    exact h.snone
  · intro c
    rw [hm]
    exact h.sbound c
  · intro e c
    rw [hp, hm]
    exact h.ssome e c
  · intro v e
    rw [hp, hm]
    exact h.pedge v e
  · intro ha v e
    rw [hp]
    exact h.pmem ha v e
  · intro v c
    rw [hm]
    exact h.reach v c
  · intro v l c
    rw [hp]
    exact h.negcyc v l c
  · intro ha he' v c hc hvq hex e hes
    rw [hm] at hc ⊢
    rw [he] at he'
    exact h.quiet ha he' v c hc (fun hin => hvq ((hq v).mpr hin)) hex e hes
  · intro v e
    rw [hp]
    exact h.pprov v e
  · intro ha v e
    rw [hp]
    exact h.psuur ha v e


theorem relaxAll_invE {ctx : Ctx} {s : Nat} (cok : CtxOK ctx s) (u : Nat) (cur : Int)
    (hu : u < ctx.g.nodes.length) (hreachcur : CostReach ctx s u cur) :
    ∀ es st, InvE ctx s st (fun x => x = u) ->
      (∀ e' ∈ es, e' ∈ searchEdges ctx u) ->
      (∃ cn, getk st.mincost u = some cn ∧ cn ≤ cur) ->
      (getk st.mincost u = some cur ∨ u ∈ st.queue) ->
      ∃ st', relaxAll ctx cur st es = .ok st' ∧ InvE ctx s st' (fun x => x = u) ∧
        Mle st st' ∧ (∀ w ∈ st.queue, w ∈ st'.queue) ∧
        st'.early = st.early ∧ st'.iters = st.iters ∧
        (getk st'.mincost u = some cur ∨ u ∈ st'.queue) ∧
        (ctx.algo ≠ .suurballe ->
          ∀ e' ∈ es, u ∈ st'.queue ∨ ∃ cd, getk st'.mincost (pdst ctx.g e') = some cd ∧
            cd ≤ cur + pwt ctx.g e' + nw ctx.g (pdst ctx.g e')) := by
  intro es
  induction es with
  | nil =>
    intro st hInv hes hcn hthread
    exact ⟨st, rfl, hInv, fun w c hc => ⟨c, hc, le_rfl⟩, fun w h => h, rfl, rfl, hthread,
      by simp⟩
  | cons e rest ih =>
    intro st hInv hes hcn hthread
    have he : e ∈ searchEdges ctx u := hes e (List.mem_cons_self e rest)
    have hrest : ∀ e' ∈ rest, e' ∈ searchEdges ctx u :=
      fun e' h => hes e' (List.mem_cons_of_mem e h)
    have hsrcu : psrc ctx.g e = u := searchEdges_src cok hu he
    have hchg : charge ctx.g e = pwt ctx.g e + nw ctx.g (pdst ctx.g e) :=
      searchEdges_charge he
    obtain ⟨cn, hcnu, hcnle⟩ := hcn
    cases hb : better st (pdst ctx.g e)
        (cur + pwt ctx.g e + nw ctx.g (pdst ctx.g e)) with
    | false =>
      obtain ⟨st', heq, hI, hM, hQ, hE, hIt, hTh, hPr⟩ :=
        ih st hInv hrest ⟨cn, hcnu, hcnle⟩ hthread
      refine ⟨st', ?_, hI, hM, hQ, hE, hIt, hTh, ?_⟩
      · rw [relaxAll_cons_false hb]
        exact heq
      · intro hns e' he'
        rcases List.mem_cons.mp he' with rfl | he'
        · obtain ⟨c0, hc0, hle0⟩ := better_false hb
          obtain ⟨cd, hcd, hled⟩ := hM _ c0 hc0
          exact Or.inr ⟨cd, hcd, le_trans hled hle0⟩
        · exact hPr hns e' he'
    | true =>
      by_cases hcase : ctx.algo = .suurballe ∧ isInv e = false ∧
          (getk ctx.invmap (pdst ctx.g e)).isSome
      · obtain ⟨halgo, hiv, hsome⟩ := hcase
        obtain ⟨fe, hfe⟩ := Option.isSome_iff_exists.mp hsome
        obtain ⟨hfed, hfelt, hfend⟩ := cok.inv_wf _ fe hfe
        have hconn : pdst ctx.g e = psrc ctx.g (.invOf fe) := by
          show pdst ctx.g e = pdst ctx.g fe
          rw [hfed]
        have haddq := @addQ_suur_dbl ctx st (pdst ctx.g e)
          (cur + pwt ctx.g e + nw ctx.g (pdst ctx.g e)) e fe halgo hiv hfe hfend hconn
        have he2 : (PEdge.invOf fe) ∈ searchEdges ctx (pdst ctx.g e) := by
          simp only [searchEdges, halgo, List.mem_append, hfe]
          exact Or.inr (List.mem_singleton.mpr rfl)
        cases hb2 : better st (pdst ctx.g (.invOf fe))
            (cur + pwt ctx.g e + nw ctx.g (pdst ctx.g e) + pwt ctx.g (.invOf fe) +
              nw ctx.g (pdst ctx.g (.invOf fe))) with
        | false =>
          obtain ⟨st', heq, hI, hM, hQ, hE, hIt, hTh, hPr⟩ :=
            ih st hInv hrest ⟨cn, hcnu, hcnle⟩ hthread
          refine ⟨st', ?_, hI, hM, hQ, hE, hIt, hTh, ?_⟩
          · rw [relaxAll_cons_true hb, haddq, hb2]
            exact heq
          · intro hns e' he'
            exact absurd halgo hns
        | true =>
          have hstep := @addQbase_invE ctx s st (fun x => x = u) cok hInv
            (pdst ctx.g (.invOf fe))
            (cur + pwt ctx.g e + nw ctx.g (pdst ctx.g e) + pwt ctx.g (.invOf fe) +
              nw ctx.g (pdst ctx.g (.invOf fe)))
            (.dbl e (.invOf fe))
            rfl
            ⟨cn, by
                show getk st.mincost (psrc ctx.g e) = some cn
                rw [hsrcu]
                exact hcnu,
              by
                show cn + (charge ctx.g e + charge ctx.g (.invOf fe)) ≤ _
                have hchg2 : charge ctx.g (.invOf fe) =
                    pwt ctx.g (.invOf fe) + nw ctx.g (pdst ctx.g (.invOf fe)) := rfl
                rw [hchg, hchg2]
                linarith⟩
            (fun h => absurd halgo h)
            ⟨searchEdges_dblok he, trivial, hconn⟩
            (Or.inr ⟨e, fe, rfl, hiv, (by rw [hsrcu]; exact he), hfe⟩)
            (fun _ _ => rfl)
            (by
              have h1 := CostReach.step hreachcur he
              have h2 := CostReach.step h1 he2
              exact h2)
            (by
              show psrc ctx.g fe < ctx.g.nodes.length
              exact hfelt)
            hb2
          obtain ⟨hI1, hM1, hQ1, hvq1, hE1, hIt1, hmc1⟩ := hstep
          have hcn1 : ∃ cn', getk (addQbase ctx st (pdst ctx.g (.invOf fe))
              (cur + pwt ctx.g e + nw ctx.g (pdst ctx.g e) + pwt ctx.g (.invOf fe) +
                nw ctx.g (pdst ctx.g (.invOf fe))) (.dbl e (.invOf fe))).mincost u =
              some cn' ∧ cn' ≤ cur := by
            rw [hmc1, getk_setk]
            by_cases hvu : pdst ctx.g (.invOf fe) = u
            · rw [if_pos hvu]
              refine ⟨_, rfl, ?_⟩
              have hlt' := better_lt hb2 cn (by rw [hvu]; exact hcnu)
              linarith
            · rw [if_neg hvu]
              exact ⟨cn, hcnu, hcnle⟩
          have hthread1 : getk (addQbase ctx st (pdst ctx.g (.invOf fe))
              (cur + pwt ctx.g e + nw ctx.g (pdst ctx.g e) + pwt ctx.g (.invOf fe) +
                nw ctx.g (pdst ctx.g (.invOf fe))) (.dbl e (.invOf fe))).mincost u =
              some cur ∨ u ∈ (addQbase ctx st (pdst ctx.g (.invOf fe))
              (cur + pwt ctx.g e + nw ctx.g (pdst ctx.g e) + pwt ctx.g (.invOf fe) +
                nw ctx.g (pdst ctx.g (.invOf fe))) (.dbl e (.invOf fe))).queue := by
            by_cases hvu : pdst ctx.g (.invOf fe) = u
            · exact Or.inr (by rw [← hvu]; exact hvq1)
            · rcases hthread with hl | hr
              · refine Or.inl ?_
                rw [hmc1, getk_setk_ne st.mincost _ hvu]
                exact hl
              · exact Or.inr (hQ1 u hr)
          obtain ⟨st', heq, hI, hM, hQ, hE, hIt, hTh, hPr⟩ := ih _ hI1 hrest hcn1 hthread1
          refine ⟨st', ?_, hI, Mle.trans hM1 hM, fun w hw => hQ w (hQ1 w hw), ?_, ?_, hTh, ?_⟩
          · rw [relaxAll_cons_true hb, haddq, hb2]
            exact heq
          · rw [hE, hE1]
          · rw [hIt, hIt1]
          · intro hns e' he'
            exact absurd halgo hns
      · -- base update (plain, Bhandari, or Suurballe's default arm)
        have haddq : addQ ctx st (pdst ctx.g e)
            (cur + pwt ctx.g e + nw ctx.g (pdst ctx.g e)) e =
            .ok (addQbase ctx st (pdst ctx.g e)
              (cur + pwt ctx.g e + nw ctx.g (pdst ctx.g e)) e) := by
          apply addQ_eq_base
          by_cases h1 : ctx.algo = .suurballe
          · by_cases h2 : isInv e = true
            · exact Or.inr (Or.inl h2)
            · refine Or.inr (Or.inr ?_)
              rcases hm : getk ctx.invmap (pdst ctx.g e) with - | fe
              · rfl
              · exact absurd ⟨h1, Bool.not_eq_true _ |>.mp h2, by rw [hm]; rfl⟩ hcase
          · exact Or.inl h1
        have hstep := @addQbase_invE ctx s st (fun x => x = u) cok hInv
          (pdst ctx.g e) (cur + pwt ctx.g e + nw ctx.g (pdst ctx.g e)) e
          rfl
          ⟨cn, by
              show getk st.mincost (psrc ctx.g e) = some cn
              rw [hsrcu]
              exact hcnu,
            by rw [hchg]; linarith⟩
          (fun _ => by rw [hsrcu]; exact he)
          (searchEdges_dblok he)
          (Or.inl (by rw [hsrcu]; exact he))
          (fun h1 h2 => by
            by_cases hie : isInv e = true
            · exact lastInv_of_isInv hie
            · exact absurd ⟨h1, Bool.not_eq_true _ |>.mp hie, h2⟩ hcase)
          (CostReach.step hreachcur he)
          (searchEdges_dst_lt cok hu he)
          hb
        obtain ⟨hI1, hM1, hQ1, hvq1, hE1, hIt1, hmc1⟩ := hstep
        have hcn1 : ∃ cn', getk (addQbase ctx st (pdst ctx.g e)
            (cur + pwt ctx.g e + nw ctx.g (pdst ctx.g e)) e).mincost u = some cn' ∧
            cn' ≤ cur := by
          rw [hmc1, getk_setk]
          by_cases hvu : pdst ctx.g e = u
          · rw [if_pos hvu]
            refine ⟨_, rfl, ?_⟩
            have hlt' := better_lt hb cn (by rw [hvu]; exact hcnu)
            linarith
          · rw [if_neg hvu]
            exact ⟨cn, hcnu, hcnle⟩
        have hthread1 : getk (addQbase ctx st (pdst ctx.g e)
            (cur + pwt ctx.g e + nw ctx.g (pdst ctx.g e)) e).mincost u = some cur ∨
            u ∈ (addQbase ctx st (pdst ctx.g e)
            (cur + pwt ctx.g e + nw ctx.g (pdst ctx.g e)) e).queue := by
          by_cases hvu : pdst ctx.g e = u
          · exact Or.inr (by rw [← hvu]; exact hvq1)
          · rcases hthread with hl | hr
            · refine Or.inl ?_
              rw [hmc1, getk_setk_ne st.mincost _ hvu]
              exact hl
            · exact Or.inr (hQ1 u hr)
        obtain ⟨st', heq, hI, hM, hQ, hE, hIt, hTh, hPr⟩ := ih _ hI1 hrest hcn1 hthread1
        refine ⟨st', ?_, hI, Mle.trans hM1 hM, fun w hw => hQ w (hQ1 w hw), ?_, ?_, hTh, ?_⟩
        · rw [relaxAll_cons_true hb, haddq]
          exact heq
        · rw [hE, hE1]
        · rw [hIt, hIt1]
        · intro hns e' he'
          rcases List.mem_cons.mp he' with rfl | he'
          · have hnb1 : getk (addQbase ctx st (pdst ctx.g e')
                (cur + pwt ctx.g e' + nw ctx.g (pdst ctx.g e')) e').mincost
                (pdst ctx.g e') =
                some (cur + pwt ctx.g e' + nw ctx.g (pdst ctx.g e')) := by
              rw [hmc1, getk_setk_same]
            obtain ⟨cd, hcd, hled⟩ := hM _ _ hnb1
            exact Or.inr ⟨cd, hcd, hled⟩
          · exact hPr hns e' he'


/-- `initialise_path_find` establishes the invariant. -/
theorem initState_inv {ctx : Ctx} {s : Nat} (cok : CtxOK ctx s) (iters0 : Nat) :
    Inv ctx s (initState ctx s iters0) := by
  refine ⟨?_, ?_, ?_, ?_, ?_, ?_, ?_, ?_, ?_, ?_, ?_, ?_, ?_, ?_, ?_, ?_, ?_⟩
  · intro v
    simp [initState, getk]
  · intro v
    simp [initState, getk]
  · simp [initState, getk]
  · intro v hv
    simp only [initState, getk] at hv
    by_cases hvs : s = v
    · rw [← hvs]
      exact cok.s_lt
    · rw [if_neg hvs] at hv
      cases hv
  · intro v hv
    simp only [initState, List.mem_singleton] at hv
    subst hv
    simp [initState, getk]
  · simp [initState]
  · intro v hv
    simp only [initState, getk] at hv
    by_cases hvs : s = v
    · exact hvs.symm
    · rw [if_neg hvs] at hv
      cases hv
  · intro _
    simp [initState, getk]
  · intro c hc
    simp only [initState, getk, if_pos rfl] at hc
    injection hc with hc
    exact le_of_eq hc.symm
  · intro e c hps hc
    simp only [initState, getk, if_pos rfl] at hps
    cases hps
  · intro v e hv
    simp only [initState, getk] at hv
    by_cases hvs : s = v
    · rw [if_pos hvs] at hv
      cases hv
    · rw [if_neg hvs] at hv
      cases hv
  · intro ha v e hv
    simp only [initState, getk] at hv
    by_cases hvs : s = v
    · rw [if_pos hvs] at hv
      cases hv
    · rw [if_neg hvs] at hv
      cases hv
  · intro v c hc
    simp only [initState, getk] at hc
    by_cases hvs : s = v
    · rw [if_pos hvs] at hc
      injection hc with hc
      subst hc
      rw [← hvs]
      exact CostReach.start
    · rw [if_neg hvs] at hc
      cases hc
  · intro v l c hcyc hlne
    obtain ⟨e, l', c', hv, hrest, rfl, rfl⟩ := hcyc.cons_inv hlne
    simp only [initState, getk] at hv
    by_cases hvs : s = v
    · rw [if_pos hvs] at hv
      cases hv
    · rw [if_neg hvs] at hv
      cases hv
  · intro ha he v c hc hvq hex e hes
    simp only [initState, getk] at hc
    by_cases hvs : s = v
    · subst hvs
      exact absurd (by simp [initState]) hvq
    · rw [if_neg hvs] at hc
      cases hc
  · intro v e hv
    simp only [initState, getk] at hv
    by_cases hvs : s = v
    · rw [if_pos hvs] at hv
      cases hv
    · rw [if_neg hvs] at hv
      cases hv
  · intro ha v e hv
    simp only [initState, getk] at hv
    by_cases hvs : s = v
    · rw [if_pos hvs] at hv
      cases hv
    · rw [if_neg hvs] at hv
      cases hv

/-- The `while queue:` loop either exhausts its fuel or returns an
invariant-satisfying state; without an early break the queue is exhausted,
and an early break implies `stop_first_answer` with the destination
labelled. -/
theorem searchLoop_spec {ctx : Ctx} {s : Nat} (cok : CtxOK ctx s) :
    ∀ fuel st, Inv ctx s st → st.early = false →
      searchLoop ctx fuel st = .out ∨
      ∃ st', searchLoop ctx fuel st = .ok st' ∧ Inv ctx s st' ∧
        (st'.early = false → st'.queue = []) ∧
        (st'.early = true → ctx.cfg.stopFirst = true ∧
          (getk st'.mincost ctx.dest).isSome) := by
  intro fuel
  induction fuel with
  | zero =>
    intro st hInv hearly
    exact Or.inl rfl
  | succ fuel ih =>
    intro st hInv hearly
    rcases hq : st.queue with - | ⟨v0, qt⟩
    · refine Or.inr ⟨st, ?_, hInv, fun _ => hq, fun h => ?_⟩
      · rw [searchLoop, hq]
      · rw [hearly] at h
        cases h
    · have hqperm := popQueue_perm ctx.cfg (qkey { st with iters := st.iters + 1 })
        st.queue (by rw [hq]; simp)
      have hnodup : ((popQueue ctx.cfg (qkey { st with iters := st.iters + 1 }) st.queue).1 ::
          (popQueue ctx.cfg (qkey { st with iters := st.iters + 1 }) st.queue).2).Nodup :=
        hqperm.nodup_iff.mp hInv.qnodup
      have humem := hqperm.mem_iff.mpr
        (List.mem_cons_self (popQueue ctx.cfg (qkey { st with iters := st.iters + 1 }) st.queue).1
          (popQueue ctx.cfg (qkey { st with iters := st.iters + 1 }) st.queue).2)
      have hulab := hInv.qsub _ humem
      obtain ⟨cu, hcu⟩ := Option.isSome_iff_exists.mp hulab
      have hult := hInv.ltn _ hulab
      have hreachu := hInv.reach _ cu hcu
      have hpopInv : InvE ctx s
          { st with
            iters := st.iters + 1
            queue := (popQueue ctx.cfg (qkey { st with iters := st.iters + 1 }) st.queue).2 }
          (fun x => x =
            (popQueue ctx.cfg (qkey { st with iters := st.iters + 1 }) st.queue).1) := by
        refine ⟨hInv.dom_pc, hInv.dom_mp, hInv.slab, hInv.ltn, ?_, ?_, hInv.pnone,
          hInv.snone, hInv.sbound, hInv.ssome, hInv.pedge, hInv.pmem, hInv.reach,
          hInv.negcyc, ?_, hInv.pprov, hInv.psuur⟩
        · intro v hv
          exact hInv.qsub v (hqperm.mem_iff.mpr (List.mem_cons_of_mem _ hv))
        · exact (List.nodup_cons.mp hnodup).2
        · intro ha he' v c hc hvq hex e hes
          have hvq' : v ∉ st.queue := by
            intro hin
            rcases List.mem_cons.mp (hqperm.mem_iff.mp hin) with h' | h'
            · exact hex h'
            · exact hvq h'
          exact hInv.quiet ha he' v c hc hvq' (fun hf => hf) e hes
      by_cases hstop : ctx.cfg.stopFirst ∧
          (popQueue ctx.cfg (qkey { st with iters := st.iters + 1 }) st.queue).1 = ctx.dest
      · refine Or.inr ⟨{ st with
            iters := st.iters + 1
            queue := (popQueue ctx.cfg (qkey { st with iters := st.iters + 1 }) st.queue).2
            early := true }, ?_, ?_, ?_, ?_⟩
        · rw [searchLoop_succ ctx fuel st v0 qt hq, if_pos hstop]
        · exact ⟨hpopInv.dom_pc, hpopInv.dom_mp, hpopInv.slab, hpopInv.ltn, hpopInv.qsub,
            hpopInv.qnodup, hpopInv.pnone, hpopInv.snone, hpopInv.sbound, hpopInv.ssome,
            hpopInv.pedge, hpopInv.pmem, hpopInv.reach, hpopInv.negcyc,
            (fun ha he' => by cases he'), hpopInv.pprov, hpopInv.psuur⟩
        · intro h
          cases h
        · intro _
          refine ⟨hstop.1, ?_⟩
          rw [← hstop.2]
          exact hulab
      · obtain ⟨st2, heq2, hI2, hM2, hQ2, hE2, hIt2, hTh2, hPr2⟩ :=
          relaxAll_invE cok
            (popQueue ctx.cfg (qkey { st with iters := st.iters + 1 }) st.queue).1 cu
            hult hreachu
            (searchEdges ctx
              (popQueue ctx.cfg (qkey { st with iters := st.iters + 1 }) st.queue).1)
            { st with
              iters := st.iters + 1
              queue := (popQueue ctx.cfg (qkey { st with iters := st.iters + 1 }) st.queue).2 }
            hpopInv (fun e h => h) ⟨cu, hcu, le_rfl⟩ (Or.inl hcu)
        have heqstep : searchLoop ctx (fuel + 1) st = searchLoop ctx fuel st2 := by
          rw [searchLoop_succ ctx fuel st v0 qt hq, if_neg hstop,
            show (getk st.mincost
              (popQueue ctx.cfg (qkey { st with iters := st.iters + 1 }) st.queue).1).getD 0 = cu
              from by rw [hcu]; rfl, heq2]
        have hInv2 : Inv ctx s st2 := by
          refine ⟨hI2.dom_pc, hI2.dom_mp, hI2.slab, hI2.ltn, hI2.qsub, hI2.qnodup,
            hI2.pnone, hI2.snone, hI2.sbound, hI2.ssome, hI2.pedge, hI2.pmem,
            hI2.reach, hI2.negcyc, ?_, hI2.pprov, hI2.psuur⟩
          intro ha he' v c hc hvq hex e hes
          by_cases hvu : v = (popQueue ctx.cfg (qkey { st with iters := st.iters + 1 })
              st.queue).1
          · subst hvu
            rcases hTh2 with hl | hr
            · have hceq : c = cu := by
                rw [hl] at hc
                injection hc with h
                exact h.symm
              subst hceq
              rcases hPr2 ha e hes with h' | h'
              · exact absurd h' hvq
              · exact h'
            · exact absurd hr hvq
          · exact hI2.quiet ha he' v c hc hvq hvu e hes
        have hE2' : st2.early = false := by
          rw [hE2]
          exact hearly
        rw [heqstep]
        exact ih st2 hInv2 hE2'

/-- `create_tree` either runs out of fuel or yields an
invariant-satisfying state with the stated exit discipline. -/
theorem createTree_spec {ctx : Ctx} {s : Nat} (cok : CtxOK ctx s) (iters0 fuel : Nat) :
    createTree ctx s iters0 fuel = .out ∨
    ∃ st', createTree ctx s iters0 fuel = .ok st' ∧ Inv ctx s st' ∧
      (st'.early = false → st'.queue = []) ∧
      (st'.early = true → ctx.cfg.stopFirst = true ∧
        (getk st'.mincost ctx.dest).isSome) :=
  searchLoop_spec cok fuel (initState ctx s iters0) (initState_inv cok iters0) rfl

/-- Upward telescoping at quiescence: along a predecessor chain in a
non-Suurballe run with an empty queue, recorded costs are bounded by the
accumulated charge. -/
theorem Links.telescope_le {ctx : Ctx} {s : Nat} {st : SState}
    (hInv : Inv ctx s st) (hqe : st.queue = []) (hne : st.early = false)
    (halgo : ctx.algo ≠ .suurballe) :
    ∀ {a b : Nat} {l : List Nat} {c : Int}, Links ctx.g st.prev a b l c →
      ∀ {cb : Int}, getk st.mincost b = some cb →
      ∃ ca, getk st.mincost a = some ca ∧ ca ≤ cb + c := by
  intro a b l c h
  induction h with
  | nil v =>
    intro cb hcb
    exact ⟨cb, hcb, by simp⟩
  | @cons v w l cc e hv hrest ih =>
    intro cb hcb
    obtain ⟨ca', hca', hle'⟩ := ih hcb
    obtain ⟨hpd, hdb, cs, cv, hcs, hcv, hge⟩ := hInv.pedge v e hv
    have hmem := hInv.pmem halgo v e hv
    have hsrcq : psrc ctx.g e ∉ st.queue := by
      rw [hqe]
      exact List.not_mem_nil _
    obtain ⟨cd, hcd, hcdle⟩ :=
      hInv.quiet halgo hne (psrc ctx.g e) ca' hca' hsrcq (fun hf => hf) e hmem
    rw [hpd] at hcd
    have hchg : charge ctx.g e = pwt ctx.g e + nw ctx.g (pdst ctx.g e) :=
      searchEdges_charge hmem
    refine ⟨cd, hcd, ?_⟩
    rw [hchg]
    linarith

/-- At quiescence of a non-Suurballe run the predecessor map is acyclic. -/
theorem quiescent_acyclic {ctx : Ctx} {s : Nat} {st : SState}
    (hInv : Inv ctx s st) (hqe : st.queue = []) (hne : st.early = false)
    (halgo : ctx.algo ≠ .suurballe) :
    ∀ v l c, Links ctx.g st.prev v v l c → l = [] := by
  intro v l c hcyc
  by_contra hlne
  have hneg := hInv.negcyc v l c hcyc hlne
  obtain ⟨e, l', c', hv, hrest, hleq, hceq⟩ := hcyc.cons_inv hlne
  obtain ⟨hpd, hdb, cs, cv, hcs, hcv, hge⟩ := hInv.pedge v e hv
  obtain ⟨ca, hca, hle⟩ := Links.telescope_le hInv hqe hne halgo hcyc hcv
  rw [hca] at hcv
  injection hcv with hcv
  subst hcv
  linarith

/-- At quiescence the predecessor entry records an exact cost decomposition. -/
theorem prev_exact {ctx : Ctx} {s : Nat} {st : SState}
    (hInv : Inv ctx s st) (hqe : st.queue = []) (hne : st.early = false)
    (halgo : ctx.algo ≠ .suurballe) :
    ∀ v e, getk st.prev v = some (some e) →
      ∃ cs cv, getk st.mincost (psrc ctx.g e) = some cs ∧
        getk st.mincost v = some cv ∧ cv = cs + charge ctx.g e := by
  intro v e hv
  obtain ⟨hpd, hdb, cs, cv, hcs, hcv, hge⟩ := hInv.pedge v e hv
  have hmem := hInv.pmem halgo v e hv
  have hsrcq : psrc ctx.g e ∉ st.queue := by
    rw [hqe]
    exact List.not_mem_nil _
  obtain ⟨cd, hcd, hcdle⟩ :=
    hInv.quiet halgo hne (psrc ctx.g e) cs hcs hsrcq (fun hf => hf) e hmem
  rw [hpd] at hcd
  rw [hcv] at hcd
  injection hcd with hcd
  subst hcd
  have hchg : charge ctx.g e = pwt ctx.g e + nw ctx.g (pdst ctx.g e) :=
    searchEdges_charge hmem
  refine ⟨cs, cv, hcs, hcv, ?_⟩
  rw [hchg]
  rw [hchg] at hge
  linarith

/-- In a plain context, cost-reachability implies graph reachability. -/
theorem CostReach.greach {ctx : Ctx} {s : Nat} (halgo : ctx.algo = .plain) :
    ∀ {v : Nat} {c : Int}, CostReach ctx s v c → GReach ctx.g s v := by
  intro v c h
  induction h with
  | start => exact GReach.start
  | @step u c' e hr hmem ih =>
    rcases searchEdges_cases hmem with ⟨i, hi, rfl⟩ | ⟨fe, hfe, rfl⟩
    · exact GReach.step ih hi
    · simp only [searchEdges, halgo, List.mem_map] at hmem
      obtain ⟨i, -, h⟩ := hmem
      cases h

/-- In a plain quiescent state every node reachable from the start has a
recorded label. -/
theorem greach_labeled {ctx : Ctx} {s : Nat} {st : SState}
    (hInv : Inv ctx s st) (hqe : st.queue = []) (hne : st.early = false)
    (halgo : ctx.algo = .plain) :
    ∀ {v : Nat}, GReach ctx.g s v → (getk st.mincost v).isSome := by
  intro v h
  induction h with
  | start => exact hInv.slab
  | @step u i hr hi ih =>
    obtain ⟨cu, hcu⟩ := Option.isSome_iff_exists.mp ih
    have hmem : PEdge.plain i ∈ searchEdges ctx u := by
      simp only [searchEdges, halgo, List.mem_map]
      exact ⟨i, hi, rfl⟩
    have huq : u ∉ st.queue := by
      rw [hqe]
      exact List.not_mem_nil _
    obtain ⟨cd, hcd, -⟩ := hInv.quiet (by rw [halgo]; intro h; cases h) hne u cu hcu huq
      (fun hf => hf) (PEdge.plain i) hmem
    show (getk st.mincost (pdst ctx.g (PEdge.plain i))).isSome = true
    rw [hcd]
    rfl

/-- A chain's hop list is its head followed by the edges' destinations. -/
theorem Chain.decomp {g : Graph} : ∀ {p : List PEdge} {h : List Nat},
    Chain g p h → ∀ {x : Nat}, h.head? = some x → h = x :: p.map (pdst g) := by
  intro p h hc
  induction hc with
  | single v =>
    intro x hx
    injection hx with hx
    rw [hx]
    rfl
  | @cons e p h hch hhd ih =>
    intro x hx
    injection hx with hx
    obtain ⟨y, hy⟩ := Option.isSome_iff_exists.mp (by rw [hhd]; rfl : h.head?.isSome)
    rw [hhd] at hy
    injection hy with hy
    rw [← hx, List.map_cons]
    rw [ih hhd]

/-- Index form of the alignment invariant. -/
theorem Chain.align {g : Graph} : ∀ {p : List PEdge} {h : List Nat},
    Chain g p h → h.length = p.length + 1 ∧
      ∀ i < p.length, psrc g (p.getD i (.plain 0)) = h.getD i 0 ∧
        pdst g (p.getD i (.plain 0)) = h.getD (i + 1) 0 := by
  intro p h hc
  induction hc with
  | single v =>
    refine ⟨rfl, ?_⟩
    intro i hi
    cases hi
  | @cons e p h hch hhd ih =>
    obtain ⟨hlen, hidx⟩ := ih
    refine ⟨by simp [hlen], ?_⟩
    intro i hi
    cases i with
    | zero =>
      refine ⟨rfl, ?_⟩
      cases h with
      | nil => cases hhd
      | cons z t =>
        simp only [List.head?_cons] at hhd
        injection hhd with hhd
        simp only [List.getD_cons_succ, List.getD_cons_zero]
        exact hhd.symm
    | succ j =>
      have hj : j < p.length := by
        simp only [List.length_cons] at hi
        omega
      simp only [List.getD_cons_succ]
      exact hidx j hj

theorem length_le_of_nodup_lt {l : List Nat} {n : Nat} (hnd : l.Nodup)
    (hlt : ∀ x ∈ l, x < n) : l.length ≤ n := by
  have hsub : l ⊆ List.range n := fun x hx => List.mem_range.mpr (hlt x hx)
  have := (List.subperm_of_subset hnd hsub).length_le
  simpa using this

/-- Structural correctness of `trace_path`'s walk: a successful walk
extends the accumulated chain back to the start node. -/
theorem walkPrev_ok {g : Graph} {prev : List (Nat × Option PEdge)} {s : Nat}
    (pd : ∀ v e, getk prev v = some (some e) → pdst g e = v)
    (pn : ∀ v, getk prev v = some none → v = s) :
    ∀ fuel oe path hops v res, hops.head? = some v → getk prev v = some oe →
      Chain g path hops →
      walkPrev g prev fuel oe path hops = .ok res →
      Chain g res.1 res.2 ∧ res.2.head? = some s ∧
      getk prev s = some none ∧
      (∃ t, res.2 = t ++ hops) ∧ (∃ t, res.1 = t ++ path) := by
  intro fuel
  induction fuel with
  | zero =>
    intro oe path hops v res hhd hv hch heq
    cases oe with
    | none =>
      injection heq with heq
      subst heq
      refine ⟨hch, ?_, ?_, ⟨[], rfl⟩, ⟨[], rfl⟩⟩
      · rw [hhd, Option.some_inj]
        exact pn v hv
      · rw [pn v hv] at hv
        exact hv
    | some e => cases heq
  | succ fuel ih =>
    intro oe path hops v res hhd hv hch heq
    cases oe with
    | none =>
      injection heq with heq
      subst heq
      refine ⟨hch, ?_, ?_, ⟨[], rfl⟩, ⟨[], rfl⟩⟩
      · rw [hhd, Option.some_inj]
        exact pn v hv
      · rw [pn v hv] at hv
        exact hv
    | some e =>
      simp only [walkPrev] at heq
      rcases hpe : getk prev (psrc g e) with - | pe
      · rw [hpe] at heq
        cases heq
      · rw [hpe] at heq
        have hch' : Chain g (e :: path) (psrc g e :: hops) := by
          refine Chain.cons hch ?_
          rw [hhd, Option.some_inj]
          exact (pd v e hv).symm
        obtain ⟨h1, h2, h3, ⟨t1, ht1⟩, ⟨t2, ht2⟩⟩ :=
          ih pe (e :: path) (psrc g e :: hops) (psrc g e) res rfl hpe hch' heq
        refine ⟨h1, h2, h3, ⟨t1 ++ [psrc g e], by rw [ht1]; simp⟩,
          ⟨t2 ++ [e], by rw [ht2]; simp⟩⟩

/-- Cost correctness of the walk under exact predecessor decompositions:
the final cost at the walk's first hop plus the charges along the path
equals the cost at its last hop. -/
theorem walkPrev_cost {g : Graph} {prev : List (Nat × Option PEdge)}
    {mc : List (Nat × Int)}
    (pex : ∀ v e, getk prev v = some (some e) →
      ∃ cs cv, getk mc (psrc g e) = some cs ∧ getk mc v = some cv ∧
        cv = cs + (pwt g e + nw g (pdst g e))) :
    ∀ fuel oe path hops v res, hops.head? = some v → getk prev v = some oe →
      walkPrev g prev fuel oe path hops = .ok res →
      ∀ cv, getk mc v = some cv →
      ∀ x, res.2.head? = some x →
      ∃ cx, getk mc x = some cx ∧
        cx + ((res.1.map (pwt g)).sum + (res.1.map (fun e => nw g (pdst g e))).sum) =
        cv + ((path.map (pwt g)).sum + (path.map (fun e => nw g (pdst g e))).sum) := by
  intro fuel
  induction fuel with
  | zero =>
    intro oe path hops v res hhd hv heq cv hcv x hx
    cases oe with
    | none =>
      injection heq with heq
      subst heq
      rw [hhd] at hx
      injection hx with hx
      subst hx
      exact ⟨cv, hcv, rfl⟩
    | some e => cases heq
  | succ fuel ih =>
    intro oe path hops v res hhd hv heq cv hcv x hx
    cases oe with
    | none =>
      injection heq with heq
      subst heq
      rw [hhd] at hx
      injection hx with hx
      subst hx
      exact ⟨cv, hcv, rfl⟩
    | some e =>
      simp only [walkPrev] at heq
      rcases hpe : getk prev (psrc g e) with - | pe
      · rw [hpe] at heq
        cases heq
      · rw [hpe] at heq
        obtain ⟨cs, cv', hcs, hcv', hdec⟩ := pex v e hv
        rw [hcv] at hcv'
        injection hcv' with hcv'
        obtain ⟨cx, hcx, hsum⟩ :=
          ih pe (e :: path) (psrc g e :: hops) (psrc g e) res rfl hpe heq cs hcs x hx
        refine ⟨cx, hcx, ?_⟩
        rw [hsum]
        simp only [List.map_cons, List.sum_cons]
        rw [← hcv'] at hdec
        linarith

/-- Termination of the walk when the predecessor map is acyclic: with fuel
beyond the number of distinct labelled nodes the walk returns. -/
theorem walkPrev_term {g : Graph} {prev : List (Nat × Option PEdge)} {n : Nat}
    (hacyc : ∀ v l c, Links g prev v v l c → l = [])
    (hlt : ∀ v, (getk prev v).isSome → v < n)
    (psl : ∀ v e, getk prev v = some (some e) → (getk prev (psrc g e)).isSome) :
    ∀ fuel oe path hops v, hops.head? = some v → getk prev v = some oe →
      hops.Nodup → (∀ x ∈ hops, (getk prev x).isSome) →
      (∀ x ∈ hops, ∃ l c, Links g prev x v l c) →
      n + 1 ≤ fuel + hops.length →
      ∃ res, walkPrev g prev fuel oe path hops = .ok res := by
  intro fuel
  induction fuel with
  | zero =>
    intro oe path hops v hhd hv hnd hall hlinks hfuel
    cases oe with
    | none => exact ⟨(path, hops), rfl⟩
    | some e =>
      exfalso
      have hlen : hops.length ≤ n :=
        length_le_of_nodup_lt hnd (fun x hx => hlt x (hall x hx))
      omega
  | succ fuel ih =>
    intro oe path hops v hhd hv hnd hall hlinks hfuel
    cases oe with
    | none => exact ⟨(path, hops), rfl⟩
    | some e =>
      have hvin : v ∈ hops := by
        cases hops with
        | nil => cases hhd
        | cons a t =>
          simp only [List.head?_cons] at hhd
          injection hhd with hhd
          rw [hhd]
          exact List.mem_cons_self v t
      have hstep : Links g prev v (psrc g e) [v] (charge g e) := by
        have := Links.cons hv (@Links.nil g prev (psrc g e))
        simpa using this
      have hnotin : psrc g e ∉ hops := by
        intro hin
        obtain ⟨l, c, hl⟩ := hlinks (psrc g e) hin
        have hcyc := hl.append hstep
        have := hacyc (psrc g e) (l ++ [v]) (c + charge g e) hcyc
        simp at this
      rcases hpe : getk prev (psrc g e) with - | pe
      · exfalso
        have := psl v e hv
        rw [hpe] at this
        cases this
      · simp only [walkPrev, hpe]
        refine ih pe (e :: path) (psrc g e :: hops) (psrc g e) rfl hpe
          (List.nodup_cons.mpr ⟨hnotin, hnd⟩) ?_ ?_ ?_
        · intro x hx
          rcases List.mem_cons.mp hx with rfl | hx
          · rw [hpe]
            rfl
          · exact hall x hx
        · intro x hx
          rcases List.mem_cons.mp hx with rfl | hx
          · exact ⟨[], 0, Links.nil _⟩
          · obtain ⟨l, c, hl⟩ := hlinks x hx
            exact ⟨l ++ [v], c + charge g e, hl.append hstep⟩
        · simp only [List.length_cons]
          omega



end PF

namespace PF

/-! ### C6: the synthetic edge types -/

/-- Helper: Suurballe's `_add_to_queue` aborts when the `_DoubleEdge` it is
about to build does not connect (`assert edge1.destination == edge2.source`). -/
theorem addQ_disconnected_fatal (ctx : Ctx) (st : SState) (v : Nat) (c : Int)
    (tr fe : PEdge) (halgo : ctx.algo = .suurballe) (htr : isInv tr = false)
    (hinv : getk ctx.invmap v = some fe) (hvd : v ≠ ctx.dest)
    (hdisc : pdst ctx.g tr ≠ psrc ctx.g (.invOf fe)) : addQ ctx st v c tr = .fatal := by
  obtain ⟨g, cfg, algo, dest, fwd, inv⟩ := ctx
  simp only at halgo
  subst halgo
  simp only [addQ, htr, hinv, if_neg hvd, if_neg hdisc]

/-- C6: `_InverseEdge(edge)` has source = edge.destination, destination =
edge.source and weight = −edge.weight; `_DoubleEdge(first, second)` has
source = first.source, destination = second.destination and weight =
first.weight + second.weight, and its constructor aborts unless
first.destination == second.source (shown at its only construction site,
Suurballe's `_add_to_queue`); and neither synthetic edge is ever stored in
a node's edge list — the search enumeration draws plain arena edges from
the adjacency lists and inverse edges only from the search-local
`_inverse_edges` map. -/
theorem inverse_double_edge_values :
    (∀ g e, psrc g (.invOf e) = pdst g e ∧ pdst g (.invOf e) = psrc g e ∧
      pwt g (.invOf e) = - pwt g e) ∧
    (∀ g e1 e2, psrc g (.dbl e1 e2) = psrc g e1 ∧ pdst g (.dbl e1 e2) = pdst g e2 ∧
      pwt g (.dbl e1 e2) = pwt g e1 + pwt g e2) ∧
    (∀ ctx st v c tr fe, ctx.algo = .suurballe → isInv tr = false →
      getk ctx.invmap v = some fe → v ≠ ctx.dest →
      pdst ctx.g tr ≠ psrc ctx.g (.invOf fe) → addQ ctx st v c tr = .fatal) ∧
    (∀ ctx v e, e ∈ searchEdges ctx v →
      (∃ i, i ∈ nodeOut ctx.g v ∧ e = .plain i) ∨
      (∃ fe, getk ctx.invmap v = some fe ∧ e = .invOf fe)) := by
  exact ⟨fun g e => ⟨rfl, rfl, rfl⟩, fun g e1 e2 => ⟨rfl, rfl, rfl⟩,
    addQ_disconnected_fatal, fun ctx v e he => searchEdges_cases he⟩

/-- Witness for C6: the hypothesis-bearing clauses applied at concrete
inputs — a disconnected `_DoubleEdge` construction attempt aborts, and a
concrete search enumeration decomposes as stated. -/
theorem inverse_double_edge_values_witness :
    addQ ⟨gUnit, bhandariCfg, .suurballe, 3, [], [(1, .plain 5)]⟩
        ⟨[], [], [], [], 0, false⟩ 1 0 (.plain 0) = .fatal ∧
    ((∃ i, i ∈ nodeOut gUnit 0 ∧ PEdge.plain 0 = .plain i) ∨
      (∃ fe, getk ([] : List (Nat × PEdge)) 0 = some fe ∧ PEdge.plain 0 = .invOf fe)) :=
  ⟨inverse_double_edge_values.2.2.1 _ _ _ _ _ _ rfl rfl rfl (by decide) (by decide),
   inverse_double_edge_values.2.2.2 ⟨gUnit, bfsCfg, .plain, 1, [], []⟩ 0 _ (by decide)⟩

/-! ### C9: assertion failures abort, they are never `NoPath` -/

/-- C9: the internal invariant checks — a repeated edge in
`Bhandari.trace_path`'s walk, a disconnected `_DoubleEdge`, and a hop
already present in `_inverse_edges` during
`Bhandari.initialise_path_find` — all evaluate to the fatal abort outcome,
which is distinct from every recoverable `NoPath` outcome. -/
theorem internal_asserts_fatal :
    (∀ g prev fuel e path, e ∈ path → bwalk g prev (fuel + 1) (some e) path = .fatal) ∧
    (∀ ctx st v c tr fe, ctx.algo = .suurballe → isInv tr = false →
      getk ctx.invmap v = some fe → v ≠ ctx.dest →
      pdst ctx.g tr ≠ psrc ctx.g (.invOf fe) → addQ ctx st v c tr = .fatal) ∧
    (∀ g d e rest m, pdst g e ≠ d → (getk m (pdst g e)).isSome →
      buildInv g d (e :: rest) m = .fatal) ∧
    (∀ (α : Type) (a : Option Nat) (b : Nat) (k : Option Nat),
      (Res.fatal : Res α) ≠ .noPath a b k) := by
  refine ⟨?_, addQ_disconnected_fatal, ?_, fun α a b k h => by cases h⟩
  · intro g prev fuel e path hmem
    simp only [bwalk, if_pos hmem]
  · intro g d e rest m hne hsome
    rcases hm : getk m (pdst g e) with - | w
    · rw [hm] at hsome
      cases hsome
    · simp only [buildInv, if_neg hne, hm]

/-- Witness for C9 at concrete inputs: a duplicated edge in the trace walk
aborts, and a duplicated interior hop during initialisation aborts. -/
theorem internal_asserts_fatal_witness :
    bwalk gUnit [] 1 (some (.plain 0)) [.plain 0] = .fatal ∧
    buildInv gUnit 5 [.plain 0] [(1, .plain 0)] = .fatal :=
  ⟨internal_asserts_fatal.1 _ _ 0 _ _ (by decide),
   internal_asserts_fatal.2.2.1 _ _ _ _ _ (by decide) (by decide)⟩

/-! ### C2: the relaxation step -/

/-- C2: for an outgoing edge of the popped node (whose recorded cost is
`cur`) towards neighbour `N = pdst e`, the candidate cost is
`cur + edge.weight + N.weight`; the three labels are rewritten and `N` is
enqueued exactly when `N` has no recorded cost or the candidate is strictly
cheaper (ties keep the first-found path); the queue gains `N` only when `N`
is not already pending, so the queue never acquires a duplicate. -/
theorem relax_step_characterization (ctx : Ctx) (cur : Int) (st : SState)
    (e : PEdge) (rest : List PEdge)
    (halgo : ctx.algo = .plain ∨ ctx.algo = .bhandari) :
    (getk st.mincost (pdst ctx.g e) = none ∨
      (∃ c, getk st.mincost (pdst ctx.g e) = some c ∧
        cur + pwt ctx.g e + nw ctx.g (pdst ctx.g e) < c) →
      relaxAll ctx cur st (e :: rest) =
        relaxAll ctx cur (addQbase ctx st (pdst ctx.g e)
          (cur + pwt ctx.g e + nw ctx.g (pdst ctx.g e)) e) rest) ∧
    ((∃ c, getk st.mincost (pdst ctx.g e) = some c ∧
        ¬ cur + pwt ctx.g e + nw ctx.g (pdst ctx.g e) < c) →
      relaxAll ctx cur st (e :: rest) = relaxAll ctx cur st rest) ∧
    (∀ v c tr,
      (addQbase ctx st v c tr).mincost = setk st.mincost v c ∧
      (addQbase ctx st v c tr).minpath = setk st.minpath v (c + ctx.cfg.h v ctx.dest) ∧
      (addQbase ctx st v c tr).prev = setk st.prev v (some tr) ∧
      (addQbase ctx st v c tr).queue =
        (if v ∈ st.queue then st.queue else st.queue ++ [v])) ∧
    (∀ v c tr, st.queue.Nodup → (addQbase ctx st v c tr).queue.Nodup) := by
  obtain ⟨g, cfg, algo, dst, fwd, inv⟩ := ctx
  refine ⟨?_, ?_, fun v c tr => ⟨rfl, rfl, rfl, rfl⟩, ?_⟩
  · intro h
    have hb : better st (pdst g e) (cur + pwt g e + nw g (pdst g e)) = true := by
      rcases h with h | ⟨c, hc, hlt⟩
      · simp [better, h]
      · simp [better, hc, hlt]
    rcases halgo with h' | h' <;> simp only at h' <;> subst h' <;>
      simp only [relaxAll, hb, if_pos, addQ]
  · intro ⟨c, hc, hge⟩
    have hb : better st (pdst g e) (cur + pwt g e + nw g (pdst g e)) = false := by
      simp [better, hc, hge]
    simp only [relaxAll, hb, Bool.false_eq_true, if_neg, not_false_iff]
  · intro v c tr h
    simp only [addQbase]
    by_cases hv : v ∈ st.queue
    · simpa [hv] using h
    · simp [hv, List.nodup_append, h]

/-- Witness for C2: the strict-improvement branch fires on a fresh
neighbour of `gUnit`, and the tie branch leaves the state alone. -/
theorem relax_step_characterization_witness :
    relaxAll ⟨gUnit, bfsCfg, .plain, 1, [], []⟩ 1
        (initState ⟨gUnit, bfsCfg, .plain, 1, [], []⟩ 0 0) [.plain 0] =
      relaxAll ⟨gUnit, bfsCfg, .plain, 1, [], []⟩ 1
        (addQbase ⟨gUnit, bfsCfg, .plain, 1, [], []⟩
          (initState ⟨gUnit, bfsCfg, .plain, 1, [], []⟩ 0 0) 1 3 (.plain 0)) [] :=
  (relax_step_characterization ⟨gUnit, bfsCfg, .plain, 1, [], []⟩ 1
    (initState ⟨gUnit, bfsCfg, .plain, 1, [], []⟩ 0 0) (.plain 0) []
    (Or.inl rfl)).1 (Or.inl (by decide))

/-! ### Counterexamples on concrete graphs -/

/-- Counterexample to C1 as stated: on `gStale`, the BFS variant (a
single-path variant of `PathFinder.solve`) succeeds with `cost = 6`, but
the weights along the returned path and hops sum to `3`: the returned cost
of an early-stopping unsorted search can be stale. -/
theorem path_result_roundtrip_cex :
    solve gStale bfsCfg 0 3 100 =
      .ok ⟨[.plain 1, .plain 2, .plain 3], [0, 2, 1, 3], 6⟩ ∧
    ([PEdge.plain 1, .plain 2, .plain 3].map (pwt gStale)).sum +
      (([0, 2, 1, 3] : List Nat).map (nw gStale)).sum = 3 ∧
    (6 : Int) ≠ 3 := by
  exact ⟨by decide, by decide, by decide⟩

/-- Counterexample to C8 as stated: on `gUnit` every edge weight and every
node weight is 1, yet the Dijkstra variant's cost (3) differs from the
hop-count of the BFS variant's path, whether hops are counted as nodes (2)
or as edges (1). -/
theorem unit_weight_dijkstra_bfs_cex :
    solve gUnit dijkstraCfg 0 1 100 = .ok ⟨[.plain 0], [0, 1], 3⟩ ∧
    solve gUnit bfsCfg 0 1 100 = .ok ⟨[.plain 0], [0, 1], 3⟩ ∧
    (∀ e ∈ gUnit.edges, e.weight = 1) ∧ (∀ n ∈ gUnit.nodes, n.weight = 1) ∧
    (3 : Int) ≠ (([0, 1] : List Nat).length : Int) ∧
    (3 : Int) ≠ (([PEdge.plain 0] : List PEdge).length : Int) := by
  exact ⟨by decide, by decide, by decide, by decide, by decide, by decide⟩

/-! ### C10 and C3: the outcome discipline of `solve` -/

/-- Any singleton queue pops its only element under every configuration. -/
theorem popQueue_single (cfg : Config) (key : Nat → Int) (v : Nat) :
    popQueue cfg key [v] = (v, []) := by
  cases hs : cfg.sortQueue <;> cases hl : cfg.lifo <;>
    simp [popQueue, sortDesc, insDesc, popLast, popHead, hs, hl]

/-- The plain single-path context built by `solve` is well-formed. -/
theorem ctxOK_plain (g : Graph) (cfg : Config) (d s : Nat) (hwf : WF g)
    (hs : s < g.nodes.length) : CtxOK ⟨g, cfg, .plain, d, [], []⟩ s :=
  ⟨hwf.1, hwf.2, hs, fun v fe h => by cases h⟩

/-- A `None` predecessor entry ends the walk at once, at any fuel. -/
theorem walkPrev_none {g : Graph} {prev : List (Nat × Option PEdge)}
    (fuel : Nat) (path : List PEdge) (hops : List Nat) :
    walkPrev g prev fuel none path hops = .ok (path, hops) := by
  cases fuel <;> rfl

/-- `trace_path`'s predecessor walk never raises `NoPath`. -/
theorem walkPrev_not_nopath {g : Graph} {prev : List (Nat × Option PEdge)} :
    ∀ fuel oe path hops a b k,
      walkPrev g prev fuel oe path hops ≠ .noPath a b k := by
  intro fuel
  induction fuel with
  | zero =>
    intro oe path hops a b k h
    cases oe with
    | none => cases h
    | some e => cases h
  | succ fuel ih =>
    intro oe path hops a b k h
    cases oe with
    | none => cases h
    | some e =>
      simp only [walkPrev] at h
      rcases hpe : getk prev (psrc g e) with - | pe
      · rw [hpe] at h
        cases h
      · rw [hpe] at h
        exact ih pe (e :: path) (psrc g e :: hops) a b k h

/-- `trace_path`'s walk never hits a missing predecessor entry (an uncaught
`KeyError`) when every recorded edge's source is itself recorded. -/
theorem walkPrev_not_fatal {g : Graph} {prev : List (Nat × Option PEdge)}
    (psl : ∀ v e, getk prev v = some (some e) → (getk prev (psrc g e)).isSome) :
    ∀ fuel oe path hops, (∀ e, oe = some e → (getk prev (psrc g e)).isSome) →
      walkPrev g prev fuel oe path hops ≠ .fatal := by
  intro fuel
  induction fuel with
  | zero =>
    intro oe path hops hoe h
    cases oe with
    | none => cases h
    | some e => cases h
  | succ fuel ih =>
    intro oe path hops hoe h
    cases oe with
    | none => cases h
    | some e =>
      simp only [walkPrev] at h
      rcases hpe : getk prev (psrc g e) with - | pe
      · have hsome := hoe e rfl
        rw [hpe] at hsome
        cases hsome
      · rw [hpe] at h
        refine ih pe (e :: path) (psrc g e :: hops) ?_ h
        intro f hf
        subst hf
        exact psl (psrc g e) f hpe

/-- At a quiescent final state the predecessor walk from any recorded node
finishes once the fuel reaches the node count. -/
theorem quiescent_walk_ok {ctx : Ctx} {s : Nat} {st : SState}
    (hInv : Inv ctx s st) (hqe : st.queue = []) (hne : st.early = false)
    (halgo : ctx.algo ≠ .suurballe) {d : Nat} {oe : Option PEdge}
    (hd : getk st.prev d = some oe) {fuel : Nat}
    (hfuel : ctx.g.nodes.length ≤ fuel) :
    ∃ res, walkPrev ctx.g st.prev fuel oe [] [d] = .ok res := by
  refine walkPrev_term (quiescent_acyclic hInv hqe hne halgo)
    (fun v h => hInv.ltn v ((hInv.dom_pc v).mpr h))
    (fun v e h => ?_) fuel oe [] [d] d rfl hd (by simp) ?_ ?_ ?_
  · obtain ⟨-, -, cs, cv, hcs, -, -⟩ := hInv.pedge v e h
    exact (hInv.dom_pc _).mp (by rw [hcs]; rfl)
  · intro x hx
    rcases List.mem_singleton.mp hx with rfl
    rw [hd]
    rfl
  · intro x hx
    rcases List.mem_singleton.mp hx with rfl
    exact ⟨[], 0, Links.nil _⟩
  · simp only [List.length_singleton]
    omega

/-- With `stop_first_answer` and `start == destination` the search loop
breaks in its very first iteration, before relaxing anything. -/
theorem createTree_self_stop (ctx : Ctx) (s : Nat) (fuel : Nat)
    (hsf : ctx.cfg.stopFirst = true) (hd : ctx.dest = s) :
    createTree ctx s 0 (fuel + 1) =
      .ok { prev := [(s, none)]
            mincost := [(s, nw ctx.g s)]
            minpath := [(s, nw ctx.g s + ctx.cfg.h s ctx.dest)]
            queue := []
            iters := 1
            early := true } := by
  show searchLoop ctx (fuel + 1) (initState ctx s 0) = _
  rw [searchLoop_succ ctx fuel (initState ctx s 0) s [] rfl]
  simp only [initState]
  rw [popQueue_single, if_pos ⟨hsf, by rw [hd]⟩]

/-- C10: searching from a node to itself never raises `NoPath`: unless the
fuel runs out, every single-path configuration returns the empty path, the
single hop list `[s]` and the start node's own weight as the cost. -/
theorem solve_self_trivial (g : Graph) (cfg : Config) (s : Nat) (fuel : Nat)
    (hwf : WF g) (hs : s < g.nodes.length) :
    solve g cfg s s fuel = .ok ⟨[], [s], nw g s⟩ ∨ solve g cfg s s fuel = .out := by
  have cok : CtxOK ⟨g, cfg, .plain, s, [], []⟩ s := ctxOK_plain g cfg s s hwf hs
  have hsolve : solve g cfg s s fuel =
      Res.bind (createTree ⟨g, cfg, .plain, s, [], []⟩ s 0 fuel) (fun st =>
        if (getk st.prev s).isSome then tracePath g st s fuel
        else .noPath (some s) s none) := rfl
  by_cases hsf : cfg.stopFirst = true
  · cases fuel with
    | zero => exact Or.inr rfl
    | succ fuel =>
      left
      rw [hsolve, createTree_self_stop _ _ _ hsf rfl]
      simp [Res.bind, tracePath, getk, walkPrev]
  · rcases createTree_spec cok 0 fuel with hout | ⟨st, hok, hInv, hqe, hearly⟩
    · right
      rw [hsolve, hout]
      rfl
    · have hne : st.early = false := by
        cases he : st.early
        · rfl
        · exact absurd (hearly he).1 hsf
      have hqe2 : st.queue = [] := hqe hne
      have hps : getk st.prev s = some none := by
        rcases hsome : getk st.prev s with - | oe
        · have hl := (hInv.dom_pc s).mp hInv.slab
          rw [hsome] at hl
          cases hl
        · cases oe with
          | none => rfl
          | some e =>
            exfalso
            obtain ⟨res, hres⟩ := quiescent_walk_ok hInv hqe2 hne
              (by intro h; cases h) hsome le_rfl
            obtain ⟨-, -, hnone, -⟩ := walkPrev_ok
              (fun v f h => (hInv.pedge v f h).1) hInv.pnone
              _ (some e) [] [s] s res rfl hsome (Chain.single s) hres
            rw [hsome] at hnone
            injection hnone with hnone
            cases hnone
      have hmc : getk st.mincost s = some (nw g s) := hInv.snone hps
      left
      rw [hsolve, hok]
      simp only [Res.bind]
      rw [if_pos (by rw [hps]; rfl)]
      simp only [tracePath, hmc, hps]
      rw [walkPrev_none]
      rfl

/-- Witness for C10 on a concrete graph and configuration. -/
theorem solve_self_trivial_witness :
    solve gUnit bellmanFordCfg 0 0 100 = .ok ⟨[], [0], nw gUnit 0⟩ ∨
      solve gUnit bellmanFordCfg 0 0 100 = .out :=
  solve_self_trivial gUnit bellmanFordCfg 0 100 (by unfold WF; decide) (by decide)

/-- C3: characterization of the recoverable failure of `solve`: whenever it
raises, the exception is exactly `NoPath(start, destination)` and the
destination is indeed unreachable; when the destination is unreachable it
raises that exception (or the fuel runs out); it never aborts; when the
destination is reachable it produces a result unless the fuel runs out, and
after a quiescent terminating search with fuel at least the node count the
trace phase itself always completes. -/
theorem solve_nopath_characterization (g : Graph) (cfg : Config) (s d : Nat)
    (fuel : Nat) (hwf : WF g) (hs : s < g.nodes.length) :
    (∀ a b k, solve g cfg s d fuel = .noPath a b k →
      a = some s ∧ b = d ∧ k = none ∧ ¬ GReach g s d) ∧
    (¬ GReach g s d → solve g cfg s d fuel = .noPath (some s) d none ∨
      solve g cfg s d fuel = .out) ∧
    solve g cfg s d fuel ≠ .fatal ∧
    (GReach g s d → solve g cfg s d fuel = .out ∨
      ∃ r, solve g cfg s d fuel = .ok r) ∧
    (∀ st, createTree ⟨g, cfg, .plain, d, [], []⟩ s 0 fuel = .ok st →
      st.early = false → g.nodes.length ≤ fuel → GReach g s d →
      ∃ r, solve g cfg s d fuel = .ok r) := by
  have cok : CtxOK ⟨g, cfg, .plain, d, [], []⟩ s := ctxOK_plain g cfg d s hwf hs
  have hsolve : solve g cfg s d fuel =
      Res.bind (createTree ⟨g, cfg, .plain, d, [], []⟩ s 0 fuel) (fun st =>
        if (getk st.prev d).isSome then tracePath g st d fuel
        else .noPath (some s) d none) := rfl
  rcases createTree_spec cok 0 fuel with hout | ⟨st, hok, hInv, hqe, hearly⟩
  · have hval : solve g cfg s d fuel = .out := by
      rw [hsolve, hout]
      rfl
    refine ⟨?_, fun _ => Or.inr hval, ?_, fun _ => Or.inl hval, ?_⟩
    · intro a b k h
      rw [hval] at h
      cases h
    · rw [hval]
      intro h
      cases h
    · intro st hok
      rw [hout] at hok
      cases hok
  · by_cases hpd : (getk st.prev d).isSome
    · obtain ⟨c, hmc⟩ := Option.isSome_iff_exists.mp ((hInv.dom_pc d).mpr hpd)
      obtain ⟨oe, hpe⟩ := Option.isSome_iff_exists.mp hpd
      have hreach : GReach g s d :=
        CostReach.greach rfl (hInv.reach d c hmc)
      have psl : ∀ v e, getk st.prev v = some (some e) →
          (getk st.prev (psrc g e)).isSome := by
        intro v e h
        obtain ⟨-, -, cs, cv, hcs, -, -⟩ := hInv.pedge v e h
        exact (hInv.dom_pc _).mp (by rw [hcs]; rfl)
      have hval : solve g cfg s d fuel =
          Res.bind (walkPrev g st.prev fuel oe [] [d])
            (fun ph => .ok ⟨ph.1, ph.2, c⟩) := by
        rw [hsolve, hok]
        show (if (getk st.prev d).isSome then tracePath g st d fuel
          else Res.noPath (some s) d none) = _
        rw [if_pos hpd]
        simp only [tracePath, hmc, hpe]
      have hoe : ∀ e, oe = some e → (getk st.prev (psrc g e)).isSome := by
        intro e he
        subst he
        exact psl d e hpe
      rcases hw : walkPrev g st.prev fuel oe [] [d] with res | ⟨a, b, k⟩ | - | -
      · have hval2 : solve g cfg s d fuel = .ok ⟨res.1, res.2, c⟩ := by
          rw [hval, hw]
          rfl
        refine ⟨?_, fun hng => absurd hreach hng, ?_,
          fun _ => Or.inr ⟨_, hval2⟩, fun _ _ _ _ _ => ⟨_, hval2⟩⟩
        · intro a b k h
          rw [hval2] at h
          cases h
        · rw [hval2]
          intro h
          cases h
      · exact absurd hw (walkPrev_not_nopath fuel oe [] [d] a b k)
      · exact absurd hw (walkPrev_not_fatal psl fuel oe [] [d] hoe)
      · have hval2 : solve g cfg s d fuel = .out := by
          rw [hval, hw]
          rfl
        refine ⟨?_, fun hng => absurd hreach hng, ?_,
          fun _ => Or.inl hval2, ?_⟩
        · intro a b k h
          rw [hval2] at h
          cases h
        · rw [hval2]
          intro h
          cases h
        · intro st2 hok2 hne2 hfuel hr
          rw [hok] at hok2
          injection hok2 with hok2
          subst hok2
          obtain ⟨res, hres⟩ := quiescent_walk_ok hInv (hqe hne2) hne2
            (by intro h; cases h) hpe hfuel
          rw [hw] at hres
          cases hres
    · have hpn : getk st.prev d = none := by
        rcases hsome : getk st.prev d with - | oe
        · rfl
        · exact absurd (by rw [hsome]; rfl) hpd
      have hne : st.early = false := by
        cases he : st.early
        · rfl
        · exact absurd ((hInv.dom_pc d).mp (hearly he).2) hpd
      have hng : ¬ GReach g s d := by
        intro hr
        exact hpd ((hInv.dom_pc d).mp
          (greach_labeled hInv (hqe hne) hne rfl hr))
      have hval : solve g cfg s d fuel = .noPath (some s) d none := by
        rw [hsolve, hok]
        simp only [Res.bind]
        rw [if_neg hpd]
      refine ⟨?_, fun _ => Or.inl hval, ?_, fun hr => absurd hr hng,
        fun _ _ _ _ hr => absurd hr hng⟩
      · intro a b k h
        rw [hval] at h
        injection h with h1 h2 h3
        exact ⟨h1.symm, h2.symm, h3.symm, hng⟩
      · rw [hval]
        intro h
        cases h

/-- Witness for C3: the characterization applied to the one-edge graph with
start and destination swapped, where the destination is unreachable. -/
theorem solve_nopath_characterization_witness :
    (∀ a b k, solve gUnit dijkstraCfg 1 0 100 = .noPath a b k →
      a = some 1 ∧ b = 0 ∧ k = none ∧ ¬ GReach gUnit 1 0) ∧
    (¬ GReach gUnit 1 0 → solve gUnit dijkstraCfg 1 0 100 = .noPath (some 1) 0 none ∨
      solve gUnit dijkstraCfg 1 0 100 = .out) ∧
    solve gUnit dijkstraCfg 1 0 100 ≠ .fatal ∧
    (GReach gUnit 1 0 → solve gUnit dijkstraCfg 1 0 100 = .out ∨
      ∃ r, solve gUnit dijkstraCfg 1 0 100 = .ok r) ∧
    (∀ st, createTree ⟨gUnit, dijkstraCfg, .plain, 0, [], []⟩ 1 0 100 = .ok st →
      st.early = false → gUnit.nodes.length ≤ 100 → GReach gUnit 1 0 →
      ∃ r, solve gUnit dijkstraCfg 1 0 100 = .ok r) :=
  solve_nopath_characterization gUnit dijkstraCfg 1 0 100 (by unfold WF; decide) (by decide)

/-! ### C7: the termination measure on non-negative weights -/

theorem le_foldr_max (f : Edge → Int) :
    ∀ l : List Edge, ∀ e ∈ l, f e ≤ l.foldr (fun e m => max (f e) m) 0 := by
  intro l
  induction l with
  | nil =>
    intro e he
    cases he
  | cons a t ih =>
    intro e he
    rcases List.mem_cons.mp he with rfl | he
    · exact le_max_left _ _
    · exact le_trans (ih e he) (le_max_right _ _)

theorem foldr_max_nonneg (f : Edge → Int) :
    ∀ l : List Edge, 0 ≤ l.foldr (fun e m => max (f e) m) 0 := by
  intro l
  induction l with
  | nil => exact le_rfl
  | cons a t ih => exact le_trans ih (le_max_right _ _)

theorem maxCharge_nonneg (g : Graph) : 0 ≤ maxCharge g :=
  foldr_max_nonneg _ g.edges

theorem charge_le_maxCharge {g : Graph} {i : Nat} (h : i < g.edges.length) :
    charge g (.plain i) ≤ maxCharge g :=
  le_foldr_max _ g.edges (arenaEdge g i) (arenaEdge_mem g h)

theorem nw_nonneg {g : Graph} (hN : ∀ nd ∈ g.nodes, 0 ≤ nd.weight) {v : Nat}
    (hv : v < g.nodes.length) : 0 ≤ nw g v := by
  have hmem : g.nodes.getD v ⟨0, []⟩ ∈ g.nodes := by
    rw [List.getD_eq_getElem?_getD, List.getElem?_eq_getElem hv]
    exact List.getElem_mem hv
  exact hN _ hmem

theorem labCount_le (mc : List (Nat × Int)) : ∀ n, labCount mc n ≤ n := by
  intro n
  induction n with
  | zero => exact le_rfl
  | succ n ih =>
    simp only [labCount]
    split <;> omega

theorem labCount_setk_some {mc : List (Nat × Int)} {v : Nat}
    (h : (getk mc v).isSome) (c : Int) :
    ∀ n, labCount (setk mc v c) n = labCount mc n := by
  intro n
  induction n with
  | zero => rfl
  | succ n ih =>
    simp only [labCount, ih]
    rcases eq_or_ne v n with rfl | hne
    · simp [getk_setk_same, h]
    · rw [getk_setk_ne mc c hne]

theorem labCount_setk_fresh {mc : List (Nat × Int)} {v : Nat}
    (h : getk mc v = none) (c : Int) :
    ∀ n, labCount (setk mc v c) n = labCount mc n + (if v < n then 1 else 0) := by
  intro n
  induction n with
  | zero => rfl
  | succ n ih =>
    simp only [labCount, ih]
    rcases eq_or_ne v n with rfl | hne
    · rw [getk_setk_same, h, if_pos (Option.isSome_some : (some c).isSome = true),
        if_neg (by simp : ¬ ((none : Option Int).isSome = true)),
        if_pos (Nat.lt_succ_self v), if_neg (lt_irrefl v)]
    · rw [getk_setk_ne mc c hne]
      by_cases hv : v < n
      · rw [if_pos hv, if_pos (by omega : v < n + 1)]
        omega
      · rw [if_neg hv, if_neg (by omega : ¬ v < n + 1)]
        omega

theorem labCount_lt_of_fresh {mc : List (Nat × Int)} {v n : Nat} (hv : v < n)
    (h : getk mc v = none) : labCount mc n < n := by
  induction n with
  | zero => cases hv
  | succ n ih =>
    rcases eq_or_ne v n with rfl | hne
    · have hle := labCount_le mc v
      simp only [labCount, h, Option.isSome_none, Bool.false_eq_true, if_false]
      omega
    · have hv2 : v < n := by omega
      have := ih hv2
      simp only [labCount]
      split <;> omega

theorem potOf_setk_ne {B : Int} {mc : List (Nat × Int)} {v : Nat} {c : Int} {x : Nat}
    (h : v ≠ x) : potOf B (setk mc v c) x = potOf B mc x := by
  simp only [potOf, getk_setk_ne mc c h]

theorem potOf_setk_same {B : Int} {mc : List (Nat × Int)} {v : Nat} {c : Int} :
    potOf B (setk mc v c) v = c.toNat := by
  simp only [potOf, getk_setk_same]

theorem potSum_congr (B : Int) {mc mc' : List (Nat × Int)} :
    ∀ n, (∀ x, x < n → potOf B mc x = potOf B mc' x) →
      potSum B mc n = potSum B mc' n := by
  intro n
  induction n with
  | zero =>
    intro h
    rfl
  | succ n ih =>
    intro h
    simp only [potSum, ih (fun x hx => h x (by omega)), h n (by omega)]

theorem potSum_setk (B : Int) (mc : List (Nat × Int)) (v : Nat) (c : Int) :
    ∀ n, v < n → potSum B (setk mc v c) n + potOf B mc v = potSum B mc n + c.toNat := by
  intro n
  induction n with
  | zero =>
    intro h
    cases h
  | succ n ih =>
    intro h
    rcases eq_or_ne v n with rfl | hne
    · have hps : potSum B (setk mc v c) v = potSum B mc v :=
        potSum_congr B v (fun x hx => potOf_setk_ne (by omega))
      simp only [potSum, hps, potOf_setk_same]
      omega
    · have hv : v < n := by omega
      have hih := ih hv
      simp only [potSum, potOf_setk_ne hne]
      omega

theorem potSum_update_lt {B : Int} {mc : List (Nat × Int)} {v : Nat} {c : Int} {n : Nat}
    (hv : v < n) (h0 : 0 ≤ c)
    (hlt : ∀ cold, getk mc v = some cold → c < cold)
    (hfresh : getk mc v = none → c ≤ B) :
    potSum B (setk mc v c) n < potSum B mc n := by
  have key := potSum_setk B mc v c n hv
  rcases hmv : getk mc v with - | cold
  · have hpot : potOf B mc v = (B + 1).toNat := by simp [potOf, hmv]
    have hb := hfresh hmv
    omega
  · have hpot : potOf B mc v = cold.toNat := by simp [potOf, hmv]
    have hc := hlt cold hmv
    omega

/-- One accepted relaxation update keeps the termination facts, can only
grow the labelled set, and strictly shrinks the loop measure. -/
theorem addQbase_term {ctx : Ctx} {s : Nat} {st : SState} {v : Nat} {c : Int} {tr : PEdge}
    (hTI : TermInv ctx s st) (hvn : v < ctx.g.nodes.length) (h0 : 0 ≤ c)
    (hb : better st v c = true)
    (hcB : c ≤ nw ctx.g s +
      ((labCount st.mincost ctx.g.nodes.length + 1 : Nat) : Int) * maxCharge ctx.g) :
    TermInv ctx s (addQbase ctx st v c tr) ∧
    labCount st.mincost ctx.g.nodes.length ≤
      labCount (addQbase ctx st v c tr).mincost ctx.g.nodes.length ∧
    measureOf ctx s (addQbase ctx st v c tr) < measureOf ctx s st := by
  have hmc2 : (addQbase ctx st v c tr).mincost = setk st.mincost v c := rfl
  have hq2 : (addQbase ctx st v c tr).queue =
      (if v ∈ st.queue then st.queue else st.queue ++ [v]) := rfl
  have hqlen : (addQbase ctx st v c tr).queue.length ≤ st.queue.length + 1 := by
    rw [hq2]
    split
    · omega
    · simp
  refine ⟨⟨?_, ?_, ?_, ?_⟩, ?_, ?_⟩
  · intro w hw
    rw [hmc2] at hw
    rcases (getk_setk_isSome st.mincost v w c).mp hw with rfl | hw
    · exact hvn
    · exact hTI.ltn w hw
  · intro w cw hcw
    rw [hmc2] at hcw
    rcases eq_or_ne v w with rfl | hne
    · rw [getk_setk_same] at hcw
      injection hcw with hcw
      exact hcw ▸ h0
    · rw [getk_setk_ne st.mincost c hne] at hcw
      exact hTI.nonneg w cw hcw
  · intro w cw hcw
    rw [hmc2] at hcw ⊢
    rcases hmv : getk st.mincost v with - | cold
    · have hL : labCount (setk st.mincost v c) ctx.g.nodes.length =
          labCount st.mincost ctx.g.nodes.length + 1 := by
        rw [labCount_setk_fresh hmv c, if_pos hvn]
      rw [hL]
      rcases eq_or_ne v w with rfl | hne
      · rw [getk_setk_same] at hcw
        injection hcw with hcw
        have hcB2 := hcB
        push_cast at hcB2 ⊢
        rw [← hcw]
        linarith
      · rw [getk_setk_ne st.mincost c hne] at hcw
        have hold := hTI.bnd w cw hcw
        have hm0 := maxCharge_nonneg ctx.g
        push_cast at hold ⊢
        linarith
    · have hL : labCount (setk st.mincost v c) ctx.g.nodes.length =
          labCount st.mincost ctx.g.nodes.length :=
        labCount_setk_some (by rw [hmv]; rfl) c ctx.g.nodes.length
      rw [hL]
      rcases eq_or_ne v w with rfl | hne
      · rw [getk_setk_same] at hcw
        injection hcw with hcw
        have hclt := better_lt hb cold hmv
        have hold := hTI.bnd v cold hmv
        rw [← hcw]
        linarith
      · rw [getk_setk_ne st.mincost c hne] at hcw
        exact hTI.bnd w cw hcw
  · intro w hw
    rw [hq2] at hw
    rw [hmc2]
    by_cases hvq : v ∈ st.queue
    · rw [if_pos hvq] at hw
      exact (getk_setk_isSome _ v w c).mpr (Or.inr (hTI.qsub w hw))
    · rw [if_neg hvq] at hw
      rcases List.mem_append.mp hw with hw | hw
      · exact (getk_setk_isSome _ v w c).mpr (Or.inr (hTI.qsub w hw))
      · have hw2 := List.mem_singleton.mp hw
        exact (getk_setk_isSome _ v w c).mpr (Or.inl hw2.symm)
  · rw [hmc2]
    rcases hmv : getk st.mincost v with - | cold
    · rw [labCount_setk_fresh hmv c]
      omega
    · rw [labCount_setk_some (by rw [hmv]; rfl) c]
  · have hpot : potSum (termBound ctx s) (setk st.mincost v c) ctx.g.nodes.length <
        potSum (termBound ctx s) st.mincost ctx.g.nodes.length := by
      refine potSum_update_lt hvn h0 (fun cold hcold => better_lt hb cold hcold) ?_
      intro hmv
      have hLn : labCount st.mincost ctx.g.nodes.length < ctx.g.nodes.length :=
        labCount_lt_of_fresh hvn hmv
      have hm0 := maxCharge_nonneg ctx.g
      have hmul : ((labCount st.mincost ctx.g.nodes.length + 1 : Nat) : Int) *
          maxCharge ctx.g ≤ (ctx.g.nodes.length : Int) * maxCharge ctx.g := by
        refine mul_le_mul_of_nonneg_right ?_ hm0
        exact_mod_cast hLn
      unfold termBound
      linarith
    unfold measureOf
    rw [hmc2]
    omega

/-- The relaxation loop of one popped node (plain algorithm) always
returns, keeps the termination facts and never grows the loop measure. -/
theorem relaxAll_term {ctx : Ctx} {s : Nat} (halgo : ctx.algo = .plain)
    (cok : CtxOK ctx s)
    (hE : ∀ e ∈ ctx.g.edges, 0 ≤ e.weight)
    (hN : ∀ nd ∈ ctx.g.nodes, 0 ≤ nd.weight)
    (u : Nat) (hu : u < ctx.g.nodes.length) (cur : Int) (hc0 : 0 ≤ cur) :
    ∀ es st, (∀ e ∈ es, e ∈ searchEdges ctx u) → TermInv ctx s st →
      cur ≤ nw ctx.g s + (labCount st.mincost ctx.g.nodes.length : Int) * maxCharge ctx.g →
      ∃ st2, relaxAll ctx cur st es = .ok st2 ∧ TermInv ctx s st2 ∧
        measureOf ctx s st2 ≤ measureOf ctx s st := by
  intro es
  induction es with
  | nil =>
    intro st hsub hTI hcur
    exact ⟨st, rfl, hTI, le_rfl⟩
  | cons e rest ih =>
    intro st hsub hTI hcur
    have he0 := hsub e (List.mem_cons_self e rest)
    have he := he0
    simp only [searchEdges, halgo, List.mem_map] at he
    obtain ⟨i, hi, rfl⟩ := he
    have hilt : i < ctx.g.edges.length := (cok.wf_out u hu i hi).1
    have hnblt : pdst ctx.g (.plain i) < ctx.g.nodes.length :=
      searchEdges_dst_lt cok hu he0
    have hpw0 : 0 ≤ pwt ctx.g (.plain i) := hE _ (arenaEdge_mem ctx.g hilt)
    have hnw0 : 0 ≤ nw ctx.g (pdst ctx.g (.plain i)) := nw_nonneg hN hnblt
    have hchg : charge ctx.g (.plain i) ≤ maxCharge ctx.g := charge_le_maxCharge hilt
    cases hb : better st (pdst ctx.g (.plain i))
        (cur + pwt ctx.g (.plain i) + nw ctx.g (pdst ctx.g (.plain i))) with
    | false =>
      rw [relaxAll_cons_false hb]
      exact ih st (fun e2 h2 => hsub e2 (List.mem_cons_of_mem _ h2)) hTI hcur
    | true =>
      have haddq : addQ ctx st (pdst ctx.g (.plain i))
          (cur + pwt ctx.g (.plain i) + nw ctx.g (pdst ctx.g (.plain i))) (.plain i) =
          .ok (addQbase ctx st (pdst ctx.g (.plain i))
            (cur + pwt ctx.g (.plain i) + nw ctx.g (pdst ctx.g (.plain i))) (.plain i)) :=
        addQ_eq_base (Or.inl (by rw [halgo]; intro h; cases h))
      have h0c : 0 ≤ cur + pwt ctx.g (.plain i) + nw ctx.g (pdst ctx.g (.plain i)) := by
        linarith
      have hcB : cur + pwt ctx.g (.plain i) + nw ctx.g (pdst ctx.g (.plain i)) ≤
          nw ctx.g s + ((labCount st.mincost ctx.g.nodes.length + 1 : Nat) : Int) *
            maxCharge ctx.g := by
        have hch2 : pwt ctx.g (.plain i) + nw ctx.g (pdst ctx.g (.plain i)) =
            charge ctx.g (.plain i) := rfl
        push_cast
        linarith
      obtain ⟨hTI2, hLab2, hM2⟩ := addQbase_term hTI hnblt h0c hb hcB
      rw [relaxAll_cons_true hb, haddq]
      generalize hg : addQbase ctx st (pdst ctx.g (.plain i))
        (cur + pwt ctx.g (.plain i) + nw ctx.g (pdst ctx.g (.plain i))) (.plain i) = stA
        at hTI2 hLab2 hM2 ⊢
      have hcur2 : cur ≤ nw ctx.g s +
          (labCount stA.mincost ctx.g.nodes.length : Int) * maxCharge ctx.g := by
        have hm0 := maxCharge_nonneg ctx.g
        have hcast : ((labCount st.mincost ctx.g.nodes.length : Nat) : Int) ≤
            ((labCount stA.mincost ctx.g.nodes.length : Nat) : Int) := by
          exact_mod_cast hLab2
        have hmul := mul_le_mul_of_nonneg_right hcast hm0
        linarith
      obtain ⟨st2, heq2, hTI3, hM3⟩ :=
        ih stA (fun e2 h2 => hsub e2 (List.mem_cons_of_mem _ h2)) hTI2 hcur2
      exact ⟨st2, heq2, hTI3, le_trans hM3 (le_of_lt hM2)⟩

/-- The search loop (plain algorithm, non-negative weights) returns within
one plus its measure of fuel. -/
theorem searchLoop_term {ctx : Ctx} {s : Nat} (halgo : ctx.algo = .plain)
    (cok : CtxOK ctx s)
    (hE : ∀ e ∈ ctx.g.edges, 0 ≤ e.weight)
    (hN : ∀ nd ∈ ctx.g.nodes, 0 ≤ nd.weight) :
    ∀ m st, TermInv ctx s st → measureOf ctx s st ≤ m →
      ∃ st2, searchLoop ctx (m + 1) st = .ok st2 := by
  intro m
  induction m with
  | zero =>
    intro st hTI hm
    have hm2 : 2 * potSum (termBound ctx s) st.mincost ctx.g.nodes.length +
        st.queue.length ≤ 0 := hm
    have hq : st.queue = [] := List.length_eq_zero.mp (by omega)
    exact ⟨st, by rw [searchLoop, hq]⟩
  | succ m ih =>
    intro st hTI hm
    rcases hq : st.queue with - | ⟨v0, qt⟩
    · exact ⟨st, by rw [searchLoop, hq]⟩
    · have hqperm := popQueue_perm ctx.cfg (qkey { st with iters := st.iters + 1 })
        st.queue (by rw [hq]; simp)
      have humem := hqperm.mem_iff.mpr
        (List.mem_cons_self (popQueue ctx.cfg (qkey { st with iters := st.iters + 1 }) st.queue).1
          (popQueue ctx.cfg (qkey { st with iters := st.iters + 1 }) st.queue).2)
      have hulab := hTI.qsub _ humem
      obtain ⟨cu, hcu⟩ := Option.isSome_iff_exists.mp hulab
      have hult := hTI.ltn _ hulab
      by_cases hstop : ctx.cfg.stopFirst ∧
          (popQueue ctx.cfg (qkey { st with iters := st.iters + 1 }) st.queue).1 = ctx.dest
      · exact ⟨_, by rw [searchLoop_succ ctx (m + 1) st v0 qt hq, if_pos hstop]⟩
      · have hTIP : TermInv ctx s
            { st with
              iters := st.iters + 1
              queue := (popQueue ctx.cfg (qkey { st with iters := st.iters + 1 }) st.queue).2 } :=
          ⟨hTI.ltn, hTI.nonneg, hTI.bnd, fun v hv =>
            hTI.qsub v (hqperm.mem_iff.mpr (List.mem_cons_of_mem _ hv))⟩
        obtain ⟨st2, heq2, hTI2, hM2⟩ := relaxAll_term halgo cok hE hN
          (popQueue ctx.cfg (qkey { st with iters := st.iters + 1 }) st.queue).1 hult cu
          (hTI.nonneg _ cu hcu)
          (searchEdges ctx (popQueue ctx.cfg (qkey { st with iters := st.iters + 1 }) st.queue).1)
          { st with
            iters := st.iters + 1
            queue := (popQueue ctx.cfg (qkey { st with iters := st.iters + 1 }) st.queue).2 }
          (fun e he => he) hTIP (hTI.bnd _ cu hcu)
        have hlen : st.queue.length =
            (popQueue ctx.cfg (qkey { st with iters := st.iters + 1 }) st.queue).2.length + 1 := by
          have hl := hqperm.length_eq
          simp only [List.length_cons] at hl
          exact hl
        have hm2 : 2 * potSum (termBound ctx s) st.mincost ctx.g.nodes.length +
            st.queue.length ≤ m + 1 := hm
        have hMP : measureOf ctx s
            { st with
              iters := st.iters + 1
              queue := (popQueue ctx.cfg (qkey { st with iters := st.iters + 1 }) st.queue).2 } ≤
            m := by
          show 2 * potSum (termBound ctx s) st.mincost ctx.g.nodes.length +
            (popQueue ctx.cfg (qkey { st with iters := st.iters + 1 }) st.queue).2.length ≤ m
          omega
        have hM3 : measureOf ctx s st2 ≤ m := le_trans hM2 hMP
        have heqstep : searchLoop ctx (m + 1 + 1) st = searchLoop ctx (m + 1) st2 := by
          rw [searchLoop_succ ctx (m + 1) st v0 qt hq, if_neg hstop,
            show (getk st.mincost
              (popQueue ctx.cfg (qkey { st with iters := st.iters + 1 }) st.queue).1).getD 0 = cu
              from by rw [hcu]; rfl, heq2]
        obtain ⟨st3, heq3⟩ := ih st2 hTI2 hM3
        exact ⟨st3, by rw [heqstep]; exact heq3⟩

/-- Counterexample to C7 as stated: every edge weight of `gLoop` is
non-negative, yet the Bellman–Ford-configured search on it never returns —
the node's negative weight drives its own label down forever, so
non-negative edge weights alone do not give termination. -/
theorem create_tree_nonneg_edges_nonterm_cex :
    (∀ e ∈ gLoop.edges, 0 ≤ e.weight) ∧
    ∀ fuel, createTree ⟨gLoop, bellmanFordCfg, .plain, 0, [], []⟩ 0 0 fuel = .out := by
  refine ⟨by decide, fun fuel => ?_⟩
  have cok : CtxOK ⟨gLoop, bellmanFordCfg, .plain, 0, [], []⟩ 0 :=
    ⟨by decide, by decide, by decide, fun v fe h => by cases h⟩
  rcases createTree_spec cok 0 fuel with hout | ⟨st, hok, hInv, hqe, hearly⟩
  · exact hout
  exfalso
  have hne : st.early = false := by
    cases he : st.early
    · rfl
    · exact absurd (hearly he).1 (by decide)
  obtain ⟨c, hmc⟩ := Option.isSome_iff_exists.mp hInv.slab
  obtain ⟨cd, hcd, hle⟩ := hInv.quiet (by intro h; cases h) hne 0 c hmc
    (by rw [hqe hne]; exact List.not_mem_nil 0) (fun hf => hf) (.plain 0) (by decide)
  have hcd2 : getk st.mincost 0 = some cd := hcd
  rw [hmc] at hcd2
  injection hcd2 with hcd2
  have hle2 : cd ≤ c + pwt gLoop (.plain 0) + nw gLoop (pdst gLoop (.plain 0)) := hle
  have hw0 : pwt gLoop (.plain 0) = 0 := by decide
  have hn1 : nw gLoop (pdst gLoop (.plain 0)) = -1 := by decide
  rw [hw0, hn1] at hle2
  omega

/-- C7 amended: when every edge weight AND every node weight is
non-negative, the search loop of `create_tree` terminates, for every
start, destination and variant configuration — enough fuel exists for the
loop to return a final state. -/
theorem create_tree_terminates_nonneg (g : Graph) (cfg : Config) (s d : Nat)
    (hwf : WF g) (hs : s < g.nodes.length)
    (hE : ∀ e ∈ g.edges, 0 ≤ e.weight) (hN : ∀ nd ∈ g.nodes, 0 ≤ nd.weight) :
    ∃ fuel st, createTree ⟨g, cfg, .plain, d, [], []⟩ s 0 fuel = .ok st := by
  have cok : CtxOK ⟨g, cfg, .plain, d, [], []⟩ s := ctxOK_plain g cfg d s hwf hs
  have hTI : TermInv ⟨g, cfg, .plain, d, [], []⟩ s
      (initState ⟨g, cfg, .plain, d, [], []⟩ s 0) := by
    refine ⟨?_, ?_, ?_, ?_⟩
    · intro v hv
      simp only [initState] at hv
      by_cases hsv : s = v
      · exact hsv ▸ hs
      · simp only [getk, if_neg hsv] at hv
        cases hv
    · intro v c hc
      simp only [initState, getk] at hc
      by_cases hsv : s = v
      · rw [if_pos hsv] at hc
        injection hc with hc
        rw [← hc]
        exact nw_nonneg hN hs
      · rw [if_neg hsv] at hc
        cases hc
    · intro v c hc
      simp only [initState, getk] at hc
      by_cases hsv : s = v
      · rw [if_pos hsv] at hc
        injection hc with hc
        have hm0 := maxCharge_nonneg g
        have hc0 : (0 : Int) ≤ (labCount (initState ⟨g, cfg, .plain, d, [], []⟩ s 0).mincost
            g.nodes.length : Int) * maxCharge g :=
          mul_nonneg (Int.natCast_nonneg _) hm0
        rw [← hc]
        linarith
      · rw [if_neg hsv] at hc
        cases hc
    · intro v hv
      simp only [initState] at hv ⊢
      rcases List.mem_singleton.mp hv with rfl
      simp [getk]
  obtain ⟨st2, h2⟩ := searchLoop_term rfl cok hE hN
    (measureOf ⟨g, cfg, .plain, d, [], []⟩ s (initState ⟨g, cfg, .plain, d, [], []⟩ s 0))
    (initState ⟨g, cfg, .plain, d, [], []⟩ s 0) hTI le_rfl
  exact ⟨measureOf ⟨g, cfg, .plain, d, [], []⟩ s
    (initState ⟨g, cfg, .plain, d, [], []⟩ s 0) + 1, st2, h2⟩

/-- Witness for the amended C7 on a concrete all-non-negative graph. -/
theorem create_tree_terminates_nonneg_witness :
    ∃ fuel st, createTree ⟨gUnit, bellmanFordCfg, .plain, 1, [], []⟩ 0 0 fuel = .ok st :=
  create_tree_terminates_nonneg gUnit bellmanFordCfg 0 1 (by unfold WF; decide)
    (by decide) (by decide) (by decide)

/-! ### C8: shared facts about unit-weight searches -/

theorem GReachN_lt {g : Graph} {s : Nat} (hwf : WF g) (hs : s < g.nodes.length) :
    ∀ {v m}, GReachN g s v m → v < g.nodes.length := by
  intro v m h
  induction h with
  | start => exact hs
  | @step u i m hu hi ih =>
    have hilt := (hwf.1 u ih i hi).1
    exact (hwf.2 _ (arenaEdge_mem g hilt)).2

theorem pwt_unit {g : Graph} (hE1 : ∀ e ∈ g.edges, e.weight = 1) {i : Nat}
    (hi : i < g.edges.length) : pwt g (.plain i) = 1 :=
  hE1 _ (arenaEdge_mem g hi)

theorem nw_zero {g : Graph} (hN0 : ∀ nd ∈ g.nodes, nd.weight = 0) {v : Nat}
    (hv : v < g.nodes.length) : nw g v = 0 := by
  have hmem : g.nodes.getD v ⟨0, []⟩ ∈ g.nodes := by
    rw [List.getD_eq_getElem?_getD, List.getElem?_eq_getElem hv]
    exact List.getElem_mem hv
  exact hN0 _ hmem

/-- On a unit-weight graph a cost-reachable label is a walk length. -/
theorem costReach_unit {ctx : Ctx} {s : Nat} (cok : CtxOK ctx s)
    (halgo : ctx.algo = .plain)
    (hE1 : ∀ e ∈ ctx.g.edges, e.weight = 1) (hN0 : ∀ nd ∈ ctx.g.nodes, nd.weight = 0) :
    ∀ {v : Nat} {c : Int}, CostReach ctx s v c →
      v < ctx.g.nodes.length ∧ 0 ≤ c ∧ GReachN ctx.g s v c.toNat := by
  intro v c h
  induction h with
  | start =>
    refine ⟨cok.s_lt, ?_, ?_⟩
    · rw [nw_zero hN0 cok.s_lt]
    · rw [show (nw ctx.g s).toNat = 0 from by rw [nw_zero hN0 cok.s_lt]; rfl]
      exact GReachN.start
  | @step u c e hr hmem ih =>
    obtain ⟨hun, hc0, hg⟩ := ih
    have hmem2 := hmem
    simp only [searchEdges, halgo, List.mem_map] at hmem2
    obtain ⟨i, hi, rfl⟩ := hmem2
    have hilt := (cok.wf_out u hun i hi).1
    have hp1 : pwt ctx.g (.plain i) = 1 := pwt_unit hE1 hilt
    have hdlt : pdst ctx.g (.plain i) < ctx.g.nodes.length :=
      searchEdges_dst_lt cok hun hmem
    have hn0 : nw ctx.g (pdst ctx.g (.plain i)) = 0 := nw_zero hN0 hdlt
    refine ⟨hdlt, by rw [hp1, hn0]; omega, ?_⟩
    have htn : (c + pwt ctx.g (.plain i) + nw ctx.g (pdst ctx.g (.plain i))).toNat =
        c.toNat + 1 := by
      rw [hp1, hn0]
      omega
    rw [htn]
    exact GReachN.step hg hi

/-- The cut argument: in a quiet state of a plain unit-weight search, every
walk of length `m` ends at a settled node labelled at most `m`, or passes
the frontier at a queued node labelled at most `m`. -/
theorem unit_cut {ctx : Ctx} {s : Nat} {st : SState} (cok : CtxOK ctx s)
    (halgo : ctx.algo = .plain) (hInv : Inv ctx s st) (hne : st.early = false)
    (hE1 : ∀ e ∈ ctx.g.edges, e.weight = 1) (hN0 : ∀ nd ∈ ctx.g.nodes, nd.weight = 0) :
    ∀ {v m}, GReachN ctx.g s v m →
      (∃ c, getk st.mincost v = some c ∧ v ∉ st.queue ∧ c ≤ (m : Int)) ∨
      (∃ w cw, w ∈ st.queue ∧ getk st.mincost w = some cw ∧ cw ≤ (m : Int)) := by
  have halgo2 : ctx.algo ≠ .suurballe := by
    rw [halgo]
    intro h
    cases h
  intro v m h
  induction h with
  | start =>
    obtain ⟨c0, hc0⟩ := Option.isSome_iff_exists.mp hInv.slab
    have hsb := hInv.sbound c0 hc0
    rw [nw_zero hN0 cok.s_lt] at hsb
    have hle : c0 ≤ ((0 : Nat) : Int) := by
      push_cast
      exact hsb
    by_cases hq : s ∈ st.queue
    · exact Or.inr ⟨s, c0, hq, hc0, hle⟩
    · exact Or.inl ⟨c0, hc0, hq, hle⟩
  | @step u i m hu hi ih =>
    rcases ih with ⟨cu, hcu, huq, hle⟩ | ⟨w, cw, hw, hcw, hle⟩
    · have hun : u < ctx.g.nodes.length :=
        hInv.ltn u (by rw [hcu]; rfl)
      have humem : PEdge.plain i ∈ searchEdges ctx u := by
        simp only [searchEdges, halgo, List.mem_map]
        exact ⟨i, hi, rfl⟩
      obtain ⟨cd, hcd, hcdle⟩ :=
        hInv.quiet halgo2 hne u cu hcu huq (fun hf => hf) (.plain i) humem
      have hilt := (cok.wf_out u hun i hi).1
      have hp1 : pwt ctx.g (.plain i) = 1 := pwt_unit hE1 hilt
      have hdlt : pdst ctx.g (.plain i) < ctx.g.nodes.length :=
        searchEdges_dst_lt cok hun humem
      have hn0 : nw ctx.g (pdst ctx.g (.plain i)) = 0 := nw_zero hN0 hdlt
      rw [hp1, hn0] at hcdle
      have hcd2 : getk st.mincost (arenaEdge ctx.g i).dst = some cd := hcd
      have hle2 : cd ≤ ((m + 1 : Nat) : Int) := by
        push_cast
        linarith
      by_cases hdq : (arenaEdge ctx.g i).dst ∈ st.queue
      · exact Or.inr ⟨_, cd, hdq, hcd2, hle2⟩
      · exact Or.inl ⟨cd, hcd2, hdq, hle2⟩
    · refine Or.inr ⟨w, cw, hw, hcw, le_trans hle ?_⟩
      push_cast
      omega

/-! ### C8: the Dijkstra variant pops a minimum-key node -/

theorem insDesc_sorted (key : Nat → Int) (a : Nat) :
    ∀ l, List.Sorted (fun x y => key y ≤ key x) l →
      List.Sorted (fun x y => key y ≤ key x) (insDesc key a l) := by
  intro l
  induction l with
  | nil =>
    intro _
    simp [insDesc]
  | cons b t ih =>
    intro h
    obtain ⟨hbt, hst⟩ := List.sorted_cons.mp h
    show List.Sorted _ (if key b ≤ key a then a :: b :: t else b :: insDesc key a t)
    by_cases hba : key b ≤ key a
    · rw [if_pos hba]
      refine List.sorted_cons.mpr ⟨?_, h⟩
      intro y hy
      rcases List.mem_cons.mp hy with rfl | hy
      · exact hba
      · exact le_trans (hbt y hy) hba
    · rw [if_neg hba]
      refine List.sorted_cons.mpr ⟨?_, ih hst⟩
      intro y hy
      have hy2 : y ∈ a :: t := (insDesc_perm key a t).symm.mem_iff.mp hy
      rcases List.mem_cons.mp hy2 with rfl | hy2
      · exact le_of_lt (lt_of_not_le hba)
      · exact hbt y hy2

theorem sortDesc_sorted (key : Nat → Int) :
    ∀ l, List.Sorted (fun x y => key y ≤ key x) (sortDesc key l) := by
  intro l
  induction l with
  | nil => simp [sortDesc]
  | cons a t ih => exact insDesc_sorted key a (sortDesc key t) ih

theorem popLast_min (key : Nat → Int) :
    ∀ l, List.Sorted (fun x y => key y ≤ key x) l →
      ∀ x ∈ l, key (popLast l).1 ≤ key x := by
  intro l
  induction l with
  | nil =>
    intro _ x hx
    cases hx
  | cons a t ih =>
    intro hs x hx
    cases t with
    | nil =>
      rcases List.mem_singleton.mp hx with rfl
      exact le_rfl
    | cons b t2 =>
      obtain ⟨hat, hst⟩ := List.sorted_cons.mp hs
      have hp : (popLast (a :: b :: t2)).1 = (popLast (b :: t2)).1 := rfl
      rw [hp]
      rcases List.mem_cons.mp hx with rfl | hx
      · exact le_trans (ih hst b (List.mem_cons_self b t2))
          (hat b (List.mem_cons_self b t2))
      · exact ih hst x hx

/-- With `sort_queue` and a LIFO pop, the popped node has the smallest key. -/
theorem popQueue_min (cfg : Config) (hlifo : cfg.lifo = true)
    (hsort : cfg.sortQueue = true) (key : Nat → Int) (q : List Nat) :
    ∀ x ∈ q, key (popQueue cfg key q).1 ≤ key x := by
  intro x hx
  have hq : popQueue cfg key q = popLast (sortDesc key q) := by
    simp [popQueue, hsort, hlifo]
  rw [hq]
  exact popLast_min key (sortDesc key q) (sortDesc_sorted key q) x
    ((sortDesc_perm key q).mem_iff.mp hx)

/-- The zero-heuristic estimated-cost map mirrors the cost map. -/
theorem addQbase_minpath {ctx : Ctx} {st : SState} {v : Nat} {c : Int} {tr : PEdge}
    (hh : ∀ a b, ctx.cfg.h a b = 0)
    (hP : ∀ w cw, getk st.mincost w = some cw → getk st.minpath w = some cw) :
    ∀ w cw, getk (addQbase ctx st v c tr).mincost w = some cw →
      getk (addQbase ctx st v c tr).minpath w = some cw := by
  intro w cw hcw
  have hmc2 : (addQbase ctx st v c tr).mincost = setk st.mincost v c := rfl
  have hmp2 : (addQbase ctx st v c tr).minpath =
      setk st.minpath v (c + ctx.cfg.h v ctx.dest) := rfl
  rw [hmc2] at hcw
  rw [hmp2]
  rcases eq_or_ne v w with rfl | hne
  · rw [getk_setk_same] at hcw
    injection hcw with hcw
    rw [getk_setk_same, hh v ctx.dest, add_zero, hcw]
  · rw [getk_setk_ne st.mincost c hne] at hcw
    rw [getk_setk_ne st.minpath _ hne]
    exact hP w cw hcw

theorem relaxAll_minpath {ctx : Ctx} (halgo : ctx.algo = .plain)
    (hh : ∀ a b, ctx.cfg.h a b = 0) (cur : Int) :
    ∀ es st st2, relaxAll ctx cur st es = .ok st2 →
      (∀ w cw, getk st.mincost w = some cw → getk st.minpath w = some cw) →
      ∀ w cw, getk st2.mincost w = some cw → getk st2.minpath w = some cw := by
  intro es
  induction es with
  | nil =>
    intro st st2 heq hP
    injection heq with heq
    exact heq ▸ hP
  | cons e rest ih =>
    intro st st2 heq hP
    cases hb : better st (pdst ctx.g e) (cur + pwt ctx.g e + nw ctx.g (pdst ctx.g e)) with
    | false =>
      rw [relaxAll_cons_false hb] at heq
      exact ih st st2 heq hP
    | true =>
      have haddq := @addQ_eq_base ctx st
        (pdst ctx.g e) (cur + pwt ctx.g e + nw ctx.g (pdst ctx.g e)) e
        (Or.inl (by rw [halgo]; intro h; cases h))
      rw [relaxAll_cons_true hb, haddq] at heq
      exact ih _ st2 heq (addQbase_minpath hh hP)

/-- The Dijkstra-configured search loop (sorted LIFO queue, zero heuristic,
unit weights): any label the destination holds in the returned state is at
most every walk length from the start — the popped-minimum cut argument. -/
theorem searchLoop_dij {ctx : Ctx} {s : Nat} (cok : CtxOK ctx s)
    (halgo : ctx.algo = .plain) (hlifo : ctx.cfg.lifo = true)
    (hsort : ctx.cfg.sortQueue = true) (hh : ∀ a b, ctx.cfg.h a b = 0)
    (hE1 : ∀ e ∈ ctx.g.edges, e.weight = 1) (hN0 : ∀ nd ∈ ctx.g.nodes, nd.weight = 0) :
    ∀ fuel st, Inv ctx s st →
      (∀ w cw, getk st.mincost w = some cw → getk st.minpath w = some cw) →
      st.early = false →
      ∀ st', searchLoop ctx fuel st = .ok st' →
        ∀ c, getk st'.mincost ctx.dest = some c →
          ∀ m, GReachN ctx.g s ctx.dest m → c ≤ (m : Int) := by
  intro fuel
  induction fuel with
  | zero =>
    intro st hInv hP hne st' heq
    cases heq
  | succ fuel ih =>
    intro st hInv hP hne st' heq
    rcases hq : st.queue with - | ⟨v0, qt⟩
    · rw [searchLoop, hq] at heq
      injection heq with heq
      subst heq
      intro c hc m hm
      rcases unit_cut cok halgo hInv hne hE1 hN0 hm with ⟨cd, hcd, -, hle⟩ | ⟨w, cw, hw, -, -⟩
      · rw [hc] at hcd
        injection hcd with hcd
        rw [hcd]
        exact hle
      · rw [hq] at hw
        cases hw
    · rw [searchLoop_succ ctx fuel st v0 qt hq] at heq
      by_cases hstop : ctx.cfg.stopFirst ∧
          (popQueue ctx.cfg (qkey { st with iters := st.iters + 1 }) st.queue).1 = ctx.dest
      · rw [if_pos hstop] at heq
        injection heq with heq
        subst heq
        intro c hc m hm
        have hc2 : getk st.mincost ctx.dest = some c := hc
        rcases unit_cut cok halgo hInv hne hE1 hN0 hm with ⟨cd, hcd, hdq, hle⟩ | ⟨w, cw, hw, hcw, hle⟩
        · rw [hc2] at hcd
          injection hcd with hcd
          rw [hcd]
          exact hle
        · have hmin := popQueue_min ctx.cfg hlifo hsort
            (qkey { st with iters := st.iters + 1 }) st.queue w hw
          rw [hstop.2] at hmin
          have hkd : qkey { st with iters := st.iters + 1 } ctx.dest = c := by
            show (getk st.minpath ctx.dest).getD 0 = c
            rw [hP ctx.dest c hc2]
            rfl
          have hkw : qkey { st with iters := st.iters + 1 } w = cw := by
            show (getk st.minpath w).getD 0 = cw
            rw [hP w cw hcw]
            rfl
          rw [hkd, hkw] at hmin
          exact le_trans hmin hle
      · rw [if_neg hstop] at heq
        have hqperm := popQueue_perm ctx.cfg (qkey { st with iters := st.iters + 1 })
          st.queue (by rw [hq]; simp)
        have hnodup : ((popQueue ctx.cfg (qkey { st with iters := st.iters + 1 }) st.queue).1 ::
            (popQueue ctx.cfg (qkey { st with iters := st.iters + 1 }) st.queue).2).Nodup :=
          hqperm.nodup_iff.mp hInv.qnodup
        have humem := hqperm.mem_iff.mpr
          (List.mem_cons_self (popQueue ctx.cfg (qkey { st with iters := st.iters + 1 }) st.queue).1
            (popQueue ctx.cfg (qkey { st with iters := st.iters + 1 }) st.queue).2)
        have hulab := hInv.qsub _ humem
        obtain ⟨cu, hcu⟩ := Option.isSome_iff_exists.mp hulab
        have hult := hInv.ltn _ hulab
        have hreachu := hInv.reach _ cu hcu
        have hpopInv : InvE ctx s
            { st with
              iters := st.iters + 1
              queue := (popQueue ctx.cfg (qkey { st with iters := st.iters + 1 }) st.queue).2 }
            (fun x => x =
              (popQueue ctx.cfg (qkey { st with iters := st.iters + 1 }) st.queue).1) := by
          refine ⟨hInv.dom_pc, hInv.dom_mp, hInv.slab, hInv.ltn, ?_, ?_, hInv.pnone,
            hInv.snone, hInv.sbound, hInv.ssome, hInv.pedge, hInv.pmem, hInv.reach,
            hInv.negcyc, ?_, hInv.pprov, hInv.psuur⟩
          · intro v hv
            exact hInv.qsub v (hqperm.mem_iff.mpr (List.mem_cons_of_mem _ hv))
          · exact (List.nodup_cons.mp hnodup).2
          · intro ha he' v c hc hvq hex e hes
            have hvq2 : v ∉ st.queue := by
              intro hin
              rcases List.mem_cons.mp (hqperm.mem_iff.mp hin) with h' | h'
              · exact hex h'
              · exact hvq h'
            exact hInv.quiet ha he' v c hc hvq2 (fun hf => hf) e hes
        obtain ⟨st2, heq2, hI2, hM2, hQ2, hE2, hIt2, hTh2, hPr2⟩ :=
          relaxAll_invE cok
            (popQueue ctx.cfg (qkey { st with iters := st.iters + 1 }) st.queue).1 cu
            hult hreachu
            (searchEdges ctx
              (popQueue ctx.cfg (qkey { st with iters := st.iters + 1 }) st.queue).1)
            { st with
              iters := st.iters + 1
              queue := (popQueue ctx.cfg (qkey { st with iters := st.iters + 1 }) st.queue).2 }
            hpopInv (fun e h => h) ⟨cu, hcu, le_rfl⟩ (Or.inl hcu)
        rw [show (getk st.mincost
            (popQueue ctx.cfg (qkey { st with iters := st.iters + 1 }) st.queue).1).getD 0 = cu
            from by rw [hcu]; rfl, heq2] at heq
        have hInv2 : Inv ctx s st2 := by
          refine ⟨hI2.dom_pc, hI2.dom_mp, hI2.slab, hI2.ltn, hI2.qsub, hI2.qnodup,
            hI2.pnone, hI2.snone, hI2.sbound, hI2.ssome, hI2.pedge, hI2.pmem,
            hI2.reach, hI2.negcyc, ?_, hI2.pprov, hI2.psuur⟩
          intro ha he' v c hc hvq hex e hes
          by_cases hvu : v = (popQueue ctx.cfg (qkey { st with iters := st.iters + 1 })
              st.queue).1
          · subst hvu
            rcases hTh2 with hl | hr
            · have hceq : c = cu := by
                rw [hl] at hc
                injection hc with h
                exact h.symm
              subst hceq
              rcases hPr2 ha e hes with h' | h'
              · exact absurd h' hvq
              · exact h'
            · exact absurd hr hvq
          · exact hI2.quiet ha he' v c hc hvq hvu e hes
        have hP2 : ∀ w cw, getk st2.mincost w = some cw → getk st2.minpath w = some cw :=
          relaxAll_minpath halgo hh cu _ _ st2 heq2 hP
        have hE3 : st2.early = false := by
          rw [hE2]
          exact hne
        exact ih st2 hInv2 hP2 hE3 st' heq

/-- The Dijkstra variant on a unit-weight graph returns an exact shortest
walk length as its cost. -/
theorem dijkstra_unit_exact {g : Graph} {s d fuel : Nat} {r : SResult}
    (hwf : WF g) (hs : s < g.nodes.length)
    (hE1 : ∀ e ∈ g.edges, e.weight = 1) (hN0 : ∀ nd ∈ g.nodes, nd.weight = 0)
    (hsv : solve g dijkstraCfg s d fuel = .ok r) :
    0 ≤ r.cost ∧ GReachN g s d r.cost.toNat ∧
      ∀ m, GReachN g s d m → r.cost ≤ (m : Int) := by
  have cok : CtxOK ⟨g, dijkstraCfg, .plain, d, [], []⟩ s := ctxOK_plain g dijkstraCfg d s hwf hs
  have hsolveEq : solve g dijkstraCfg s d fuel =
      Res.bind (createTree ⟨g, dijkstraCfg, .plain, d, [], []⟩ s 0 fuel) (fun st =>
        if (getk st.prev d).isSome then tracePath g st d fuel
        else .noPath (some s) d none) := rfl
  rcases createTree_spec cok 0 fuel with hout | ⟨st, hok, hInv, hqe, hearly⟩
  · rw [hsolveEq, hout] at hsv
    cases hsv
  by_cases hpd : (getk st.prev d).isSome
  · obtain ⟨c, hmc⟩ := Option.isSome_iff_exists.mp ((hInv.dom_pc d).mpr hpd)
    obtain ⟨oe, hpe⟩ := Option.isSome_iff_exists.mp hpd
    have hval : solve g dijkstraCfg s d fuel =
        Res.bind (walkPrev g st.prev fuel oe [] [d])
          (fun ph => .ok ⟨ph.1, ph.2, c⟩) := by
      rw [hsolveEq, hok]
      show (if (getk st.prev d).isSome then tracePath g st d fuel
        else Res.noPath (some s) d none) = _
      rw [if_pos hpd]
      simp only [tracePath, hmc, hpe]
    rcases hw : walkPrev g st.prev fuel oe [] [d] with res | ⟨a, b, k⟩ | - | -
    · have hrval : r = ⟨res.1, res.2, c⟩ := by
        rw [hval, hw] at hsv
        injection hsv with hsv
        exact hsv.symm
      have hrc : r.cost = c := by rw [hrval]
      obtain ⟨-, hc0, hgr⟩ := costReach_unit cok rfl hE1 hN0 (hInv.reach d c hmc)
      have hPinit : ∀ w cw,
          getk (initState ⟨g, dijkstraCfg, .plain, d, [], []⟩ s 0).mincost w = some cw →
          getk (initState ⟨g, dijkstraCfg, .plain, d, [], []⟩ s 0).minpath w = some cw := by
        intro w cw hcw
        simp only [initState, getk] at hcw ⊢
        by_cases hsw : s = w
        · rw [if_pos hsw] at hcw ⊢
          injection hcw with hcw
          rw [← hcw, show dijkstraCfg.h s d = 0 from rfl, add_zero]
        · rw [if_neg hsw] at hcw
          cases hcw
      have hmin := searchLoop_dij cok rfl rfl rfl (fun a b => rfl) hE1 hN0 fuel
        (initState ⟨g, dijkstraCfg, .plain, d, [], []⟩ s 0) (initState_inv cok 0)
        hPinit rfl st hok c hmc
      rw [hrc]
      exact ⟨hc0, hgr, hmin⟩
    · exact absurd hw (walkPrev_not_nopath fuel oe [] [d] a b k)
    · have psl : ∀ v e, getk st.prev v = some (some e) →
          (getk st.prev (psrc g e)).isSome := by
        intro v e h
        obtain ⟨-, -, cs, cv, hcs, -, -⟩ := hInv.pedge v e h
        exact (hInv.dom_pc _).mp (by rw [hcs]; rfl)
      have hoe : ∀ e, oe = some e → (getk st.prev (psrc g e)).isSome := by
        intro e he
        subst he
        exact psl d e hpe
      exact absurd hw (walkPrev_not_fatal psl fuel oe [] [d] hoe)
    · rw [hval, hw] at hsv
      cases hsv
  · have hnp : solve g dijkstraCfg s d fuel = .noPath (some s) d none := by
      rw [hsolveEq, hok]
      simp only [Res.bind]
      rw [if_neg hpd]
    rw [hnp] at hsv
    cases hsv

/-! ### C8: the BFS variant labels every node with its exact distance -/

/-- Relaxing the front node of a breadth-first queue adds only fresh nodes,
labelled one past the popped level, preserving label exactness and the
level band of the queue. -/
theorem relaxAll_bfs {ctx : Ctx} {s : Nat} (cok : CtxOK ctx s)
    (halgo : ctx.algo = .plain)
    (hE1 : ∀ e ∈ ctx.g.edges, e.weight = 1) (hN0 : ∀ nd ∈ ctx.g.nodes, nd.weight = 0)
    (u : Nat) (hu : u < ctx.g.nodes.length) (cu : Int) (hcu0 : 0 ≤ cu)
    (hgu : GReachN ctx.g s u cu.toNat) :
    ∀ es st st2, (∀ e ∈ es, e ∈ searchEdges ctx u) →
      relaxAll ctx cu st es = .ok st2 →
      (∀ v c, getk st.mincost v = some c → 0 ≤ c ∧ GReachN ctx.g s v c.toNat ∧
        ∀ m, GReachN ctx.g s v m → c ≤ (m : Int)) →
      (∀ w, getk st.mincost w = none → ∀ m, GReachN ctx.g s w m → cu + 1 ≤ (m : Int)) →
      (∀ b ∈ st.queue, cu ≤ (getk st.mincost b).getD 0 ∧
        (getk st.mincost b).getD 0 ≤ cu + 1) →
      List.Sorted (fun a b => (getk st.mincost a).getD 0 ≤ (getk st.mincost b).getD 0)
        st.queue →
      (∀ v ∈ st.queue, (getk st.mincost v).isSome) →
      (∀ v c, getk st2.mincost v = some c → 0 ≤ c ∧ GReachN ctx.g s v c.toNat ∧
        ∀ m, GReachN ctx.g s v m → c ≤ (m : Int)) ∧
      (∀ b ∈ st2.queue, cu ≤ (getk st2.mincost b).getD 0 ∧
        (getk st2.mincost b).getD 0 ≤ cu + 1) ∧
      List.Sorted (fun a b => (getk st2.mincost a).getD 0 ≤ (getk st2.mincost b).getD 0)
        st2.queue ∧
      (∀ v ∈ st2.queue, (getk st2.mincost v).isSome) := by
  intro es
  induction es with
  | nil =>
    intro st st2 hsub heq hex hfresh hbounds hsorted hqsub
    injection heq with heq
    subst heq
    exact ⟨hex, hbounds, hsorted, hqsub⟩
  | cons e rest ih =>
    intro st st2 hsub heq hex hfresh hbounds hsorted hqsub
    have he0 := hsub e (List.mem_cons_self e rest)
    have he := he0
    simp only [searchEdges, halgo, List.mem_map] at he
    obtain ⟨i, hi, rfl⟩ := he
    have hilt : i < ctx.g.edges.length := (cok.wf_out u hu i hi).1
    have hp1 : pwt ctx.g (.plain i) = 1 := pwt_unit hE1 hilt
    have hdlt : pdst ctx.g (.plain i) < ctx.g.nodes.length :=
      searchEdges_dst_lt cok hu he0
    have hn0 : nw ctx.g (pdst ctx.g (.plain i)) = 0 := nw_zero hN0 hdlt
    have hgw : GReachN ctx.g s (pdst ctx.g (.plain i)) (cu.toNat + 1) :=
      GReachN.step hgu hi
    have htc : cu + pwt ctx.g (.plain i) + nw ctx.g (pdst ctx.g (.plain i)) =
        cu + 1 := by
      rw [hp1, hn0]
      ring
    cases hb : better st (pdst ctx.g (.plain i))
        (cu + pwt ctx.g (.plain i) + nw ctx.g (pdst ctx.g (.plain i))) with
    | false =>
      rw [relaxAll_cons_false hb] at heq
      exact ih st st2 (fun e2 h2 => hsub e2 (List.mem_cons_of_mem _ h2)) heq
        hex hfresh hbounds hsorted hqsub
    | true =>
      rcases hmv : getk st.mincost (pdst ctx.g (.plain i)) with - | cw
      · have haddq := @addQ_eq_base ctx st
          (pdst ctx.g (.plain i))
          (cu + pwt ctx.g (.plain i) + nw ctx.g (pdst ctx.g (.plain i)))
          (.plain i) (Or.inl (by rw [halgo]; intro h; cases h))
        rw [relaxAll_cons_true hb, haddq] at heq
        have hnin : pdst ctx.g (.plain i) ∉ st.queue := by
          intro hin
          have hsome := hqsub _ hin
          rw [hmv] at hsome
          cases hsome
        have hqA : (addQbase ctx st (pdst ctx.g (.plain i))
            (cu + pwt ctx.g (.plain i) + nw ctx.g (pdst ctx.g (.plain i)))
            (.plain i)).queue = st.queue ++ [pdst ctx.g (.plain i)] := by
          show (if pdst ctx.g (.plain i) ∈ st.queue then st.queue
            else st.queue ++ [pdst ctx.g (.plain i)]) = _
          rw [if_neg hnin]
        have hmcA : (addQbase ctx st (pdst ctx.g (.plain i))
            (cu + pwt ctx.g (.plain i) + nw ctx.g (pdst ctx.g (.plain i)))
            (.plain i)).mincost = setk st.mincost (pdst ctx.g (.plain i))
              (cu + pwt ctx.g (.plain i) + nw ctx.g (pdst ctx.g (.plain i))) := rfl
        have hlabA : ∀ b, b ≠ pdst ctx.g (.plain i) →
            getk (addQbase ctx st (pdst ctx.g (.plain i))
              (cu + pwt ctx.g (.plain i) + nw ctx.g (pdst ctx.g (.plain i)))
              (.plain i)).mincost b = getk st.mincost b := by
          intro b hbne
          rw [hmcA]
          exact getk_setk_ne st.mincost _ (fun h => hbne h.symm)
        refine ih _ st2 (fun e2 h2 => hsub e2 (List.mem_cons_of_mem _ h2)) heq
          ?_ ?_ ?_ ?_ ?_
        · intro v c hc
          rw [hmcA] at hc
          rcases eq_or_ne (pdst ctx.g (.plain i)) v with rfl | hne
          · rw [getk_setk_same] at hc
            injection hc with hc
            rw [← hc, htc]
            refine ⟨by omega, ?_, ?_⟩
            · rw [show (cu + 1).toNat = cu.toNat + 1 from by omega]
              exact hgw
            · intro m hm
              exact hfresh _ hmv m hm
          · rw [getk_setk_ne st.mincost _ hne] at hc
            exact hex v c hc
        · intro w hw m hm
          rw [hmcA] at hw
          rcases eq_or_ne (pdst ctx.g (.plain i)) w with rfl | hne
          · rw [getk_setk_same] at hw
            cases hw
          · rw [getk_setk_ne st.mincost _ hne] at hw
            exact hfresh w hw m hm
        · intro b hbq
          rw [hqA] at hbq
          rcases List.mem_append.mp hbq with hbq | hbq
          · have hbne : b ≠ pdst ctx.g (.plain i) := by
              intro h
              exact hnin (h ▸ hbq)
            rw [hlabA b hbne]
            exact hbounds b hbq
          · rcases List.mem_singleton.mp hbq with rfl
            rw [hmcA, getk_setk_same]
            show cu ≤ (some (cu + pwt ctx.g (.plain i) +
                nw ctx.g (pdst ctx.g (.plain i)))).getD 0 ∧
              (some (cu + pwt ctx.g (.plain i) +
                nw ctx.g (pdst ctx.g (.plain i)))).getD 0 ≤ cu + 1
            show cu ≤ cu + pwt ctx.g (.plain i) + nw ctx.g (pdst ctx.g (.plain i)) ∧
              cu + pwt ctx.g (.plain i) + nw ctx.g (pdst ctx.g (.plain i)) ≤ cu + 1
            rw [htc]
            omega
        · rw [hqA]
          show List.Pairwise _ (st.queue ++ [pdst ctx.g (.plain i)])
          rw [List.pairwise_append]
          refine ⟨?_, List.pairwise_singleton _ _, ?_⟩
          · refine List.Pairwise.imp_of_mem ?_ hsorted
            intro a b ha hb hab
            rw [hlabA a (fun h => hnin (h ▸ ha)), hlabA b (fun h => hnin (h ▸ hb))]
            exact hab
          · intro a ha b hb
            rcases List.mem_singleton.mp hb with rfl
            rw [hlabA a (fun h => hnin (h ▸ ha)), hmcA, getk_setk_same]
            show (getk st.mincost a).getD 0 ≤
              cu + pwt ctx.g (.plain i) + nw ctx.g (pdst ctx.g (.plain i))
            rw [htc]
            exact (hbounds a ha).2
        · intro v hv
          rw [hqA] at hv
          rw [hmcA]
          rcases List.mem_append.mp hv with hv | hv
          · exact (getk_setk_isSome _ _ v _).mpr (Or.inr (hqsub v hv))
          · rcases List.mem_singleton.mp hv with rfl
            exact (getk_setk_isSome _ _ _ _).mpr (Or.inl rfl)
      · exfalso
        have hlt := better_lt hb cw hmv
        obtain ⟨hcw0, hgcw, hmin⟩ := hex _ cw hmv
        have hle := hmin (cu.toNat + 1) hgw
        have hcast : ((cu.toNat + 1 : Nat) : Int) = cu + 1 := by
          push_cast
          omega
        rw [hcast] at hle
        rw [htc] at hlt
        linarith

/-- The BFS-configured search loop (FIFO, unsorted queue) keeps every label
an exact shortest walk length. -/
theorem searchLoop_bfs {ctx : Ctx} {s : Nat} (cok : CtxOK ctx s)
    (halgo : ctx.algo = .plain) (hlifo : ctx.cfg.lifo = false)
    (hsort : ctx.cfg.sortQueue = false)
    (hE1 : ∀ e ∈ ctx.g.edges, e.weight = 1) (hN0 : ∀ nd ∈ ctx.g.nodes, nd.weight = 0) :
    ∀ fuel st, Inv ctx s st → st.early = false →
      (∀ v c, getk st.mincost v = some c → 0 ≤ c ∧ GReachN ctx.g s v c.toNat ∧
        ∀ m, GReachN ctx.g s v m → c ≤ (m : Int)) →
      List.Sorted (fun a b => (getk st.mincost a).getD 0 ≤ (getk st.mincost b).getD 0)
        st.queue →
      (∀ a ∈ st.queue, ∀ b ∈ st.queue,
        (getk st.mincost b).getD 0 ≤ (getk st.mincost a).getD 0 + 1) →
      ∀ st', searchLoop ctx fuel st = .ok st' →
        ∀ v c, getk st'.mincost v = some c → 0 ≤ c ∧ GReachN ctx.g s v c.toNat ∧
          ∀ m, GReachN ctx.g s v m → c ≤ (m : Int) := by
  intro fuel
  induction fuel with
  | zero =>
    intro st hInv hne hex hsorted hspread st' heq
    cases heq
  | succ fuel ih =>
    intro st hInv hne hex hsorted hspread st' heq
    rcases hq : st.queue with - | ⟨v0, qt⟩
    · rw [searchLoop, hq] at heq
      injection heq with heq
      subst heq
      exact hex
    · rw [searchLoop_succ ctx fuel st v0 qt hq] at heq
      have hpop1 : (popQueue ctx.cfg (qkey { st with iters := st.iters + 1 })
          st.queue).1 = v0 := by
        rw [hq]
        simp [popQueue, hsort, hlifo, popHead]
      have hpop2 : (popQueue ctx.cfg (qkey { st with iters := st.iters + 1 })
          st.queue).2 = qt := by
        rw [hq]
        simp [popQueue, hsort, hlifo, popHead]
      have hv0mem : v0 ∈ st.queue := by
        rw [hq]
        exact List.mem_cons_self v0 qt
      obtain ⟨cu, hcu⟩ := Option.isSome_iff_exists.mp (hInv.qsub v0 hv0mem)
      obtain ⟨hcu0, hgu, huexact⟩ := hex v0 cu hcu
      have hult : v0 < ctx.g.nodes.length := hInv.ltn v0 (by rw [hcu]; rfl)
      have hlabv0 : (getk st.mincost v0).getD 0 = cu := by
        rw [hcu]
        rfl
      have hfrontmin : ∀ b ∈ qt, cu ≤ (getk st.mincost b).getD 0 := by
        have hsc := hq ▸ hsorted
        obtain ⟨hhead, -⟩ := List.sorted_cons.mp hsc
        intro b hb
        rw [← hlabv0]
        exact hhead b hb
      have hfresh : ∀ w, getk st.mincost w = none →
          ∀ m, GReachN ctx.g s w m → cu + 1 ≤ (m : Int) := by
        intro w hw m hm
        cases hm with
        | start =>
          have hsl := hInv.slab
          rw [hw] at hsl
          cases hsl
        | @step p i2 m2 hp hi2 =>
          rcases unit_cut cok halgo hInv hne hE1 hN0 hp with
            ⟨cp, hcp, hpq, hple⟩ | ⟨x, cx, hx, hcx, hxle⟩
          · have hpn : p < ctx.g.nodes.length := hInv.ltn p (by rw [hcp]; rfl)
            have hpmem : PEdge.plain i2 ∈ searchEdges ctx p := by
              simp only [searchEdges, halgo, List.mem_map]
              exact ⟨i2, hi2, rfl⟩
            have halgo2 : ctx.algo ≠ .suurballe := by
              rw [halgo]
              intro h
              cases h
            obtain ⟨cd, hcd, -⟩ :=
              hInv.quiet halgo2 hne p cp hcp hpq (fun hf => hf) (.plain i2) hpmem
            have hcd2 : getk st.mincost (arenaEdge ctx.g i2).dst = some cd := hcd
            rw [hw] at hcd2
            cases hcd2
          · have hxval : cu ≤ cx := by
              rcases List.mem_cons.mp (hq ▸ hx) with rfl | hx2
              · rw [hcu] at hcx
                injection hcx with hcx
                rw [hcx]
              · have := hfrontmin x hx2
                rw [hcx] at this
                exact this
            push_cast
            linarith
      by_cases hstop : ctx.cfg.stopFirst ∧
          (popQueue ctx.cfg (qkey { st with iters := st.iters + 1 }) st.queue).1 = ctx.dest
      · rw [if_pos hstop] at heq
        injection heq with heq
        subst heq
        exact hex
      · rw [if_neg hstop] at heq
        have hqperm := popQueue_perm ctx.cfg (qkey { st with iters := st.iters + 1 })
          st.queue (by rw [hq]; simp)
        have hnodup : ((popQueue ctx.cfg (qkey { st with iters := st.iters + 1 }) st.queue).1 ::
            (popQueue ctx.cfg (qkey { st with iters := st.iters + 1 }) st.queue).2).Nodup :=
          hqperm.nodup_iff.mp hInv.qnodup
        have humem := hqperm.mem_iff.mpr
          (List.mem_cons_self (popQueue ctx.cfg (qkey { st with iters := st.iters + 1 }) st.queue).1
            (popQueue ctx.cfg (qkey { st with iters := st.iters + 1 }) st.queue).2)
        have hulab := hInv.qsub _ humem
        obtain ⟨cu2, hcu2⟩ := Option.isSome_iff_exists.mp hulab
        have hcueq : cu2 = cu := by
          rw [hpop1] at hcu2
          rw [hcu] at hcu2
          injection hcu2 with h
          exact h.symm
        have hult2 := hInv.ltn _ hulab
        have hreachu := hInv.reach _ cu2 hcu2
        have hpopInv : InvE ctx s
            { st with
              iters := st.iters + 1
              queue := (popQueue ctx.cfg (qkey { st with iters := st.iters + 1 }) st.queue).2 }
            (fun x => x =
              (popQueue ctx.cfg (qkey { st with iters := st.iters + 1 }) st.queue).1) := by
          refine ⟨hInv.dom_pc, hInv.dom_mp, hInv.slab, hInv.ltn, ?_, ?_, hInv.pnone,
            hInv.snone, hInv.sbound, hInv.ssome, hInv.pedge, hInv.pmem, hInv.reach,
            hInv.negcyc, ?_, hInv.pprov, hInv.psuur⟩
          · intro v hv
            exact hInv.qsub v (hqperm.mem_iff.mpr (List.mem_cons_of_mem _ hv))
          · exact (List.nodup_cons.mp hnodup).2
          · intro ha he' v c hc hvq hex2 e hes
            have hvq2 : v ∉ st.queue := by
              intro hin
              rcases List.mem_cons.mp (hqperm.mem_iff.mp hin) with h' | h'
              · exact hex2 h'
              · exact hvq h'
            exact hInv.quiet ha he' v c hc hvq2 (fun hf => hf) e hes
        obtain ⟨st2, heq2, hI2, hM2, hQ2, hE2, hIt2, hTh2, hPr2⟩ :=
          relaxAll_invE cok
            (popQueue ctx.cfg (qkey { st with iters := st.iters + 1 }) st.queue).1 cu2
            hult2 hreachu
            (searchEdges ctx
              (popQueue ctx.cfg (qkey { st with iters := st.iters + 1 }) st.queue).1)
            { st with
              iters := st.iters + 1
              queue := (popQueue ctx.cfg (qkey { st with iters := st.iters + 1 }) st.queue).2 }
            hpopInv (fun e h => h) ⟨cu2, hcu2, le_rfl⟩ (Or.inl hcu2)
        rw [show (getk st.mincost
            (popQueue ctx.cfg (qkey { st with iters := st.iters + 1 }) st.queue).1).getD 0 = cu2
            from by rw [hcu2]; rfl, heq2] at heq
        have hInv2 : Inv ctx s st2 := by
          refine ⟨hI2.dom_pc, hI2.dom_mp, hI2.slab, hI2.ltn, hI2.qsub, hI2.qnodup,
            hI2.pnone, hI2.snone, hI2.sbound, hI2.ssome, hI2.pedge, hI2.pmem,
            hI2.reach, hI2.negcyc, ?_, hI2.pprov, hI2.psuur⟩
          intro ha he' v c hc hvq hex2 e hes
          by_cases hvu : v = (popQueue ctx.cfg (qkey { st with iters := st.iters + 1 })
              st.queue).1
          · subst hvu
            rcases hTh2 with hl | hr
            · have hceq : c = cu2 := by
                rw [hl] at hc
                injection hc with h
                exact h.symm
              subst hceq
              rcases hPr2 ha e hes with h' | h'
              · exact absurd h' hvq
              · exact h'
            · exact absurd hr hvq
          · exact hI2.quiet ha he' v c hc hvq hvu e hes
        have hE3 : st2.early = false := by
          rw [hE2]
          exact hne
        -- BFS band facts for the relaxed state
        have hbfs := relaxAll_bfs cok halgo hE1 hN0
          (popQueue ctx.cfg (qkey { st with iters := st.iters + 1 }) st.queue).1
          hult2 cu (hcueq ▸ hcu0) (by rw [hpop1]; exact hgu)
          (searchEdges ctx
            (popQueue ctx.cfg (qkey { st with iters := st.iters + 1 }) st.queue).1)
          { st with
            iters := st.iters + 1
            queue := (popQueue ctx.cfg (qkey { st with iters := st.iters + 1 }) st.queue).2 }
          st2 (fun e h => h) (by rw [← hcueq]; exact heq2) hex hfresh
          ?_ ?_ ?_
        rotate_left
        · intro b hb
          rw [hpop2] at hb
          refine ⟨hfrontmin b hb, ?_⟩
          have hs2 := hspread v0 hv0mem b (by rw [hq]; exact List.mem_cons_of_mem v0 hb)
          rw [hlabv0] at hs2
          exact hs2
        · show List.Sorted _
            (popQueue ctx.cfg (qkey { st with iters := st.iters + 1 }) st.queue).2
          rw [hpop2]
          exact (List.sorted_cons.mp (hq ▸ hsorted)).2
        · intro v hv
          rw [hpop2] at hv
          exact hInv.qsub v (by rw [hq]; exact List.mem_cons_of_mem v0 hv)
        obtain ⟨hex2, hbounds2, hsorted2, -⟩ := hbfs
        have hspread2 : ∀ a ∈ st2.queue, ∀ b ∈ st2.queue,
            (getk st2.mincost b).getD 0 ≤ (getk st2.mincost a).getD 0 + 1 := by
          intro a ha b hb
          have h1 := (hbounds2 a ha).1
          have h2 := (hbounds2 b hb).2
          linarith
        exact ih st2 hInv2 hE3 hex2 hsorted2 hspread2 st' heq

/-- Every edge of a traced walk either was in the accumulator or came from
a predecessor entry. -/
theorem walkPrev_mem {g : Graph} {prev : List (Nat × Option PEdge)} :
    ∀ fuel oe path hops v res, hops.head? = some v → getk prev v = some oe →
      walkPrev g prev fuel oe path hops = .ok res →
      ∀ e ∈ res.1, e ∈ path ∨ ∃ x, getk prev x = some (some e) := by
  intro fuel
  induction fuel with
  | zero =>
    intro oe path hops v res hhd hv heq e he
    cases oe with
    | none =>
      injection heq with heq
      subst heq
      exact Or.inl he
    | some e2 => cases heq
  | succ fuel ih =>
    intro oe path hops v res hhd hv heq e he
    cases oe with
    | none =>
      injection heq with heq
      subst heq
      exact Or.inl he
    | some e2 =>
      simp only [walkPrev] at heq
      rcases hpe : getk prev (psrc g e2) with - | pe
      · rw [hpe] at heq
        cases heq
      · rw [hpe] at heq
        rcases ih pe (e2 :: path) (psrc g e2 :: hops) (psrc g e2) res rfl hpe heq e he with
          hin | hex
        · rcases List.mem_cons.mp hin with rfl | hin
          · exact Or.inr ⟨v, hv⟩
          · exact Or.inl hin
        · exact Or.inr hex

theorem sum_map_const_one {α : Type} (f : α → Int) :
    ∀ l : List α, (∀ x ∈ l, f x = 1) → (l.map f).sum = (l.length : Int) := by
  intro l
  induction l with
  | nil =>
    intro _
    rfl
  | cons a t ih =>
    intro h
    simp only [List.map_cons, List.sum_cons, List.length_cons]
    rw [h a (List.mem_cons_self a t), ih (fun x hx => h x (List.mem_cons_of_mem a hx))]
    push_cast
    ring

theorem sum_map_const_zero {α : Type} (f : α → Int) :
    ∀ l : List α, (∀ x ∈ l, f x = 0) → (l.map f).sum = 0 := by
  intro l
  induction l with
  | nil =>
    intro _
    rfl
  | cons a t ih =>
    intro h
    simp only [List.map_cons, List.sum_cons]
    rw [h a (List.mem_cons_self a t), ih (fun x hx => h x (List.mem_cons_of_mem a hx))]
    ring

/-- The BFS variant on a unit-weight graph: the returned cost is the exact
shortest walk length, and it equals the number of edges of the returned
path. -/
theorem bfs_unit_exact {g : Graph} {s d fuel : Nat} {r : SResult}
    (hwf : WF g) (hs : s < g.nodes.length)
    (hE1 : ∀ e ∈ g.edges, e.weight = 1) (hN0 : ∀ nd ∈ g.nodes, nd.weight = 0)
    (hsv : solve g bfsCfg s d fuel = .ok r) :
    0 ≤ r.cost ∧ GReachN g s d r.cost.toNat ∧
      (∀ m, GReachN g s d m → r.cost ≤ (m : Int)) ∧
      r.cost = (r.path.length : Int) := by
  have cok : CtxOK ⟨g, bfsCfg, .plain, d, [], []⟩ s := ctxOK_plain g bfsCfg d s hwf hs
  have hsolveEq : solve g bfsCfg s d fuel =
      Res.bind (createTree ⟨g, bfsCfg, .plain, d, [], []⟩ s 0 fuel) (fun st =>
        if (getk st.prev d).isSome then tracePath g st d fuel
        else .noPath (some s) d none) := rfl
  rcases createTree_spec cok 0 fuel with hout | ⟨st, hok, hInv, hqe, hearly⟩
  · rw [hsolveEq, hout] at hsv
    cases hsv
  -- exactness of every final-state label
  have hexInit : ∀ v c,
      getk (initState ⟨g, bfsCfg, .plain, d, [], []⟩ s 0).mincost v = some c →
      0 ≤ c ∧ GReachN g s v c.toNat ∧ ∀ m, GReachN g s v m → c ≤ (m : Int) := by
    intro v c hc
    simp only [initState, getk] at hc
    by_cases hsv2 : s = v
    · rw [if_pos hsv2] at hc
      injection hc with hc
      subst hsv2
      rw [nw_zero hN0 hs] at hc
      rw [← hc]
      refine ⟨le_rfl, GReachN.start, ?_⟩
      intro m hm
      positivity
    · rw [if_neg hsv2] at hc
      cases hc
  have hexFin := searchLoop_bfs cok rfl rfl rfl hE1 hN0 fuel
    (initState ⟨g, bfsCfg, .plain, d, [], []⟩ s 0) (initState_inv cok 0) rfl
    hexInit (by simp [initState]) (by
      intro a ha b hb
      simp only [initState] at ha hb
      rcases List.mem_singleton.mp ha with rfl
      rcases List.mem_singleton.mp hb with rfl
      omega) st hok
  by_cases hpd : (getk st.prev d).isSome
  · obtain ⟨c, hmc⟩ := Option.isSome_iff_exists.mp ((hInv.dom_pc d).mpr hpd)
    obtain ⟨oe, hpe⟩ := Option.isSome_iff_exists.mp hpd
    have psl : ∀ v e, getk st.prev v = some (some e) →
        (getk st.prev (psrc g e)).isSome := by
      intro v e h
      obtain ⟨-, -, cs, cv, hcs, -, -⟩ := hInv.pedge v e h
      exact (hInv.dom_pc _).mp (by rw [hcs]; rfl)
    have hval : solve g bfsCfg s d fuel =
        Res.bind (walkPrev g st.prev fuel oe [] [d])
          (fun ph => .ok ⟨ph.1, ph.2, c⟩) := by
      rw [hsolveEq, hok]
      show (if (getk st.prev d).isSome then tracePath g st d fuel
        else Res.noPath (some s) d none) = _
      rw [if_pos hpd]
      simp only [tracePath, hmc, hpe]
    rcases hw : walkPrev g st.prev fuel oe [] [d] with res | ⟨a, b, k⟩ | - | -
    · have hrval : r = ⟨res.1, res.2, c⟩ := by
        rw [hval, hw] at hsv
        injection hsv with hsv
        exact hsv.symm
      obtain ⟨hc0, hgr, hmin⟩ := hexFin d c hmc
      -- exact predecessor decompositions
      have halgo2 : (⟨g, bfsCfg, .plain, d, [], []⟩ : Ctx).algo ≠ .suurballe := by
        intro h
        cases h
      have pex2 : ∀ v e, getk st.prev v = some (some e) →
          ∃ cs cv, getk st.mincost (psrc g e) = some cs ∧
            getk st.mincost v = some cv ∧
            cv = cs + (pwt g e + nw g (pdst g e)) := by
        intro v e hv
        obtain ⟨hpdv, hdbl, cs, cv, hcs, hcv, hge⟩ := hInv.pedge v e hv
        have hmem := hInv.pmem halgo2 v e hv
        have hsrcn : psrc g e < g.nodes.length := hInv.ltn _ (by rw [hcs]; rfl)
        have hmem2 := hmem
        simp only [searchEdges, List.mem_map] at hmem2
        obtain ⟨i, hi, rfl⟩ := hmem2
        have hilt := (cok.wf_out _ hsrcn i hi).1
        have hp1 : pwt g (.plain i) = 1 := pwt_unit hE1 hilt
        have hdn : pdst g (.plain i) < g.nodes.length := searchEdges_dst_lt cok hsrcn hmem
        have hn0 : nw g (pdst g (.plain i)) = 0 := nw_zero hN0 hdn
        obtain ⟨hcs0, hgcs, -⟩ := hexFin _ cs hcs
        obtain ⟨hcv0, -, hminv⟩ := hexFin v cv hcv
        have hgv : GReachN g s v (cs.toNat + 1) := by
          rw [← hpdv]
          exact GReachN.step hgcs hi
        have hvle := hminv (cs.toNat + 1) hgv
        have hchg : charge g (.plain i) = pwt g (.plain i) + nw g (pdst g (.plain i)) :=
          searchEdges_charge hmem
        rw [hchg, hp1, hn0] at hge
        refine ⟨cs, cv, hcs, hcv, ?_⟩
        rw [hp1, hn0]
        have hcast : ((cs.toNat + 1 : Nat) : Int) = cs + 1 := by
          push_cast
          omega
        rw [hcast] at hvle
        linarith
      obtain ⟨cx, hcx, hsum⟩ :=
        walkPrev_cost pex2 fuel oe [] [d] d res rfl hpe hw c hmc s
          (walkPrev_ok (fun v f h => (hInv.pedge v f h).1) hInv.pnone
            fuel oe [] [d] d res rfl hpe (Chain.single d) hw).2.1
      have hcx0 : cx = 0 := by
        obtain ⟨hcx0, -, hminx⟩ := hexFin s cx hcx
        have := hminx 0 GReachN.start
        omega
      have hones : ∀ e ∈ res.1, pwt g e = 1 := by
        intro e he
        rcases walkPrev_mem fuel oe [] [d] d res rfl hpe hw e he with hin | ⟨x, hx⟩
        · cases hin
        · obtain ⟨hpdx, -, cs, cv, hcs, -, -⟩ := hInv.pedge x e hx
          have hsrcn : psrc g e < g.nodes.length := hInv.ltn _ (by rw [hcs]; rfl)
          have hmem := hInv.pmem halgo2 x e hx
          have hmem2 := hmem
          simp only [searchEdges, List.mem_map] at hmem2
          obtain ⟨i, hi, rfl⟩ := hmem2
          exact pwt_unit hE1 (cok.wf_out _ hsrcn i hi).1
      have hzeros : ∀ e ∈ res.1, nw g (pdst g e) = 0 := by
        intro e he
        rcases walkPrev_mem fuel oe [] [d] d res rfl hpe hw e he with hin | ⟨x, hx⟩
        · cases hin
        · obtain ⟨hpdx, -, cs, cv, hcs, hcv, -⟩ := hInv.pedge x e hx
          have hxn : x < g.nodes.length := hInv.ltn _ (by rw [hcv]; rfl)
          rw [hpdx]
          exact nw_zero hN0 hxn
      have hsump : (res.1.map (pwt g)).sum = (res.1.length : Int) :=
        sum_map_const_one (pwt g) res.1 hones
      have hsumz : (res.1.map (fun e => nw g (pdst g e))).sum = 0 :=
        sum_map_const_zero _ res.1 hzeros
      have hclen : c = (res.1.length : Int) := by
        rw [hcx0, hsump, hsumz] at hsum
        simp only [List.map_nil, List.sum_nil, add_zero] at hsum
        linarith
      rw [hrval]
      exact ⟨hc0, hgr, hmin, hclen⟩
    · exact absurd hw (walkPrev_not_nopath fuel oe [] [d] a b k)
    · have hoe : ∀ e, oe = some e → (getk st.prev (psrc g e)).isSome := by
        intro e he
        subst he
        exact psl d e hpe
      exact absurd hw (walkPrev_not_fatal psl fuel oe [] [d] hoe)
    · rw [hval, hw] at hsv
      cases hsv
  · have hnp : solve g bfsCfg s d fuel = .noPath (some s) d none := by
      rw [hsolveEq, hok]
      simp only [Res.bind]
      rw [if_neg hpd]
    rw [hnp] at hsv
    cases hsv

/-- C8 amended: the as-stated claim fails because node weights also enter
the cost (see the counterexample); corrected to graphs whose edge weights
are all `1` AND whose node weights are all `0`, the Dijkstra variant's
returned cost equals the edge count of the BFS variant's returned path
(both equal the shortest walk length between the two nodes). -/
theorem unit_weight_dijkstra_bfs_amended (g : Graph) (s d fuel1 fuel2 : Nat)
    (r1 r2 : SResult) (hwf : WF g) (hs : s < g.nodes.length)
    (hE1 : ∀ e ∈ g.edges, e.weight = 1) (hN0 : ∀ nd ∈ g.nodes, nd.weight = 0)
    (h1 : solve g dijkstraCfg s d fuel1 = .ok r1)
    (h2 : solve g bfsCfg s d fuel2 = .ok r2) :
    r1.cost = (r2.path.length : Int) ∧ r1.cost = r2.cost ∧
      GReachN g s d r1.cost.toNat ∧ ∀ m, GReachN g s d m → r1.cost ≤ (m : Int) := by
  obtain ⟨hc10, hg1, hm1⟩ := dijkstra_unit_exact hwf hs hE1 hN0 h1
  obtain ⟨hc20, hg2, hm2, hlen⟩ := bfs_unit_exact hwf hs hE1 hN0 h2
  have hle1 : r1.cost ≤ r2.cost := by
    have := hm1 r2.cost.toNat hg2
    omega
  have hle2 : r2.cost ≤ r1.cost := by
    have := hm2 r1.cost.toNat hg1
    omega
  have heq : r1.cost = r2.cost := le_antisymm hle1 hle2
  exact ⟨heq.trans hlen, heq, hg1, hm1⟩

set_option maxRecDepth 100000 in
/-- Witness for the amended C8 on the module's unit 5×5 grid. -/
theorem unit_weight_dijkstra_bfs_amended_witness :
    (⟨[.plain 15, .plain 33, .plain 51, .plain 69], [2, 7, 12, 17, 22], 4⟩ :
        SResult).cost =
      ((⟨[.plain 15, .plain 33, .plain 51, .plain 69], [2, 7, 12, 17, 22], 4⟩ :
        SResult).path.length : Int) ∧
    (⟨[.plain 15, .plain 33, .plain 51, .plain 69], [2, 7, 12, 17, 22], 4⟩ :
        SResult).cost =
      (⟨[.plain 15, .plain 33, .plain 51, .plain 69], [2, 7, 12, 17, 22], 4⟩ :
        SResult).cost ∧
    GReachN grid5 2 22 (⟨[.plain 15, .plain 33, .plain 51, .plain 69],
        [2, 7, 12, 17, 22], 4⟩ : SResult).cost.toNat ∧
    ∀ m, GReachN grid5 2 22 m →
      (⟨[.plain 15, .plain 33, .plain 51, .plain 69], [2, 7, 12, 17, 22], 4⟩ :
        SResult).cost ≤ (m : Int) :=
  unit_weight_dijkstra_bfs_amended grid5 2 22 100 100
    ⟨[.plain 15, .plain 33, .plain 51, .plain 69], [2, 7, 12, 17, 22], 4⟩
    ⟨[.plain 15, .plain 33, .plain 51, .plain 69], [2, 7, 12, 17, 22], 4⟩
    (by unfold WF; decide) (by decide) (by decide) (by decide) (by decide) (by decide)

/-! ### C4: `Bhandari.solve` against its contract -/

set_option maxRecDepth 100000 in
/-- C4: the grid particulars of the claim hold — on the unit 5×5 grid,
`k = 3` returns three pairwise edge-disjoint inverse-free paths of costs
`{4, 6, 6}` between `(0,2)` and `(4,2)`, and `k = 4` raises
`NoPath(start, destination, 4)` — but the contract's dichotomy fails in
general: on `gCross`, which carries three pairwise edge-disjoint paths
from `0` to `6`, `k = 3` aborts on the `initialise_path_find` assertion
(the two accepted shortest paths share interior node `3`, and
`_inverse_edges` is keyed by node), returning neither paths nor `NoPath`,
while `k = 2` still succeeds. -/
theorem bhandari_contract_vs_code :
    bsolve grid5 bhandariCfg .bhandari 2 22 3 2000 =
      .ok ⟨[[.plain 15, .plain 33, .plain 51, .plain 69],
            [.plain 5, .plain 19, .plain 37, .plain 55, .plain 73, .plain 74],
            [.plain 2, .plain 11, .plain 29, .plain 47, .plain 65, .plain 71]],
           [some [2, 7, 12, 17, 22], some [2, 3, 8, 13, 18, 23, 22],
            some [2, 1, 6, 11, 16, 21, 22]],
           [some 4, some 6, some 6], 75⟩ ∧
    ((∀ e ∈ ([.plain 15, .plain 33, .plain 51, .plain 69] : List PEdge),
        isInv e = false ∧
        e ∉ ([.plain 5, .plain 19, .plain 37, .plain 55, .plain 73, .plain 74] :
          List PEdge) ∧
        e ∉ ([.plain 2, .plain 11, .plain 29, .plain 47, .plain 65, .plain 71] :
          List PEdge)) ∧
      (∀ e ∈ ([.plain 5, .plain 19, .plain 37, .plain 55, .plain 73, .plain 74] :
          List PEdge),
        isInv e = false ∧
        e ∉ ([.plain 2, .plain 11, .plain 29, .plain 47, .plain 65, .plain 71] :
          List PEdge))) ∧
    bsolve grid5 bhandariCfg .bhandari 2 22 4 2000 = .noPath (some 2) 22 (some 4) ∧
    bsolve gCross bhandariCfg .bhandari 0 6 3 1000 = .fatal ∧
    (∀ a b k, (Res.fatal : Res KState) ≠ .noPath a b k) ∧
    Chain gCross [.plain 0, .plain 1, .plain 2, .plain 3] [0, 1, 3, 4, 6] ∧
    Chain gCross [.plain 4, .plain 5, .plain 6, .plain 7] [0, 2, 3, 5, 6] ∧
    Chain gCross [.plain 8, .plain 9, .plain 10, .plain 11, .plain 12]
      [0, 7, 8, 9, 10, 6] ∧
    ((∀ e ∈ ([.plain 0, .plain 1, .plain 2, .plain 3] : List PEdge),
        e ∉ ([.plain 4, .plain 5, .plain 6, .plain 7] : List PEdge) ∧
        e ∉ ([.plain 8, .plain 9, .plain 10, .plain 11, .plain 12] : List PEdge)) ∧
      (∀ e ∈ ([.plain 4, .plain 5, .plain 6, .plain 7] : List PEdge),
        e ∉ ([.plain 8, .plain 9, .plain 10, .plain 11, .plain 12] : List PEdge))) ∧
    bsolve gCross bhandariCfg .bhandari 0 6 2 1000 =
      .ok ⟨[[.plain 4, .plain 5, .plain 6, .plain 7],
            [.plain 0, .plain 1, .plain 2, .plain 3]],
           [some [0, 2, 3, 5, 6], some [0, 1, 3, 4, 6]],
           [some 4, some 4], 21⟩ := by
  refine ⟨by decide, by decide, by decide, by decide, ?_, ?_, ?_, ?_, by decide, by decide⟩
  · intro a b k h
    cases h
  · exact Chain.cons (Chain.cons (Chain.cons (Chain.cons (Chain.single 6)
      (by decide)) (by decide)) (by decide)) (by decide)
  · exact Chain.cons (Chain.cons (Chain.cons (Chain.cons (Chain.single 6)
      (by decide)) (by decide)) (by decide)) (by decide)
  · exact Chain.cons (Chain.cons (Chain.cons (Chain.cons (Chain.cons (Chain.single 6)
      (by decide)) (by decide)) (by decide)) (by decide)) (by decide)

/-! ### List utilities for the multi-path development -/

theorem getk_append {α : Type} (m1 m2 : List (Nat × α)) (x : Nat) :
    getk (m1 ++ m2) x = match getk m1 x with
      | some v => some v
      | none => getk m2 x := by
  induction m1 with
  | nil => rfl
  | cons kv t ih =>
    obtain ⟨k, v⟩ := kv
    by_cases h : k = x
    · simp only [List.cons_append, getk, if_pos h]
    · simp only [List.cons_append, getk, if_neg h]
      exact ih

theorem head_append_left {α : Type} (l1 l2 : List α) (h : l1 ≠ []) :
    (l1 ++ l2).head? = l1.head? := by
  cases l1 with
  | nil => exact absurd rfl h
  | cons a t => rfl

theorem getLast_append_right {α : Type} (l2 : List α) (h : l2 ≠ []) :
    ∀ l1 : List α, (l1 ++ l2).getLast? = l2.getLast? := by
  intro l1
  induction l1 with
  | nil => rfl
  | cons a t ih =>
    rw [List.cons_append]
    rw [← ih]
    cases ht : t ++ l2 with
    | nil =>
      rcases List.append_eq_nil.mp ht with ⟨-, h2⟩
      exact absurd h2 h
    | cons b u => rw [List.getLast?_cons_cons]

theorem take_append_le {α : Type} : ∀ (l1 l2 : List α) (i : Nat), i ≤ l1.length →
    (l1 ++ l2).take i = l1.take i := by
  intro l1
  induction l1 with
  | nil =>
    intro l2 i h
    have : i = 0 := Nat.le_zero.mp h
    subst this
    rfl
  | cons a t ih =>
    intro l2 i h
    cases i with
    | zero => rfl
    | succ i =>
      rw [List.cons_append, List.take_succ_cons, List.take_succ_cons,
        ih l2 i (by simpa using h)]

theorem getD_append_left {α : Type} : ∀ (l1 l2 : List α) (i : Nat) (dflt : α),
    i < l1.length → (l1 ++ l2).getD i dflt = l1.getD i dflt := by
  intro l1
  induction l1 with
  | nil => intro l2 i dflt h; cases h
  | cons a t ih =>
    intro l2 i dflt h
    cases i with
    | zero => rfl
    | succ i =>
      rw [List.cons_append, List.getD_cons_succ, List.getD_cons_succ]
      exact ih l2 i dflt (by simpa using h)

theorem drop_append_len {α : Type} : ∀ (l1 l2 : List α), (l1 ++ l2).drop l1.length = l2 := by
  intro l1
  induction l1 with
  | nil => intro l2; rfl
  | cons a t ih => intro l2; rw [List.cons_append, List.length_cons, List.drop_succ_cons]; exact ih l2

theorem sum_set_nat : ∀ (xs : List Nat) (i : Nat) (a : Nat), i < xs.length →
    (xs.set i a).sum + xs.getD i 0 = xs.sum + a := by
  intro xs
  induction xs with
  | nil => intro i a h; cases h
  | cons x t ih =>
    intro i a h
    cases i with
    | zero =>
      simp only [List.set_cons_zero, List.sum_cons, List.getD_cons_zero]
      omega
    | succ i =>
      simp only [List.set_cons_succ, List.sum_cons, List.getD_cons_succ]
      have := ih i a (by simpa using h)
      omega

theorem getD_le_sum : ∀ (xs : List Nat) (i : Nat), xs.getD i 0 ≤ xs.sum := by
  intro xs
  induction xs with
  | nil => intro i; cases i <;> exact Nat.le_refl 0
  | cons x t ih =>
    intro i
    cases i with
    | zero =>
      rw [List.getD_cons_zero, List.sum_cons]
      exact Nat.le_add_right x t.sum
    | succ i =>
      rw [List.getD_cons_succ, List.sum_cons]
      exact le_trans (ih i) (Nat.le_add_left t.sum x)

theorem two_getD_le_sum : ∀ (xs : List Nat) (i j : Nat), i < j → j < xs.length →
    xs.getD i 0 + xs.getD j 0 ≤ xs.sum := by
  intro xs
  induction xs with
  | nil => intro i j hij hj; cases hj
  | cons x t ih =>
    intro i j hij hj
    cases j with
    | zero => cases hij
    | succ j =>
      cases i with
      | zero =>
        rw [List.getD_cons_zero, List.getD_cons_succ, List.sum_cons]
        exact Nat.add_le_add_left (getD_le_sum t j) x
      | succ i =>
        rw [List.getD_cons_succ, List.getD_cons_succ, List.sum_cons]
        have := ih i j (by omega) (by simpa using hj)
        omega

theorem countP_elem_decomp (p : PEdge → Bool) : ∀ (l : List PEdge) (i : Nat), i < l.length →
    l.countP p = (l.take i).countP p +
      ((if p (l.getD i (.plain 0)) then 1 else 0) + (l.drop (i + 1)).countP p) := by
  intro l
  induction l with
  | nil => intro i h; cases h
  | cons a t ih =>
    intro i h
    cases i with
    | zero =>
      simp only [List.take_zero, List.countP_nil, List.getD_cons_zero, List.drop_succ_cons,
        List.drop_zero, List.countP_cons]
      omega
    | succ i =>
      have ht := ih i (by simpa using h)
      simp only [List.take_succ_cons, List.countP_cons, List.getD_cons_succ,
        List.drop_succ_cons]
      omega

theorem countP_flatten_eq (p : PEdge → Bool) : ∀ (L : List (List PEdge)),
    L.flatten.countP p = (L.map (fun l => l.countP p)).sum := by
  intro L
  induction L with
  | nil => rfl
  | cons l rest ih =>
    rw [List.flatten_cons, List.countP_append, List.map_cons, List.sum_cons, ih]

/-! ### Chain splicing lemmas -/

theorem Chain.take_chain {g : Graph} {p : List PEdge} {h : List Nat}
    (hc : Chain g p h) : ∀ i, Chain g (p.take i) (h.take (i + 1)) := by
  induction hc with
  | single v =>
    intro i
    cases i with
    | zero => exact Chain.single v
    | succ i => exact Chain.single v
  | @cons e p h hch hhd ih =>
    intro i
    cases i with
    | zero => exact Chain.single _
    | succ i =>
      rw [List.take_succ_cons, List.take_succ_cons]
      refine Chain.cons (ih i) ?_
      cases h with
      | nil => cases hhd
      | cons a t =>
        rw [List.take_succ_cons]
        simp only [List.head?_cons] at hhd ⊢
        exact hhd

theorem Chain.drop_chain {g : Graph} {p : List PEdge} {h : List Nat}
    (hc : Chain g p h) : ∀ i, i ≤ p.length → Chain g (p.drop i) (h.drop i) := by
  induction hc with
  | single v =>
    intro i hi
    have : i = 0 := Nat.le_zero.mp hi
    subst this
    exact Chain.single v
  | @cons e p h hch hhd ih =>
    intro i hi
    cases i with
    | zero => exact Chain.cons hch hhd
    | succ i =>
      rw [List.drop_succ_cons, List.drop_succ_cons]
      exact ih i (by simpa using hi)

theorem Chain.append_chain {g : Graph} {p1 : List PEdge} {h1 : List Nat}
    (hc1 : Chain g p1 h1) : ∀ {p2 : List PEdge} {h2 : List Nat}, Chain g p2 h2 →
    h1.getLast? = h2.head? → Chain g (p1 ++ p2) (h1.dropLast ++ h2) := by
  induction hc1 with
  | single v =>
    intro p2 h2 hc2 hlast
    simpa using hc2
  | @cons e p h hch hhd ih =>
    intro p2 h2 hc2 hlast
    cases hh : h with
    | nil =>
      rw [hh] at hhd
      cases hhd
    | cons a t =>
      subst hh
      rw [List.getLast?_cons_cons] at hlast
      have hmain := ih hc2 hlast
      rw [List.cons_append]
      cases t with
      | nil =>
        show Chain g (e :: (p ++ p2)) (List.dropLast [psrc g e, a] ++ h2)
        rw [show List.dropLast [psrc g e, a] = [psrc g e] from rfl]
        rw [List.singleton_append]
        refine Chain.cons ?_ ?_
        · simpa using hmain
        · rw [← hlast]
          simp only [List.head?_cons] at hhd
          rw [show ([a] : List Nat).getLast? = some a from rfl, hhd]
      | cons b u =>
        show Chain g (e :: (p ++ p2)) ((psrc g e :: a :: b :: u).dropLast ++ h2)
        rw [show (psrc g e :: a :: b :: u).dropLast = psrc g e :: (a :: b :: u).dropLast
          from rfl]
        rw [List.cons_append]
        refine Chain.cons hmain ?_
        rw [show (a :: b :: u).dropLast = a :: (b :: u).dropLast from rfl]
        simp only [List.cons_append, List.head?_cons] at hhd ⊢
        exact hhd

theorem getLast_take {α : Type} : ∀ (l : List α) (i : Nat) (dflt : α), i < l.length →
    (l.take (i + 1)).getLast? = some (l.getD i dflt) := by
  intro l
  induction l with
  | nil => intro i dflt h; cases h
  | cons a t ih =>
    intro i dflt h
    cases i with
    | zero => rfl
    | succ i =>
      rw [List.take_succ_cons, List.getD_cons_succ]
      rw [← ih i dflt (by simpa using h)]
      cases htk : t.take (i + 1) with
      | nil =>
        exfalso
        have hlen : (t.take (i + 1)).length = min (i + 1) t.length := List.length_take _ _
        rw [htk] at hlen
        simp only [List.length_nil] at hlen
        have hit : i < t.length := by simpa using h
        omega
      | cons b u => rw [List.getLast?_cons_cons]

theorem head_drop {α : Type} : ∀ (l : List α) (i : Nat) (dflt : α), i < l.length →
    (l.drop i).head? = some (l.getD i dflt) := by
  intro l
  induction l with
  | nil => intro i d h; cases h
  | cons a t ih =>
    intro i d h
    cases i with
    | zero => rfl
    | succ i =>
      rw [List.drop_succ_cons, List.getD_cons_succ]
      exact ih i d (by simpa using h)

theorem getLast_drop {α : Type} : ∀ (l : List α) (i : Nat), i < l.length →
    (l.drop i).getLast? = l.getLast? := by
  intro l
  induction l with
  | nil => intro i h; cases h
  | cons a t ih =>
    intro i h
    cases i with
    | zero => rfl
    | succ i =>
      rw [List.drop_succ_cons, ih i (by simpa using h)]
      have hit : i < t.length := by simpa using h
      cases t with
      | nil => cases hit
      | cons b u => rw [List.getLast?_cons_cons]

/-! ### `list.index` / `_path_edge_index` / `initialise_path_find` facts -/

theorem firstIdx_spec (e : PEdge) : ∀ (l : List PEdge) (i : Nat), firstIdx e l = some i →
    i < l.length ∧ l.getD i (.plain 0) = e := by
  intro l
  induction l with
  | nil => intro i h; cases h
  | cons x t ih =>
    intro i h
    simp only [firstIdx] at h
    by_cases hx : x = e
    · rw [if_pos hx] at h
      injection h with h
      subst h
      exact ⟨Nat.succ_pos _, hx⟩
    · rw [if_neg hx] at h
      rcases ht : firstIdx e t with - | j
      · rw [ht] at h
        cases h
      · rw [ht] at h
        injection h with h
        subst h
        obtain ⟨hlt, hget⟩ := ih j ht
        refine ⟨by simpa using Nat.succ_lt_succ hlt, ?_⟩
        rw [List.getD_cons_succ]
        exact hget

theorem pathEdgeIndex_spec (e : PEdge) : ∀ (ps : List (List PEdge)) (l j : Nat),
    pathEdgeIndex e ps = some (l, j) →
    l < ps.length ∧ j < (ps.getD l []).length ∧ (ps.getD l []).getD j (.plain 0) = e := by
  intro ps
  induction ps with
  | nil => intro l j h; cases h
  | cons p rest ih =>
    intro l j h
    simp only [pathEdgeIndex] at h
    rcases hf : firstIdx e p with - | i
    · rw [hf] at h
      rcases hr : pathEdgeIndex e rest with - | ki
      · rw [hr] at h
        cases h
      · rw [hr] at h
        injection h with h
        have hl : ki.1 + 1 = l := congrArg Prod.fst h
        have hj : ki.2 = j := congrArg Prod.snd h
        subst hl
        subst hj
        obtain ⟨h1, h2, h3⟩ := ih ki.1 ki.2 hr
        refine ⟨by simpa using Nat.succ_lt_succ h1, ?_, ?_⟩
        · rw [List.getD_cons_succ]
          exact h2
        · rw [List.getD_cons_succ]
          exact h3
    · rw [hf] at h
      injection h with h
      have hl : 0 = l := congrArg Prod.fst h
      have hj : i = j := congrArg Prod.snd h
      subst hl
      subst hj
      obtain ⟨h1, h2⟩ := firstIdx_spec e p i hf
      exact ⟨Nat.succ_pos _, by rw [List.getD_cons_zero]; exact h1,
        by rw [List.getD_cons_zero]; exact h2⟩

/-- A successful `_inverse_edges` build maps each keyed node to an accepted
edge into it (never the destination), and the number of accepted edges into
any non-destination node matches the key's presence: at most one, by the
`assert hop not in self._inverse_edges`. -/
theorem buildInv_spec (g : Graph) (d : Nat) : ∀ (l : List PEdge) (m res : List (Nat × PEdge)),
    (∀ x fe, getk m x = some fe → pdst g fe = x ∧ x ≠ d) →
    buildInv g d l m = .ok res →
    (∀ x fe, getk res x = some fe → pdst g fe = x ∧ x ≠ d ∧
      (fe ∈ l ∨ getk m x = some fe)) ∧
    (∀ x, x ≠ d → l.countP (fun e => decide (pdst g e = x)) +
      (if (getk m x).isSome then 1 else 0) = (if (getk res x).isSome then 1 else 0)) := by
  intro l
  induction l with
  | nil =>
    intro m res hm h
    injection h with h
    subst h
    refine ⟨fun x fe hx => ⟨(hm x fe hx).1, (hm x fe hx).2, Or.inr hx⟩, ?_⟩
    intro x hx
    simp only [List.countP_nil, Nat.zero_add]
  | cons e rest ih =>
    intro m res hm h
    simp only [buildInv] at h
    by_cases hd : pdst g e = d
    · rw [if_pos hd] at h
      obtain ⟨ha, hb⟩ := ih m res hm h
      refine ⟨fun x fe hx => ?_, fun x hx => ?_⟩
      · obtain ⟨h1, h2, h3⟩ := ha x fe hx
        exact ⟨h1, h2, h3.elim (fun hh => Or.inl (List.mem_cons_of_mem _ hh)) Or.inr⟩
      · rw [List.countP_cons]
        have hfalse : (decide (pdst g e = x) : Bool) = false := by
          simp only [decide_eq_false_iff_not]
          rw [hd]
          exact fun hh => hx hh.symm
        rw [hfalse]
        simpa using hb x hx
    · rw [if_neg hd] at h
      rcases hget : getk m (pdst g e) with - | fe0
      · rw [hget] at h
        have hm' : ∀ x fe, getk (m ++ [(pdst g e, e)]) x = some fe →
            pdst g fe = x ∧ x ≠ d := by
          intro x fe hx
          rw [getk_append] at hx
          rcases hmx : getk m x with - | v
          · rw [hmx] at hx
            simp only [getk] at hx
            by_cases hxe : pdst g e = x
            · rw [if_pos hxe] at hx
              injection hx with hx
              subst hx
              exact ⟨hxe, fun hh => hd (hxe.trans hh)⟩
            · rw [if_neg hxe] at hx
              cases hx
          · rw [hmx] at hx
            injection hx with hx
            subst hx
            exact hm x v hmx
        obtain ⟨ha, hb⟩ := ih (m ++ [(pdst g e, e)]) res hm' h
        refine ⟨fun x fe hx => ?_, fun x hx => ?_⟩
        · obtain ⟨h1, h2, h3⟩ := ha x fe hx
          refine ⟨h1, h2, ?_⟩
          rcases h3 with h3 | h3
          · exact Or.inl (List.mem_cons_of_mem _ h3)
          · rw [getk_append] at h3
            rcases hmx : getk m x with - | v
            · rw [hmx] at h3
              simp only [getk] at h3
              by_cases hxe : pdst g e = x
              · rw [if_pos hxe] at h3
                injection h3 with h3
                subst h3
                exact Or.inl (List.mem_cons_self _ _)
              · rw [if_neg hxe] at h3
                cases h3
            · rw [hmx] at h3
              injection h3 with h3
              exact Or.inr (congrArg some h3)
        · have hbx := hb x hx
          rw [List.countP_cons]
          by_cases hxe : pdst g e = x
          · have htrue : (decide (pdst g e = x) : Bool) = true := decide_eq_true hxe
            rw [htrue]
            have hmx : getk m x = none := by
              rw [← hxe]
              exact hget
            have hmx' : getk (m ++ [(pdst g e, e)]) x = some e := by
              rw [getk_append, hmx]
              simp only [getk, if_pos hxe]
            rw [hmx'] at hbx
            rw [hmx]
            simp only [Option.isSome_some, Option.isSome_none, if_true,
              Bool.false_eq_true, if_false] at hbx ⊢
            omega
          · have hfalse : (decide (pdst g e = x) : Bool) = false := by
              simp only [decide_eq_false_iff_not]
              exact hxe
            rw [hfalse]
            have hmeq : getk (m ++ [(pdst g e, e)]) x = getk m x := by
              rw [getk_append]
              rcases hmx : getk m x with - | v
              · simp only [getk, if_neg hxe]
              · rfl
            rw [hmeq] at hbx
            simp only [Bool.false_eq_true, if_false, Nat.add_zero]
            exact hbx
      · rw [hget] at h
        cases h

/-! ### Structural facts about `Bhandari.trace_path`'s walk -/

/-- A successful `Bhandari.trace_path` walk extends the accumulated chain
back to the start (flattening each `_DoubleEdge` into its two halves), and
every edge of the result is an accumulated edge, a predecessor value, or a
half of a `_DoubleEdge` predecessor value. -/
theorem bwalk_chain {g : Graph} {prev : List (Nat × Option PEdge)} {s : Nat}
    (pd : ∀ v e, getk prev v = some (some e) → pdst g e = v)
    (pn : ∀ v, getk prev v = some none → v = s)
    (pdbl : ∀ v e, getk prev v = some (some e) → DblOK g e) :
    ∀ fuel oe acc hops v res, hops.head? = some v → getk prev v = some oe →
      Chain g acc hops →
      bwalk g prev fuel oe acc = .ok res →
      (∃ hops', Chain g res hops' ∧ hops'.head? = some s ∧
        hops'.getLast? = hops.getLast? ∧ ∃ t, res = t ++ acc) ∧
      (∀ e' ∈ res, e' ∈ acc ∨ ∃ w ew, getk prev w = some (some ew) ∧
        (e' = ew ∨ ∃ a b, ew = .dbl a b ∧ (e' = a ∨ e' = b))) := by
  intro fuel
  induction fuel with
  | zero =>
    intro oe acc hops v res hhd hv hch heq
    cases oe with
    | none =>
      injection heq with heq
      subst heq
      refine ⟨⟨hops, hch, ?_, rfl, ⟨[], rfl⟩⟩, fun e' he' => Or.inl he'⟩
      rw [hhd, Option.some_inj]
      exact pn v hv
    | some e => cases heq
  | succ fuel ih =>
    intro oe acc hops v res hhd hv hch heq
    cases oe with
    | none =>
      injection heq with heq
      subst heq
      refine ⟨⟨hops, hch, ?_, rfl, ⟨[], rfl⟩⟩, fun e' he' => Or.inl he'⟩
      rw [hhd, Option.some_inj]
      exact pn v hv
    | some e =>
      simp only [bwalk] at heq
      by_cases hmem : e ∈ acc
      · rw [if_pos hmem] at heq
        cases heq
      · rw [if_neg hmem] at heq
        have hhops_ne : hops ≠ [] := by
          intro hnil
          rw [hnil] at hhd
          cases hhd
        obtain ⟨a0, t0, ht0⟩ := List.exists_cons_of_ne_nil hhops_ne
        have hpdv : pdst g e = v := pd v e hv
        cases e with
        | plain i =>
          rcases hpe : getk prev (psrc g (.plain i)) with - | pe
          · rw [hpe] at heq
            cases heq
          · rw [hpe] at heq
            have hch' : Chain g (.plain i :: acc) (psrc g (.plain i) :: hops) := by
              refine Chain.cons hch ?_
              rw [hhd, Option.some_inj]
              exact hpdv.symm
            obtain ⟨⟨hops', h1, h2, h3, t, ht⟩, hmem'⟩ :=
              ih pe (.plain i :: acc) (psrc g (.plain i) :: hops) (psrc g (.plain i))
                res rfl hpe hch' heq
            refine ⟨⟨hops', h1, h2, ?_, ⟨t ++ [.plain i], by rw [ht]; simp⟩⟩, ?_⟩
            · rw [h3, ht0, List.getLast?_cons_cons]
            · intro e' he'
              rcases hmem' e' he' with hin | hp
              · rcases List.mem_cons.mp hin with rfl | hin
                · exact Or.inr ⟨v, _, hv, Or.inl rfl⟩
                · exact Or.inl hin
              · exact Or.inr hp
        | invOf a =>
          rcases hpe : getk prev (psrc g (.invOf a)) with - | pe
          · rw [hpe] at heq
            cases heq
          · rw [hpe] at heq
            have hch' : Chain g (.invOf a :: acc) (psrc g (.invOf a) :: hops) := by
              refine Chain.cons hch ?_
              rw [hhd, Option.some_inj]
              exact hpdv.symm
            obtain ⟨⟨hops', h1, h2, h3, t, ht⟩, hmem'⟩ :=
              ih pe (.invOf a :: acc) (psrc g (.invOf a) :: hops) (psrc g (.invOf a))
                res rfl hpe hch' heq
            refine ⟨⟨hops', h1, h2, ?_, ⟨t ++ [.invOf a], by rw [ht]; simp⟩⟩, ?_⟩
            · rw [h3, ht0, List.getLast?_cons_cons]
            · intro e' he'
              rcases hmem' e' he' with hin | hp
              · rcases List.mem_cons.mp hin with rfl | hin
                · exact Or.inr ⟨v, _, hv, Or.inl rfl⟩
                · exact Or.inl hin
              · exact Or.inr hp
        | dbl a b =>
          rcases hpe : getk prev (psrc g (.dbl a b)) with - | pe
          · rw [hpe] at heq
            cases heq
          · rw [hpe] at heq
            obtain ⟨-, -, hconn⟩ := pdbl v (.dbl a b) hv
            have hchb : Chain g (b :: acc) (psrc g b :: hops) := by
              refine Chain.cons hch ?_
              rw [hhd, Option.some_inj]
              exact hpdv.symm
            have hcha : Chain g (a :: b :: acc) (psrc g a :: psrc g b :: hops) := by
              refine Chain.cons hchb ?_
              rw [List.head?_cons, Option.some_inj]
              exact hconn.symm
            obtain ⟨⟨hops', h1, h2, h3, t, ht⟩, hmem'⟩ :=
              ih pe (a :: b :: acc) (psrc g a :: psrc g b :: hops) (psrc g (.dbl a b))
                res rfl hpe hcha heq
            refine ⟨⟨hops', h1, h2, ?_, ⟨t ++ [a, b], by rw [ht]; simp⟩⟩, ?_⟩
            · rw [h3, List.getLast?_cons_cons, ht0, List.getLast?_cons_cons]
            · intro e' he'
              rcases hmem' e' he' with hin | hp
              · rcases List.mem_cons.mp hin with hea | hin
                · exact Or.inr ⟨v, _, hv, Or.inr ⟨a, b, rfl, Or.inl hea⟩⟩
                · rcases List.mem_cons.mp hin with heb | hin
                  · exact Or.inr ⟨v, _, hv, Or.inr ⟨a, b, rfl, Or.inr heb⟩⟩
                  · exact Or.inl hin
              · exact Or.inr hp

theorem plainIntoCnt_cons (g : Graph) (x : Nat) (e : PEdge) (l : List PEdge) :
    plainIntoCnt g x (e :: l) = plainIntoCnt g x l +
      (match e with
       | .plain _ => if pdst g e = x then 1 else 0
       | _ => 0) := by
  simp only [plainIntoCnt, List.countP_cons]
  cases e with
  | plain i => by_cases h : pdst g (.plain i) = x <;> simp [h]
  | invOf a => simp
  | dbl a b => simp

theorem invPartnerCnt_cons (g : Graph) (x : Nat) (e : PEdge) (l : List PEdge) :
    invPartnerCnt g x (e :: l) = invPartnerCnt g x l +
      (match e with
       | .invOf fe => if pdst g fe = x then 1 else 0
       | _ => 0) := by
  simp only [invPartnerCnt, List.countP_cons]
  cases e with
  | plain i => simp
  | invOf a => by_cases h : pdst g a = x <;> simp [h]
  | dbl a b => simp

theorem plainIntoCnt_cons_plain (g : Graph) (x : Nat) (i : Nat) (l : List PEdge) :
    plainIntoCnt g x (.plain i :: l) = plainIntoCnt g x l +
      (if pdst g (.plain i) = x then 1 else 0) := by
  rw [plainIntoCnt_cons]

theorem plainIntoCnt_cons_inv (g : Graph) (x : Nat) (a : PEdge) (l : List PEdge) :
    plainIntoCnt g x (.invOf a :: l) = plainIntoCnt g x l := by
  rw [plainIntoCnt_cons]
  rfl

theorem plainIntoCnt_cons_dbl (g : Graph) (x : Nat) (a b : PEdge) (l : List PEdge) :
    plainIntoCnt g x (.dbl a b :: l) = plainIntoCnt g x l := by
  rw [plainIntoCnt_cons]
  rfl

theorem invPartnerCnt_cons_plain (g : Graph) (x : Nat) (i : Nat) (l : List PEdge) :
    invPartnerCnt g x (.plain i :: l) = invPartnerCnt g x l := by
  rw [invPartnerCnt_cons]
  rfl

theorem invPartnerCnt_cons_inv (g : Graph) (x : Nat) (a : PEdge) (l : List PEdge) :
    invPartnerCnt g x (.invOf a :: l) = invPartnerCnt g x l +
      (if pdst g a = x then 1 else 0) := by
  rw [invPartnerCnt_cons]

theorem invPartnerCnt_cons_dbl (g : Graph) (x : Nat) (a b : PEdge) (l : List PEdge) :
    invPartnerCnt g x (.dbl a b :: l) = invPartnerCnt g x l := by
  rw [invPartnerCnt_cons]
  rfl

theorem plainIntoCnt_append (g : Graph) (x : Nat) (l1 l2 : List PEdge) :
    plainIntoCnt g x (l1 ++ l2) = plainIntoCnt g x l1 + plainIntoCnt g x l2 :=
  List.countP_append _ _ _

theorem invPartnerCnt_append (g : Graph) (x : Nat) (l1 l2 : List PEdge) :
    invPartnerCnt g x (l1 ++ l2) = invPartnerCnt g x l1 + invPartnerCnt g x l2 :=
  List.countP_append _ _ _

/-- Counting facts about a successful Suurballe trace walk: a node interior
to an accepted path (keyed in `_inverse_edges`) gains no more plain
in-edges than cancelling inverse partners, because its only plain entries
are first halves of forced `_DoubleEdge`s; any other node gains at most
one plain in-edge, because its only plain entry is its unique predecessor
value and a repeated value trips the duplicate-edge assert. -/
theorem bwalk_cnt {g : Graph} {prev : List (Nat × Option PEdge)}
    {invmap : List (Nat × PEdge)}
    (pd : ∀ v e, getk prev v = some (some e) → pdst g e = v)
    (hshape : ∀ w e, getk prev w = some (some e) →
      (∃ i, e = .plain i) ∨ (∃ fe, e = .invOf fe) ∨
      (∃ i fe, e = .dbl (.plain i) (.invOf fe) ∧
        getk invmap (pdst g (.plain i)) = some fe))
    (hpsuur : ∀ x e, (getk invmap x).isSome → getk prev x = some (some e) →
      lastInv e = true)
    (hinvwf : ∀ w fe, getk invmap w = some fe → pdst g fe = w) :
    ∀ fuel oe acc res, bwalk g prev fuel oe acc = .ok res →
      (∀ e', oe = some e' → ∃ w, getk prev w = some (some e')) →
      (∀ a b, PEdge.dbl a b ∉ acc) →
      (∀ a b, PEdge.dbl a b ∉ res) ∧
      (∀ x, getk invmap x = none →
        plainIntoCnt g x res ≤ plainIntoCnt g x acc + 1 ∧
        (∀ e0, getk prev x = some (some e0) → e0 ∈ acc →
          plainIntoCnt g x res ≤ plainIntoCnt g x acc)) ∧
      (∀ x, (getk invmap x).isSome →
        plainIntoCnt g x res + invPartnerCnt g x acc ≤
          plainIntoCnt g x acc + invPartnerCnt g x res) := by
  intro fuel
  induction fuel with
  | zero =>
    intro oe acc res heq hoe hnd
    cases oe with
    | none =>
      injection heq with heq
      subst heq
      exact ⟨hnd, fun x _ => ⟨Nat.le_succ_of_le le_rfl, fun _ _ _ => le_rfl⟩,
        fun x _ => le_rfl⟩
    | some e => cases heq
  | succ fuel ih =>
    intro oe acc res heq hoe hnd
    cases oe with
    | none =>
      injection heq with heq
      subst heq
      exact ⟨hnd, fun x _ => ⟨Nat.le_succ_of_le le_rfl, fun _ _ _ => le_rfl⟩,
        fun x _ => le_rfl⟩
    | some e =>
      obtain ⟨w, hw⟩ := hoe e rfl
      have hpdw : pdst g e = w := pd w e hw
      simp only [bwalk] at heq
      by_cases hmem : e ∈ acc
      · rw [if_pos hmem] at heq
        cases heq
      · rw [if_neg hmem] at heq
        rcases hshape w e hw with ⟨i, rfl⟩ | ⟨fe, rfl⟩ | ⟨i, fe, rfl, hife⟩
        · -- plain predecessor value
          rcases hpe : getk prev (psrc g (.plain i)) with - | pe
          · rw [hpe] at heq
            cases heq
          · rw [hpe] at heq
            have hoe' : ∀ e', pe = some e' → ∃ w', getk prev w' = some (some e') := by
              intro e' he'
              subst he'
              exact ⟨psrc g (.plain i), hpe⟩
            have hnd' : ∀ a b, PEdge.dbl a b ∉ (PEdge.plain i :: acc) := by
              intro a b hab
              rcases List.mem_cons.mp hab with hab | hab
              · cases hab
              · exact hnd a b hab
            obtain ⟨c1, c2, c3⟩ := ih pe (.plain i :: acc) res heq hoe' hnd'
            refine ⟨c1, ?_, ?_⟩
            · intro x hx
              obtain ⟨d1, d2⟩ := c2 x hx
              rw [plainIntoCnt_cons_plain] at d1 d2
              by_cases hix : pdst g (.plain i) = x
              · -- the consumed plain edge points into x, so w = x
                have hwx : w = x := by rw [← hpdw]; exact hix
                subst hwx
                constructor
                · have := d2 (.plain i) hw (List.mem_cons_self _ _)
                  simp only [if_pos hix] at this
                  omega
                · intro e0 h0 hin
                  rw [hw] at h0
                  injection h0 with h0
                  injection h0 with h0
                  subst h0
                  exact absurd hin hmem
              · simp only [if_neg hix] at d1 d2
                refine ⟨by omega, fun e0 h0 hin => ?_⟩
                have := d2 e0 h0 (List.mem_cons_of_mem _ hin)
                omega
            · intro x hx
              have hc3 := c3 x hx
              rw [plainIntoCnt_cons_plain, invPartnerCnt_cons_plain] at hc3
              by_cases hix : pdst g (.plain i) = x
              · -- impossible: x is keyed, yet its predecessor value is plain
                exfalso
                have hwx : w = x := by rw [← hpdw]; exact hix
                subst hwx
                have := hpsuur w (.plain i) hx hw
                cases this
              · simp only [if_neg hix] at hc3
                omega
        · -- standalone inverse predecessor value
          rcases hpe : getk prev (psrc g (.invOf fe)) with - | pe
          · rw [hpe] at heq
            cases heq
          · rw [hpe] at heq
            have hoe' : ∀ e', pe = some e' → ∃ w', getk prev w' = some (some e') := by
              intro e' he'
              subst he'
              exact ⟨psrc g (.invOf fe), hpe⟩
            have hnd' : ∀ a b, PEdge.dbl a b ∉ (PEdge.invOf fe :: acc) := by
              intro a b hab
              rcases List.mem_cons.mp hab with hab | hab
              · cases hab
              · exact hnd a b hab
            obtain ⟨c1, c2, c3⟩ := ih pe (.invOf fe :: acc) res heq hoe' hnd'
            refine ⟨c1, ?_, ?_⟩
            · intro x hx
              obtain ⟨d1, d2⟩ := c2 x hx
              rw [plainIntoCnt_cons_inv] at d1 d2
              exact ⟨d1, fun e0 h0 hin => d2 e0 h0 (List.mem_cons_of_mem _ hin)⟩
            · intro x hx
              have hc3 := c3 x hx
              rw [plainIntoCnt_cons_inv, invPartnerCnt_cons_inv] at hc3
              by_cases hfx : pdst g fe = x
              · simp only [if_pos hfx] at hc3
                omega
              · simp only [if_neg hfx] at hc3
                omega
        · -- forced `_DoubleEdge` value: plain half into a keyed node,
          -- inverse half its cancelling partner
          rcases hpe : getk prev (psrc g (.dbl (.plain i) (.invOf fe))) with - | pe
          · rw [hpe] at heq
            cases heq
          · rw [hpe] at heq
            have hoe' : ∀ e', pe = some e' → ∃ w', getk prev w' = some (some e') := by
              intro e' he'
              subst he'
              exact ⟨psrc g (.dbl (.plain i) (.invOf fe)), hpe⟩
            have hnd' : ∀ a b, PEdge.dbl a b ∉
                (PEdge.plain i :: PEdge.invOf fe :: acc) := by
              intro a b hab
              rcases List.mem_cons.mp hab with hab | hab
              · cases hab
              · rcases List.mem_cons.mp hab with hab | hab
                · cases hab
                · exact hnd a b hab
            obtain ⟨c1, c2, c3⟩ := ih pe (.plain i :: .invOf fe :: acc) res heq hoe' hnd'
            have hfe_eq : pdst g fe = pdst g (.plain i) := hinvwf _ fe hife
            refine ⟨c1, ?_, ?_⟩
            · intro x hx
              obtain ⟨d1, d2⟩ := c2 x hx
              rw [plainIntoCnt_cons_plain, plainIntoCnt_cons_inv] at d1 d2
              have hix : ¬ pdst g (.plain i) = x := by
                intro hix
                rw [hix] at hife
                rw [hife] at hx
                cases hx
              simp only [if_neg hix, Nat.add_zero] at d1 d2
              exact ⟨d1, fun e0 h0 hin =>
                d2 e0 h0 (List.mem_cons_of_mem _ (List.mem_cons_of_mem _ hin))⟩
            · intro x hx
              have hc3 := c3 x hx
              rw [plainIntoCnt_cons_plain, plainIntoCnt_cons_inv,
                invPartnerCnt_cons_plain, invPartnerCnt_cons_inv] at hc3
              rw [hfe_eq] at hc3
              by_cases hix : pdst g (.plain i) = x
              · simp only [if_pos hix] at hc3
                omega
              · simp only [if_neg hix] at hc3
                omega

/-! ### Index bookkeeping for the untangle splice -/

theorem getD_set_ne {α : Type} : ∀ (l : List α) (i j : Nat) (a dflt : α), i ≠ j →
    (l.set i a).getD j dflt = l.getD j dflt := by
  intro l
  induction l with
  | nil => intro i j a dflt h; rfl
  | cons x t ih =>
    intro i j a dflt h
    cases i with
    | zero =>
      cases j with
      | zero => exact absurd rfl h
      | succ j => rfl
    | succ i =>
      cases j with
      | zero => rfl
      | succ j =>
        rw [List.set_cons_succ, List.getD_cons_succ, List.getD_cons_succ]
        exact ih i j a dflt (fun hh => h (by rw [hh]))

theorem getD_set_eq {α : Type} : ∀ (l : List α) (i : Nat) (a dflt : α), i < l.length →
    (l.set i a).getD i dflt = a := by
  intro l
  induction l with
  | nil => intro i a dflt h; cases h
  | cons x t ih =>
    intro i a dflt h
    cases i with
    | zero => rfl
    | succ i =>
      rw [List.set_cons_succ, List.getD_cons_succ]
      exact ih i a dflt (by simpa using h)

theorem take_succ_getD {α : Type} : ∀ (l : List α) (i : Nat) (dflt : α), i < l.length →
    l.take (i + 1) = l.take i ++ [l.getD i dflt] := by
  intro l
  induction l with
  | nil => intro i dflt h; cases h
  | cons x t ih =>
    intro i dflt h
    cases i with
    | zero => rfl
    | succ i =>
      rw [List.take_succ_cons, List.take_succ_cons, List.getD_cons_succ,
        ih i dflt (by simpa using h), List.cons_append]

theorem getD_take_lt {α : Type} : ∀ (l : List α) (n i : Nat) (dflt : α), i < n →
    (l.take n).getD i dflt = l.getD i dflt := by
  intro l
  induction l with
  | nil => intro n i dflt h; cases n <;> rfl
  | cons x t ih =>
    intro n i dflt h
    cases n with
    | zero => cases h
    | succ n =>
      cases i with
      | zero => rfl
      | succ i =>
        rw [List.take_succ_cons, List.getD_cons_succ, List.getD_cons_succ]
        exact ih n i dflt (by omega)

theorem drop_append_ge {α : Type} : ∀ (l1 l2 : List α) (n : Nat), l1.length ≤ n →
    (l1 ++ l2).drop n = l2.drop (n - l1.length) := by
  intro l1
  induction l1 with
  | nil => intro l2 n h; rfl
  | cons x t ih =>
    intro l2 n h
    cases n with
    | zero => cases h
    | succ n =>
      rw [List.cons_append, List.drop_succ_cons, ih l2 n (by simpa using h)]
      congr 1
      simp only [List.length_cons]
      omega

theorem getD_drop {α : Type} : ∀ (l : List α) (n m : Nat) (dflt : α),
    (l.drop n).getD m dflt = l.getD (n + m) dflt := by
  intro l
  induction l with
  | nil => intro n m dflt; cases n <;> rfl
  | cons x t ih =>
    intro n m dflt
    cases n with
    | zero => rw [List.drop_zero, Nat.zero_add]
    | succ n =>
      rw [List.drop_succ_cons, ih n m dflt,
        show n + 1 + m = (n + m) + 1 from by omega, List.getD_cons_succ]

theorem head_take_succ {α : Type} (l : List α) (i : Nat) :
    (l.take (i + 1)).head? = l.head? := by
  cases l with
  | nil => rfl
  | cons a t => rfl

theorem head_dropLast {α : Type} (a b : α) (t : List α) :
    (a :: b :: t).dropLast.head? = some a := by
  rfl

theorem map_getD {α β : Type} (f : α → β) : ∀ (l : List α) (i : Nat) (dflt : α),
    i < l.length → (l.map f).getD i (f dflt) = f (l.getD i dflt) := by
  intro l
  induction l with
  | nil => intro i dflt h; cases h
  | cons x t ih =>
    intro i dflt h
    cases i with
    | zero => rfl
    | succ i =>
      rw [List.map_cons, List.getD_cons_succ, List.getD_cons_succ]
      exact ih i dflt (by simpa using h)

theorem getD_mem {α : Type} : ∀ (l : List α) (i : Nat) (dflt : α), i < l.length →
    l.getD i dflt ∈ l := by
  intro l
  induction l with
  | nil => intro i dflt h; cases h
  | cons x t ih =>
    intro i dflt h
    cases i with
    | zero => exact List.mem_cons_self _ _
    | succ i =>
      rw [List.getD_cons_succ]
      exact List.mem_cons_of_mem _ (ih i dflt (by simpa using h))

theorem getD_zero_of_head {α : Type} {l : List α} {a : α} (h : l.head? = some a)
    (dflt : α) : l.getD 0 dflt = a := by
  cases l with
  | nil => cases h
  | cons x t =>
    simpa using h

theorem plainIntoCnt_nil (g : Graph) (x : Nat) : plainIntoCnt g x [] = 0 :=
  List.countP_nil _

theorem invPartnerCnt_nil (g : Graph) (x : Nat) : invPartnerCnt g x [] = 0 :=
  List.countP_nil _

theorem plainIntoCnt_elem_decomp (g : Graph) (x : Nat) : ∀ (l : List PEdge) (i : Nat),
    i < l.length →
    plainIntoCnt g x l = plainIntoCnt g x (l.take i) +
      (plainIntoCnt g x [l.getD i (.plain 0)] + plainIntoCnt g x (l.drop (i + 1))) := by
  intro l
  induction l with
  | nil => intro i h; cases h
  | cons a t ih =>
    intro i h
    cases i with
    | zero =>
      rw [List.take_zero, plainIntoCnt_nil, List.getD_cons_zero, List.drop_succ_cons,
        List.drop_zero, plainIntoCnt_cons, plainIntoCnt_cons, plainIntoCnt_nil]
      omega
    | succ i =>
      have ht := ih i (by simpa using h)
      rw [List.take_succ_cons, List.getD_cons_succ, List.drop_succ_cons,
        plainIntoCnt_cons, plainIntoCnt_cons, ht]
      omega

theorem head_dropLast_append {α : Type} (l1 l2 : List α) (h : 2 ≤ l1.length) :
    (l1.dropLast ++ l2).head? = l1.head? := by
  cases l1 with
  | nil => cases h
  | cons a t =>
    cases t with
    | nil => simp at h
    | cons b u =>
      rw [show (a :: b :: u).dropLast = a :: (b :: u).dropLast from rfl, List.cons_append]
      rfl

theorem getD_last {α : Type} : ∀ (l : List α) (a dflt : α), l.getLast? = some a →
    l.getD (l.length - 1) dflt = a := by
  intro l
  induction l with
  | nil => intro a dflt h; cases h
  | cons x t ih =>
    intro a dflt h
    cases t with
    | nil => simpa using h
    | cons y u =>
      rw [List.getLast?_cons_cons] at h
      have hrec := ih a dflt h
      rw [List.length_cons, Nat.add_sub_cancel]
      rw [show (y :: u).length = u.length + 1 from rfl, List.getD_cons_succ]
      rw [show u.length = (y :: u).length - 1 from by
        rw [List.length_cons, Nat.add_sub_cancel]]
      exact hrec

theorem dropLast_len1 {α : Type} (l : List α) (h : l.length = 1) : l.dropLast = [] := by
  cases l with
  | nil => rfl
  | cons a t =>
    cases t with
    | nil => rfl
    | cons b u => simp at h

/-! ### The untangle scan -/

/-- One pass of `untangle_paths` over the captured newest path: chains from
the start to the destination are preserved (each splice reconnects the two
paths at the cancelled forward/inverse pair), every path ends up all-plain,
untouched paths are unchanged, and each cancelled inverse removes one plain
in-edge of its partner's head node, so a per-node in-degree budget `B` that
covers the pending inverses is restored by the time the scan ends. -/
theorem untangleAt_spec {g : Graph} {s d : Nat} (B : Nat → Nat) {kk : Nat}
    {orig : List PEdge}
    (horigmem : ∀ e ∈ orig, (∃ idx, e = PEdge.plain idx ∧ idx < g.edges.length) ∨
      ∃ fe, e = PEdge.invOf fe)
    (horig : ∀ fe, PEdge.invOf fe ∈ orig →
      (∃ idx, fe = PEdge.plain idx) ∧ pdst g fe ≠ d ∧ fe ∉ orig) :
    ∀ i paths dirty res,
      untangleAt kk orig i paths dirty = .ok res →
      i ≤ orig.length →
      kk < paths.length →
      (∃ S, paths.getD kk [] = orig.take i ++ S ∧
        ∀ e ∈ S, ∃ idx, e = PEdge.plain idx ∧ idx < g.edges.length) →
      (∀ l', l' < paths.length → l' ≠ kk →
        ∀ e ∈ paths.getD l' [], ∃ idx, e = PEdge.plain idx ∧ idx < g.edges.length) →
      (∀ l', l' < paths.length →
        paths.getD l' [] = [] ∨ ∃ h, Chain g (paths.getD l' []) h ∧
          h.head? = some s ∧ h.getLast? = some d) →
      (∀ x, x ≠ d → plainIntoCnt g x paths.flatten ≤
        B x + invPartnerCnt g x (orig.take i)) →
      res.1.length = paths.length ∧
      (∀ l' ∈ dirty, l' ∈ res.2) ∧
      (∀ l' ∈ res.2, l' ∈ dirty ∨ l' < paths.length) ∧
      (∀ l', l' ≠ kk → l' ∉ res.2 → res.1.getD l' [] = paths.getD l' []) ∧
      (∀ l', l' < paths.length → ∀ e ∈ res.1.getD l' [],
        ∃ idx, e = PEdge.plain idx ∧ idx < g.edges.length) ∧
      (∀ l', l' < paths.length →
        res.1.getD l' [] = [] ∨ ∃ h, Chain g (res.1.getD l' []) h ∧
          h.head? = some s ∧ h.getLast? = some d) ∧
      (∀ x, x ≠ d → plainIntoCnt g x res.1.flatten ≤ B x) := by
  intro i
  induction i with
  | zero =>
    intro paths dirty res heq hi hkk hshape hplain hchain hcnt
    injection heq with heq
    subst heq
    obtain ⟨S, hS, hSplain⟩ := hshape
    rw [List.take_zero, List.nil_append] at hS
    refine ⟨rfl, fun l' h => h, fun l' h => Or.inl h, fun _ _ _ => rfl, ?_, hchain, ?_⟩
    · intro l' hl' e he
      by_cases hlk : l' = kk
      · subst hlk
        rw [hS] at he
        exact hSplain e he
      · exact hplain l' hl' hlk e he
    · intro x hx
      have hc := hcnt x hx
      rw [List.take_zero, invPartnerCnt_nil] at hc
      simpa using hc
  | succ i ih =>
    intro paths dirty res heq hi hkk hshape hplain hchain hcnt
    have hilt : i < orig.length := by omega
    simp only [untangleAt] at heq
    cases hgi : orig.getD i (.plain 0) with
    | plain i0 =>
      simp only [hgi] at heq
      obtain ⟨S, hS, hSplain⟩ := hshape
      have hSnew : paths.getD kk [] = orig.take i ++ (orig.getD i (.plain 0) :: S) := by
        rw [hS, take_succ_getD orig i (.plain 0) hilt, List.append_assoc,
          List.singleton_append]
      have hplainhead : ∃ idx, orig.getD i (.plain 0) = PEdge.plain idx ∧
          idx < g.edges.length := by
        rcases horigmem _ (getD_mem orig i (.plain 0) hilt) with h1 | ⟨fe', h2⟩
        · exact h1
        · rw [hgi] at h2
          cases h2
      have hSplain' : ∀ e ∈ (orig.getD i (.plain 0) :: S),
          ∃ idx, e = PEdge.plain idx ∧ idx < g.edges.length := by
        intro e he
        rcases List.mem_cons.mp he with he | he
        · rw [he]
          exact hplainhead
        · exact hSplain e he
      have hcnt' : ∀ x, x ≠ d → plainIntoCnt g x paths.flatten ≤
          B x + invPartnerCnt g x (orig.take i) := by
        intro x hx
        have hc := hcnt x hx
        rw [take_succ_getD orig i (.plain 0) hilt, invPartnerCnt_append, hgi,
          invPartnerCnt_cons_plain, invPartnerCnt_nil] at hc
        omega
      exact ih paths dirty res heq (by omega) hkk ⟨_, hSnew, hSplain'⟩ hplain hchain hcnt'
    | dbl a b =>
      exfalso
      rcases horigmem _ (getD_mem orig i (.plain 0) hilt) with ⟨idx, h1, -⟩ | ⟨fe', h1⟩ <;>
        (rw [hgi] at h1; cases h1)
    | invOf fe =>
      simp only [hgi] at heq
      have hfemem : PEdge.invOf fe ∈ orig := by
        rw [← hgi]
        exact getD_mem orig i (.plain 0) hilt
      obtain ⟨⟨fidx, hfeplain⟩, hfed, hfenotin⟩ := horig fe hfemem
      rcases hpi : pathEdgeIndex fe paths with - | lj
      · simp only [hpi] at heq
        cases heq
      · simp only [hpi] at heq
        obtain ⟨hllt, hjlt, hplj⟩ := pathEdgeIndex_spec fe paths lj.1 lj.2 hpi
        obtain ⟨S, hS, hSplain⟩ := hshape
        have htklen : (orig.take (i + 1)).length = i + 1 := by
          rw [List.length_take]
          omega
        have hpklen : i < (paths.getD kk []).length := by
          rw [hS, List.length_append, htklen]
          omega
        have hpk_i : (paths.getD kk []).getD i (.plain 0) = PEdge.invOf fe := by
          rw [hS, getD_append_left _ _ _ _ (by rw [htklen]; omega),
            getD_take_lt orig (i + 1) i _ (by omega), hgi]
        have hpkne : paths.getD kk [] ≠ [] := by
          intro hnil
          rw [hnil] at hpklen
          simp at hpklen
        have hplne : paths.getD lj.1 [] ≠ [] := by
          intro hnil
          rw [hnil] at hjlt
          simp at hjlt
        rcases hchain kk hkk with hnil | ⟨hk, hchk, hheadk, hlastk⟩
        · exact absurd hnil hpkne
        rcases hchain lj.1 hllt with hnil | ⟨hl, hchl, hheadl, hlastl⟩
        · exact absurd hnil hplne
        obtain ⟨hklen2, hkidx⟩ := Chain.align hchk
        obtain ⟨hllen2, hlidx⟩ := Chain.align hchl
        have hj1lt : lj.2 + 1 < (paths.getD lj.1 []).length := by
          rcases Nat.lt_or_ge (lj.2 + 1) (paths.getD lj.1 []).length with h | h
          · exact h
          · exfalso
            have hj1eq : lj.2 + 1 = (paths.getD lj.1 []).length := by omega
            have hidx := (hlidx lj.2 hjlt).2
            rw [hplj] at hidx
            have hlast := getD_last hl d 0 hlastl
            rw [hllen2, Nat.add_sub_cancel] at hlast
            rw [hj1eq] at hidx
            exact hfed (by rw [hidx, hlast])
        -- the spliced newest path is again a chain from start to destination
        have hc1 := hchk.take_chain i
        have hc2 := hchl.drop_chain (lj.2 + 1) (by omega)
        have hjunk : (hk.take (i + 1)).getLast? = ((hl.drop (lj.2 + 1)) : List Nat).head? := by
          rw [getLast_take hk i 0 (by omega), head_drop hl (lj.2 + 1) 0 (by omega)]
          have h1 := (hkidx i hpklen).1
          rw [hpk_i] at h1
          have h2 := (hlidx lj.2 hjlt).2
          rw [hplj] at h2
          rw [← h1, ← h2]
          rfl
        have hchnewk := hc1.append_chain hc2 hjunk
        have hheadnewk : ((hk.take (i + 1)).dropLast ++ hl.drop (lj.2 + 1)).head? =
            some s := by
          cases hi0 : i with
          | zero =>
            rw [hi0] at hpk_i hpklen
            rw [dropLast_len1 (hk.take 1) (by rw [List.length_take]; omega),
              List.nil_append, head_drop hl (lj.2 + 1) 0 (by omega)]
            have h2 := (hlidx lj.2 hjlt).2
            rw [hplj] at h2
            rw [← h2]
            show some (psrc g (PEdge.invOf fe)) = some s
            rw [← hpk_i, (hkidx 0 hpklen).1, getD_zero_of_head hheadk 0]
          | succ i' =>
            rw [head_dropLast_append _ _ (by rw [List.length_take]; omega),
              head_take_succ]
            exact hheadk
        have hlastnewk : ((hk.take (i + 1)).dropLast ++ hl.drop (lj.2 + 1)).getLast? =
            some d := by
          have hne : (hl.drop (lj.2 + 1) : List Nat) ≠ [] := by
            have hpos : 0 < (hl.drop (lj.2 + 1)).length := by
              rw [List.length_drop]
              omega
            exact List.length_pos.mp hpos
          rw [getLast_append_right _ hne _, getLast_drop hl (lj.2 + 1) (by omega)]
          exact hlastl
        -- the spliced partner path is again a chain from start to destination
        have hc1' := hchl.take_chain lj.2
        have hc2' := hchk.drop_chain (i + 1) (by omega)
        have hjunl : (hl.take (lj.2 + 1)).getLast? = ((hk.drop (i + 1)) : List Nat).head? := by
          rw [getLast_take hl lj.2 0 (by omega), head_drop hk (i + 1) 0 (by omega)]
          have h1 := (hlidx lj.2 hjlt).1
          rw [hplj] at h1
          have h2 := (hkidx i hpklen).2
          rw [hpk_i] at h2
          rw [← h1, ← h2]
          rfl
        have hchnewl := hc1'.append_chain hc2' hjunl
        have hheadnewl : ((hl.take (lj.2 + 1)).dropLast ++ hk.drop (i + 1)).head? =
            some s := by
          cases hj0 : lj.2 with
          | zero =>
            rw [hj0] at hplj hjlt
            rw [dropLast_len1 (hl.take 1) (by rw [List.length_take]; omega),
              List.nil_append, head_drop hk (i + 1) 0 (by omega)]
            have h2 := (hkidx i hpklen).2
            rw [hpk_i] at h2
            rw [← h2]
            show some (psrc g fe) = some s
            rw [← hplj, (hlidx 0 hjlt).1, getD_zero_of_head hheadl 0]
          | succ j' =>
            rw [head_dropLast_append _ _ (by rw [List.length_take]; omega),
              head_take_succ]
            exact hheadl
        have hlastnewl : ((hl.take (lj.2 + 1)).dropLast ++ hk.drop (i + 1)).getLast? =
            some d := by
          have hne : (hk.drop (i + 1) : List Nat) ≠ [] := by
            have hpos : 0 < (hk.drop (i + 1)).length := by
              rw [List.length_drop]
              omega
            exact List.length_pos.mp hpos
          rw [getLast_append_right _ hne _, getLast_drop hk (i + 1) (by omega)]
          exact hlastk
        -- bookkeeping about the updated path list
        have hlen' : ((paths.set lj.1 ((paths.getD lj.1 []).take lj.2 ++
            (paths.getD kk []).drop (i + 1))).set kk ((paths.getD kk []).take i ++
            (paths.getD lj.1 []).drop (lj.2 + 1))).length = paths.length := by
          rw [List.length_set, List.length_set]
        have hget'kk : ((paths.set lj.1 ((paths.getD lj.1 []).take lj.2 ++
            (paths.getD kk []).drop (i + 1))).set kk ((paths.getD kk []).take i ++
            (paths.getD lj.1 []).drop (lj.2 + 1))).getD kk [] =
            (paths.getD kk []).take i ++ (paths.getD lj.1 []).drop (lj.2 + 1) :=
          getD_set_eq _ kk _ [] (by rw [List.length_set]; exact hkk)
        have hget'ne : ∀ l'', l'' ≠ kk → l'' ≠ lj.1 →
            ((paths.set lj.1 ((paths.getD lj.1 []).take lj.2 ++
              (paths.getD kk []).drop (i + 1))).set kk ((paths.getD kk []).take i ++
              (paths.getD lj.1 []).drop (lj.2 + 1))).getD l'' [] = paths.getD l'' [] := by
          intro l'' h1 h2
          rw [getD_set_ne _ kk l'' _ _ (fun hh => h1 hh.symm),
            getD_set_ne _ lj.1 l'' _ _ (fun hh => h2 hh.symm)]
        have hptake : (paths.getD kk []).take i = orig.take i := by
          rw [hS, take_append_le _ _ i (by rw [htklen]; omega), List.take_take,
            show min i (i + 1) = i from by omega]
        have hpdrop : (paths.getD kk []).drop (i + 1) = S := by
          rw [hS, drop_append_ge _ _ _ (le_of_eq htklen), htklen, Nat.sub_self,
            List.drop_zero]
        -- establish the recursion's hypotheses
        by_cases hlkk : lj.1 = kk
        · -- the forward partner lies in the newest path itself
          have hjge : i + 1 ≤ lj.2 := by
            by_contra hcon
            have hjle : lj.2 < i + 1 := by omega
            have : fe = orig.getD lj.2 (.plain 0) := by
              rw [← hplj, hlkk, hS, getD_append_left _ _ _ _ (by rw [htklen]; omega),
                getD_take_lt orig (i + 1) lj.2 _ hjle]
            exact hfenotin (by rw [this]; exact getD_mem orig lj.2 (.plain 0) (by omega))
          have hpdropl : (paths.getD lj.1 []).drop (lj.2 + 1) =
              S.drop (lj.2 + 1 - (i + 1)) := by
            rw [hlkk, hS, drop_append_ge _ _ _ (by rw [htklen]; omega), htklen]
          have hshape' : ∃ S', ((paths.set lj.1 ((paths.getD lj.1 []).take lj.2 ++
              (paths.getD kk []).drop (i + 1))).set kk ((paths.getD kk []).take i ++
              (paths.getD lj.1 []).drop (lj.2 + 1))).getD kk [] = orig.take i ++ S' ∧
              ∀ e ∈ S', ∃ idx, e = PEdge.plain idx ∧ idx < g.edges.length := by
            refine ⟨(paths.getD lj.1 []).drop (lj.2 + 1), ?_, ?_⟩
            · rw [hget'kk, hptake]
            · intro e he
              rw [hpdropl] at he
              exact hSplain e (List.drop_subset _ _ he)
          have hsetcollapse : (paths.set lj.1 ((paths.getD lj.1 []).take lj.2 ++
              (paths.getD kk []).drop (i + 1))).set kk ((paths.getD kk []).take i ++
              (paths.getD lj.1 []).drop (lj.2 + 1)) =
              paths.set kk ((paths.getD kk []).take i ++
              (paths.getD lj.1 []).drop (lj.2 + 1)) := by
            rw [hlkk, List.set_set]
          have hplain' : ∀ l', l' < ((paths.set lj.1 ((paths.getD lj.1 []).take lj.2 ++
              (paths.getD kk []).drop (i + 1))).set kk ((paths.getD kk []).take i ++
              (paths.getD lj.1 []).drop (lj.2 + 1))).length → l' ≠ kk →
              ∀ e ∈ ((paths.set lj.1 ((paths.getD lj.1 []).take lj.2 ++
                (paths.getD kk []).drop (i + 1))).set kk ((paths.getD kk []).take i ++
                (paths.getD lj.1 []).drop (lj.2 + 1))).getD l' [],
                ∃ idx, e = PEdge.plain idx ∧ idx < g.edges.length := by
            intro l' hl' hne e he
            rw [hlen'] at hl'
            rw [hsetcollapse, getD_set_ne _ kk l' _ _ (fun hh => hne hh.symm)] at he
            exact hplain l' hl' hne e he
          have hchain' : ∀ l', l' < ((paths.set lj.1 ((paths.getD lj.1 []).take lj.2 ++
              (paths.getD kk []).drop (i + 1))).set kk ((paths.getD kk []).take i ++
              (paths.getD lj.1 []).drop (lj.2 + 1))).length →
              ((paths.set lj.1 ((paths.getD lj.1 []).take lj.2 ++
                (paths.getD kk []).drop (i + 1))).set kk ((paths.getD kk []).take i ++
                (paths.getD lj.1 []).drop (lj.2 + 1))).getD l' [] = [] ∨
              ∃ h, Chain g (((paths.set lj.1 ((paths.getD lj.1 []).take lj.2 ++
                (paths.getD kk []).drop (i + 1))).set kk ((paths.getD kk []).take i ++
                (paths.getD lj.1 []).drop (lj.2 + 1))).getD l' []) h ∧
                h.head? = some s ∧ h.getLast? = some d := by
            intro l' hl'
            rw [hlen'] at hl'
            by_cases hne : l' = kk
            · subst hne
              rw [hget'kk]
              exact Or.inr ⟨_, hchnewk, hheadnewk, hlastnewk⟩
            · rw [hsetcollapse, getD_set_ne _ kk l' _ _ (fun hh => hne hh.symm)]
              exact hchain l' hl'
          have hcnt' : ∀ x, x ≠ d →
              plainIntoCnt g x ((paths.set lj.1 ((paths.getD lj.1 []).take lj.2 ++
                (paths.getD kk []).drop (i + 1))).set kk ((paths.getD kk []).take i ++
                (paths.getD lj.1 []).drop (lj.2 + 1))).flatten ≤
              B x + invPartnerCnt g x (orig.take i) := by
            intro x hx
            have hgiven := hcnt x hx
            have hICsplit : invPartnerCnt g x (orig.take (i + 1)) =
                invPartnerCnt g x (orig.take i) + (if pdst g fe = x then 1 else 0) := by
              rw [take_succ_getD orig i (.plain 0) hilt, invPartnerCnt_append, hgi,
                invPartnerCnt_cons_inv, invPartnerCnt_nil]
              omega
            rw [hICsplit] at hgiven
            rw [show plainIntoCnt g x paths.flatten =
              (paths.map (fun p => plainIntoCnt g x p)).sum from
              countP_flatten_eq _ paths] at hgiven
            rw [hsetcollapse]
            rw [show plainIntoCnt g x (paths.set kk ((paths.getD kk []).take i ++
              (paths.getD lj.1 []).drop (lj.2 + 1))).flatten =
              ((paths.set kk ((paths.getD kk []).take i ++
                (paths.getD lj.1 []).drop (lj.2 + 1))).map
                (fun p => plainIntoCnt g x p)).sum from countP_flatten_eq _ _]
            rw [List.map_set]
            have hs1 := sum_set_nat (paths.map (fun p => plainIntoCnt g x p)) kk
              (plainIntoCnt g x ((paths.getD kk []).take i ++
                (paths.getD lj.1 []).drop (lj.2 + 1)))
              (by rw [List.length_map]; exact hkk)
            have hgkk0 : (paths.map (fun p => plainIntoCnt g x p)).getD kk 0 =
                plainIntoCnt g x (paths.getD kk []) :=
              map_getD (fun p => plainIntoCnt g x p) paths kk [] hkk
            rw [hgkk0] at hs1
            -- decompose the old newest path at both cancelled positions
            have hjlt' : lj.2 < (paths.getD kk []).length := by
              rw [← hlkk]
              exact hjlt
            have hdk := plainIntoCnt_elem_decomp g x (paths.getD kk []) i hpklen
            rw [hpk_i] at hdk
            have hjd : lj.2 - (i + 1) < ((paths.getD kk []).drop (i + 1)).length := by
              rw [List.length_drop]
              omega
            have hdd := plainIntoCnt_elem_decomp g x ((paths.getD kk []).drop (i + 1))
              (lj.2 - (i + 1)) hjd
            have hgd : ((paths.getD kk []).drop (i + 1)).getD (lj.2 - (i + 1)) (.plain 0) =
                fe := by
              rw [getD_drop, show i + 1 + (lj.2 - (i + 1)) = lj.2 from by omega, ← hlkk,
                hplj]
            rw [hgd] at hdd
            have hdd2 : ((paths.getD kk []).drop (i + 1)).drop (lj.2 - (i + 1) + 1) =
                (paths.getD kk []).drop (lj.2 + 1) := by
              rw [List.drop_drop]
              congr 1
              omega
            rw [hdd2] at hdd
            have hnkd : plainIntoCnt g x ((paths.getD kk []).take i ++
                (paths.getD lj.1 []).drop (lj.2 + 1)) =
                plainIntoCnt g x ((paths.getD kk []).take i) +
                plainIntoCnt g x ((paths.getD kk []).drop (lj.2 + 1)) := by
              rw [plainIntoCnt_append, hlkk]
            have hzero : plainIntoCnt g x [PEdge.invOf fe] = 0 := by
              rw [plainIntoCnt_cons_inv, plainIntoCnt_nil]
            have hfeval : plainIntoCnt g x [fe] = if pdst g fe = x then 1 else 0 := by
              rw [hfeplain, plainIntoCnt_cons_plain, plainIntoCnt_nil, Nat.zero_add,
                ← hfeplain]
            rw [hzero] at hdk
            rw [hfeval] at hdd
            by_cases hpx : pdst g fe = x
            · rw [if_pos hpx] at hgiven hdd
              omega
            · rw [if_neg hpx] at hgiven hdd
              omega
          obtain ⟨r1, r2, r3, r4, r5, r6, r7⟩ := ih _ _ res heq (by omega)
            (by rw [List.length_set, List.length_set]; exact hkk) hshape' hplain'
            hchain' hcnt'
          rw [hlen'] at r1
          refine ⟨r1, ?_, ?_, ?_, ?_, ?_, r7⟩
          · intro l' hl'
            exact r2 l' (List.mem_append_left _ hl')
          · intro l' hl'
            rcases r3 l' hl' with h | h
            · rcases List.mem_append.mp h with h | h
              · exact Or.inl h
              · rcases List.mem_singleton.mp h with rfl
                exact Or.inr hllt
            · rw [hlen'] at h
              exact Or.inr h
          · intro l' h1 h2
            have hnl : l' ∉ dirty ++ [lj.1] := by
              intro hin
              exact h2 (r2 l' hin)
            have hne2 : l' ≠ lj.1 := by
              intro hh
              exact hnl (List.mem_append_right _ (by rw [hh]; exact List.mem_singleton.mpr rfl))
            rw [r4 l' h1 h2, hget'ne l' h1 hne2]
          · intro l' hl'
            rw [← hlen'] at hl'
            exact r5 l' hl'
          · intro l' hl'
            rw [← hlen'] at hl'
            exact r6 l' hl'
        · -- the forward partner lies in an older accepted path
          have hget'l : ((paths.set lj.1 ((paths.getD lj.1 []).take lj.2 ++
              (paths.getD kk []).drop (i + 1))).set kk ((paths.getD kk []).take i ++
              (paths.getD lj.1 []).drop (lj.2 + 1))).getD lj.1 [] =
              (paths.getD lj.1 []).take lj.2 ++ (paths.getD kk []).drop (i + 1) := by
            rw [getD_set_ne _ kk lj.1 _ _ (fun hh => hlkk hh.symm),
              getD_set_eq _ lj.1 _ [] hllt]
          have hshape' : ∃ S', ((paths.set lj.1 ((paths.getD lj.1 []).take lj.2 ++
              (paths.getD kk []).drop (i + 1))).set kk ((paths.getD kk []).take i ++
              (paths.getD lj.1 []).drop (lj.2 + 1))).getD kk [] = orig.take i ++ S' ∧
              ∀ e ∈ S', ∃ idx, e = PEdge.plain idx ∧ idx < g.edges.length := by
            refine ⟨(paths.getD lj.1 []).drop (lj.2 + 1), ?_, ?_⟩
            · rw [hget'kk, hptake]
            · intro e he
              exact hplain lj.1 hllt hlkk e (List.drop_subset _ _ he)
          have hplain' : ∀ l', l' < ((paths.set lj.1 ((paths.getD lj.1 []).take lj.2 ++
              (paths.getD kk []).drop (i + 1))).set kk ((paths.getD kk []).take i ++
              (paths.getD lj.1 []).drop (lj.2 + 1))).length → l' ≠ kk →
              ∀ e ∈ ((paths.set lj.1 ((paths.getD lj.1 []).take lj.2 ++
                (paths.getD kk []).drop (i + 1))).set kk ((paths.getD kk []).take i ++
                (paths.getD lj.1 []).drop (lj.2 + 1))).getD l' [],
                ∃ idx, e = PEdge.plain idx ∧ idx < g.edges.length := by
            intro l' hl' hne e he
            rw [hlen'] at hl'
            by_cases hel : l' = lj.1
            · subst hel
              rw [hget'l] at he
              rcases List.mem_append.mp he with he | he
              · exact hplain lj.1 hl' hne e (List.take_subset _ _ he)
              · rw [hpdrop] at he
                exact hSplain e he
            · rw [hget'ne l' hne hel] at he
              exact hplain l' hl' hne e he
          have hchain' : ∀ l', l' < ((paths.set lj.1 ((paths.getD lj.1 []).take lj.2 ++
              (paths.getD kk []).drop (i + 1))).set kk ((paths.getD kk []).take i ++
              (paths.getD lj.1 []).drop (lj.2 + 1))).length →
              ((paths.set lj.1 ((paths.getD lj.1 []).take lj.2 ++
                (paths.getD kk []).drop (i + 1))).set kk ((paths.getD kk []).take i ++
                (paths.getD lj.1 []).drop (lj.2 + 1))).getD l' [] = [] ∨
              ∃ h, Chain g (((paths.set lj.1 ((paths.getD lj.1 []).take lj.2 ++
                (paths.getD kk []).drop (i + 1))).set kk ((paths.getD kk []).take i ++
                (paths.getD lj.1 []).drop (lj.2 + 1))).getD l' []) h ∧
                h.head? = some s ∧ h.getLast? = some d := by
            intro l' hl'
            rw [hlen'] at hl'
            by_cases hne : l' = kk
            · subst hne
              rw [hget'kk]
              exact Or.inr ⟨_, hchnewk, hheadnewk, hlastnewk⟩
            · by_cases hel : l' = lj.1
              · subst hel
                rw [hget'l]
                exact Or.inr ⟨_, hchnewl, hheadnewl, hlastnewl⟩
              · rw [hget'ne l' hne hel]
                exact hchain l' hl'
          have hcnt' : ∀ x, x ≠ d →
              plainIntoCnt g x ((paths.set lj.1 ((paths.getD lj.1 []).take lj.2 ++
                (paths.getD kk []).drop (i + 1))).set kk ((paths.getD kk []).take i ++
                (paths.getD lj.1 []).drop (lj.2 + 1))).flatten ≤
              B x + invPartnerCnt g x (orig.take i) := by
            intro x hx
            have hgiven := hcnt x hx
            have hICsplit : invPartnerCnt g x (orig.take (i + 1)) =
                invPartnerCnt g x (orig.take i) + (if pdst g fe = x then 1 else 0) := by
              rw [take_succ_getD orig i (.plain 0) hilt, invPartnerCnt_append, hgi,
                invPartnerCnt_cons_inv, invPartnerCnt_nil]
              omega
            rw [hICsplit] at hgiven
            rw [show plainIntoCnt g x paths.flatten =
              (paths.map (fun p => plainIntoCnt g x p)).sum from
              countP_flatten_eq _ paths] at hgiven
            rw [show plainIntoCnt g x ((paths.set lj.1 ((paths.getD lj.1 []).take lj.2 ++
              (paths.getD kk []).drop (i + 1))).set kk ((paths.getD kk []).take i ++
              (paths.getD lj.1 []).drop (lj.2 + 1))).flatten =
              (((paths.set lj.1 ((paths.getD lj.1 []).take lj.2 ++
                (paths.getD kk []).drop (i + 1))).set kk ((paths.getD kk []).take i ++
                (paths.getD lj.1 []).drop (lj.2 + 1))).map
                (fun p => plainIntoCnt g x p)).sum from countP_flatten_eq _ _]
            rw [List.map_set, List.map_set]
            have hs1 := sum_set_nat ((paths.map (fun p => plainIntoCnt g x p)).set lj.1
              (plainIntoCnt g x ((paths.getD lj.1 []).take lj.2 ++
                (paths.getD kk []).drop (i + 1)))) kk
              (plainIntoCnt g x ((paths.getD kk []).take i ++
                (paths.getD lj.1 []).drop (lj.2 + 1)))
              (by rw [List.length_set, List.length_map]; exact hkk)
            have hs2 := sum_set_nat (paths.map (fun p => plainIntoCnt g x p)) lj.1
              (plainIntoCnt g x ((paths.getD lj.1 []).take lj.2 ++
                (paths.getD kk []).drop (i + 1)))
              (by rw [List.length_map]; exact hllt)
            have hgkk0 : ((paths.map (fun p => plainIntoCnt g x p)).set lj.1
                (plainIntoCnt g x ((paths.getD lj.1 []).take lj.2 ++
                  (paths.getD kk []).drop (i + 1)))).getD kk 0 =
                plainIntoCnt g x (paths.getD kk []) := by
              rw [getD_set_ne _ lj.1 kk _ _ hlkk]
              exact map_getD (fun p => plainIntoCnt g x p) paths kk [] hkk
            have hgl0 : (paths.map (fun p => plainIntoCnt g x p)).getD lj.1 0 =
                plainIntoCnt g x (paths.getD lj.1 []) :=
              map_getD (fun p => plainIntoCnt g x p) paths lj.1 [] hllt
            rw [hgkk0] at hs1
            rw [hgl0] at hs2
            have hdk := plainIntoCnt_elem_decomp g x (paths.getD kk []) i hpklen
            rw [hpk_i] at hdk
            have hdl := plainIntoCnt_elem_decomp g x (paths.getD lj.1 []) lj.2 hjlt
            rw [hplj] at hdl
            have hnkd : plainIntoCnt g x ((paths.getD kk []).take i ++
                (paths.getD lj.1 []).drop (lj.2 + 1)) =
                plainIntoCnt g x ((paths.getD kk []).take i) +
                plainIntoCnt g x ((paths.getD lj.1 []).drop (lj.2 + 1)) :=
              plainIntoCnt_append _ _ _ _
            have hnld : plainIntoCnt g x ((paths.getD lj.1 []).take lj.2 ++
                (paths.getD kk []).drop (i + 1)) =
                plainIntoCnt g x ((paths.getD lj.1 []).take lj.2) +
                plainIntoCnt g x ((paths.getD kk []).drop (i + 1)) :=
              plainIntoCnt_append _ _ _ _
            have hzero : plainIntoCnt g x [PEdge.invOf fe] = 0 := by
              rw [plainIntoCnt_cons_inv, plainIntoCnt_nil]
            have hfeval : plainIntoCnt g x [fe] = if pdst g fe = x then 1 else 0 := by
              rw [hfeplain, plainIntoCnt_cons_plain, plainIntoCnt_nil, Nat.zero_add,
                ← hfeplain]
            rw [hzero] at hdk
            rw [hfeval] at hdl
            by_cases hpx : pdst g fe = x
            · rw [if_pos hpx] at hgiven hdl
              omega
            · rw [if_neg hpx] at hgiven hdl
              omega
          obtain ⟨r1, r2, r3, r4, r5, r6, r7⟩ := ih _ _ res heq (by omega)
            (by rw [List.length_set, List.length_set]; exact hkk) hshape' hplain'
            hchain' hcnt'
          rw [hlen'] at r1
          refine ⟨r1, ?_, ?_, ?_, ?_, ?_, r7⟩
          · intro l' hl'
            exact r2 l' (List.mem_append_left _ hl')
          · intro l' hl'
            rcases r3 l' hl' with h | h
            · rcases List.mem_append.mp h with h | h
              · exact Or.inl h
              · rcases List.mem_singleton.mp h with rfl
                exact Or.inr hllt
            · rw [hlen'] at h
              exact Or.inr h
          · intro l' h1 h2
            have hnl : l' ∉ dirty ++ [lj.1] := by
              intro hin
              exact h2 (r2 l' hin)
            have hne2 : l' ≠ lj.1 := by
              intro hh
              exact hnl (List.mem_append_right _ (by rw [hh]; exact List.mem_singleton.mpr rfl))
            rw [r4 l' h1 h2, hget'ne l' h1 hne2]
          · intro l' hl'
            rw [← hlen'] at hl'
            exact r5 l' hl'
          · intro l' hl'
            rw [← hlen'] at hl'
            exact r6 l' hl'

/-- Inversion of a successful `Res.bind`. -/
theorem bind_ok {α β : Type} {r : Res α} {f : α → Res β} {b : β}
    (h : Res.bind r f = .ok b) : ∃ a, r = .ok a ∧ f a = .ok b := by
  cases r with
  | ok a => exact ⟨a, rfl, h⟩
  | noPath u v w => cases h
  | fatal => cases h
  | out => cases h

/-- Inversion of a successful `_update_hops(l)`: path `l` is nonempty and
its hops and cost cells are overwritten with the recomputed values. -/
theorem updateHops_ok {g : Graph} {ks : KState} {l : Nat} {ks1 : KState}
    (h : updateHops g ks l = .ok ks1) :
    ∃ e p, ks.paths.getD l [] = e :: p ∧
      ks1 = { ks with
        hopsl := ks.hopsl.set l (some (psrc g e :: (e :: p).map (pdst g)))
        costs := ks.costs.set l (some (((e :: p).map (pwt g)).sum +
          ((psrc g e :: (e :: p).map (pdst g)).map (nw g)).sum)) } := by
  unfold updateHops at h
  rcases hp : ks.paths.getD l [] with _ | ⟨e, p⟩ <;> simp only [hp] at h
  · cases h
  · injection h with h
    exact ⟨e, p, rfl, h.symm⟩

/-- A successful `_update_hops` sweep over the dirty indices: paths and the
iteration counter are untouched, lengths are preserved, cells of clean
indices are unchanged, and every dirty in-range index ends up with exactly
the hops and cost `_update_hops` recomputes from its (nonempty) path. -/
theorem updateMany_spec {g : Graph} : ∀ (ls : List Nat) (ks res : KState),
    updateMany g ls ks = .ok res →
    res.paths = ks.paths ∧ res.iters = ks.iters ∧
    res.hopsl.length = ks.hopsl.length ∧ res.costs.length = ks.costs.length ∧
    (∀ idx, idx ∉ ls → res.hopsl.getD idx none = ks.hopsl.getD idx none ∧
      res.costs.getD idx none = ks.costs.getD idx none) ∧
    (∀ idx ∈ ls, idx < ks.hopsl.length → idx < ks.costs.length →
      ∃ e p, ks.paths.getD idx [] = e :: p ∧
        res.hopsl.getD idx none = some (psrc g e :: (e :: p).map (pdst g)) ∧
        res.costs.getD idx none = some (((e :: p).map (pwt g)).sum +
          ((psrc g e :: (e :: p).map (pdst g)).map (nw g)).sum)) := by
  intro ls
  induction ls with
  | nil =>
    intro ks res heq
    injection heq with heq
    subst heq
    exact ⟨rfl, rfl, rfl, rfl, fun _ _ => ⟨rfl, rfl⟩,
      fun idx h => absurd h (List.not_mem_nil idx)⟩
  | cons l rest ih =>
    intro ks res heq
    simp only [updateMany] at heq
    obtain ⟨ks1, h1, h2⟩ := bind_ok heq
    obtain ⟨e, p, hp, hks1⟩ := updateHops_ok h1
    subst hks1
    obtain ⟨r1, r2, r3, r4, r5, r6⟩ := ih _ res h2
    refine ⟨r1, r2, ?_, ?_, ?_, ?_⟩
    · rw [r3, List.length_set]
    · rw [r4, List.length_set]
    · intro idx hidx
      have hnr : idx ∉ rest := fun hh => hidx (List.mem_cons_of_mem l hh)
      have hnl : idx ≠ l := fun hh => hidx (by rw [hh]; exact List.mem_cons_self l rest)
      obtain ⟨u1, u2⟩ := r5 idx hnr
      constructor
      · rw [u1]
        exact getD_set_ne ks.hopsl l idx _ _ (fun hh => hnl hh.symm)
      · rw [u2]
        exact getD_set_ne ks.costs l idx _ _ (fun hh => hnl hh.symm)
    · intro idx hidx hlh hlc
      rcases List.mem_cons.mp hidx with rfl | hmem
      · by_cases hr : idx ∈ rest
        · obtain ⟨e', p', hp', hh', hc'⟩ := r6 idx hr
            (by rw [List.length_set]; exact hlh) (by rw [List.length_set]; exact hlc)
          exact ⟨e', p', hp', hh', hc'⟩
        · obtain ⟨u1, u2⟩ := r5 idx hr
          refine ⟨e, p, hp, ?_, ?_⟩
          · rw [u1]
            exact getD_set_eq ks.hopsl idx _ none hlh
          · rw [u2]
            exact getD_set_eq ks.costs idx _ none hlc
      · obtain ⟨e', p', hp', hh', hc'⟩ := r6 idx hmem
          (by rw [List.length_set]; exact hlh) (by rw [List.length_set]; exact hlc)
        exact ⟨e', p', hp', hh', hc'⟩

theorem mem_getD {α : Type} (dflt : α) : ∀ {l : List α} {a : α}, a ∈ l →
    ∃ i, i < l.length ∧ l.getD i dflt = a := by
  intro l
  induction l with
  | nil => intro a h; cases h
  | cons x t ih =>
    intro a h
    rcases List.mem_cons.mp h with rfl | h
    · exact ⟨0, Nat.succ_pos _, rfl⟩
    · obtain ⟨i, h1, h2⟩ := ih h
      exact ⟨i + 1, Nat.succ_lt_succ h1, h2⟩

theorem getD_append_len2 {α : Type} : ∀ (l1 : List α) (a dflt : α) (l2 : List α),
    (l1 ++ a :: l2).getD l1.length dflt = a := by
  intro l1
  induction l1 with
  | nil => intro a dflt l2; rfl
  | cons x t ih =>
    intro a dflt l2
    rw [List.cons_append, show (x :: t).length = t.length + 1 from rfl,
      List.getD_cons_succ]
    exact ih a dflt l2

/-- On an all-plain edge list, the raw in-edge count of `buildInv` agrees
with `plainIntoCnt`. -/
theorem plainIntoCnt_eq_countP {g : Graph} {x : Nat} : ∀ {l : List PEdge},
    (∀ e ∈ l, ∃ idx, e = PEdge.plain idx) →
    l.countP (fun e => decide (pdst g e = x)) = plainIntoCnt g x l := by
  intro l
  induction l with
  | nil => intro _; rfl
  | cons e t ih =>
    intro h
    obtain ⟨idx, hidx⟩ := h e (List.mem_cons_self e t)
    subst hidx
    rw [List.countP_cons, plainIntoCnt_cons_plain,
      ih (fun e' he' => h e' (List.mem_cons_of_mem _ he'))]
    by_cases hx : pdst g (PEdge.plain idx) = x <;> simp [hx]

/-- For Bhandari/Suurballe, a plain search edge survived the
`_forward_edges` filter. -/
theorem searchEdges_plain_notfwd {ctx : Ctx} {v : Nat} {i : Nat}
    (halgo : ctx.algo ≠ .plain) (he : PEdge.plain i ∈ searchEdges ctx v) :
    PEdge.plain i ∉ ctx.forward := by
  cases halgo' : ctx.algo with
  | plain => exact absurd halgo' halgo
  | bhandari =>
    simp only [searchEdges, halgo', List.mem_append] at he
    rcases he with he | he
    · exact of_decide_eq_true (List.mem_filter.mp he).2
    · rcases hm : getk ctx.invmap v with - | fe
      · simp [hm] at he
      · simp only [hm, List.mem_singleton] at he
        cases he
  | suurballe =>
    simp only [searchEdges, halgo', List.mem_append] at he
    rcases he with he | he
    · exact of_decide_eq_true (List.mem_filter.mp he).2
    · rcases hm : getk ctx.invmap v with - | fe
      · simp [hm] at he
      · simp only [hm, List.mem_singleton] at he
        cases he

/-- `trace_path`'s walk never leaves a whole `_DoubleEdge` in the path:
double edges are expanded into their two halves as they are traversed. -/
theorem bwalk_nodbl {g : Graph} {prev : List (Nat × Option PEdge)}
    (hshape : ∀ w e, getk prev w = some (some e) → ∀ a b, e = .dbl a b →
      (∃ i, a = PEdge.plain i) ∧ ∃ fe, b = PEdge.invOf fe) :
    ∀ fuel oe acc res, bwalk g prev fuel oe acc = .ok res →
      (∀ e', oe = some e' → ∃ w, getk prev w = some (some e')) →
      (∀ a b, PEdge.dbl a b ∉ acc) →
      ∀ a b, PEdge.dbl a b ∉ res := by
  intro fuel
  induction fuel with
  | zero =>
    intro oe acc res heq hoe hnd
    cases oe with
    | none =>
      injection heq with heq
      subst heq
      exact hnd
    | some e => cases heq
  | succ fuel ih =>
    intro oe acc res heq hoe hnd
    cases oe with
    | none =>
      injection heq with heq
      subst heq
      exact hnd
    | some e =>
      obtain ⟨w, hw⟩ := hoe e rfl
      simp only [bwalk] at heq
      by_cases hmem : e ∈ acc
      · rw [if_pos hmem] at heq
        cases heq
      · rw [if_neg hmem] at heq
        cases e with
        | plain i =>
          rcases hpe : getk prev (psrc g (.plain i)) with - | pe <;> rw [hpe] at heq
          · cases heq
          · refine ih pe (PEdge.plain i :: acc) res heq
              (fun e' he' => by rw [← he']; exact ⟨psrc g (.plain i), hpe⟩) ?_
            intro a b hab
            rcases List.mem_cons.mp hab with hab | hab
            · cases hab
            · exact hnd a b hab
        | invOf a0 =>
          rcases hpe : getk prev (psrc g (.invOf a0)) with - | pe <;> rw [hpe] at heq
          · cases heq
          · refine ih pe (PEdge.invOf a0 :: acc) res heq
              (fun e' he' => by rw [← he']; exact ⟨psrc g (.invOf a0), hpe⟩) ?_
            intro a b hab
            rcases List.mem_cons.mp hab with hab | hab
            · cases hab
            · exact hnd a b hab
        | dbl a0 b0 =>
          obtain ⟨⟨i, hai⟩, ⟨fe, hbf⟩⟩ := hshape w _ hw a0 b0 rfl
          rcases hpe : getk prev (psrc g (.dbl a0 b0)) with - | pe <;> rw [hpe] at heq
          · cases heq
          · refine ih pe (a0 :: b0 :: acc) res heq
              (fun e' he' => by rw [← he']; exact ⟨psrc g (.dbl a0 b0), hpe⟩) ?_
            intro a b hab
            rcases List.mem_cons.mp hab with hab | hab
            · rw [hai] at hab
              cases hab
            · rcases List.mem_cons.mp hab with hab | hab
              · rw [hbf] at hab
                cases hab
              · exact hnd a b hab

/-- A nonempty chain's hop list is exactly what `_update_hops` recomputes:
the first edge's source followed by every edge's destination. -/
theorem Chain.canonical {g : Graph} : ∀ {p : List PEdge} {h : List Nat}, Chain g p h →
    ∀ e t, p = e :: t → h = psrc g e :: p.map (pdst g) := by
  intro p h hch
  induction hch with
  | single v =>
    intro e t hpt
    cases hpt
  | cons hch hhd ih =>
    rename_i e0 p0 h0
    intro e t hpt
    injection hpt with h1 h2
    subst h1
    subst h2
    cases p0 with
    | nil =>
      cases hch with
      | single v =>
        rw [List.head?_cons, Option.some_inj] at hhd
        rw [hhd]
        rfl
    | cons e1 t1 =>
      have hcanon := ih e1 t1 rfl
      rw [hcanon] at hhd
      rw [List.head?_cons, Option.some_inj] at hhd
      rw [hcanon, List.map_cons, hhd]
      rfl

/-- Inversion of a successful `untangle_paths()` call. -/
theorem untangle_ok {g : Graph} {ks res : KState} (h : untangle g ks = .ok res) :
    ∃ pd0, untangleAt (ks.paths.length - 1) (ks.paths.getD (ks.paths.length - 1) [])
        (ks.paths.getD (ks.paths.length - 1) []).length ks.paths [] = .ok pd0 ∧
      updateMany g ((ks.paths.length - 1) :: pd0.2) { ks with paths := pd0.1 } = .ok res := by
  simp only [untangle] at h
  exact bind_ok h

/-- One `Bhandari.solve`/`Suurballe.solve` loop keeps the accepted state
well-formed: each iteration traces one more start-to-destination path, the
untangle pass restores all-plain chains, `_update_hops` fills in the new
hops and costs, and for Suurballe every interior node keeps at most one
incoming accepted-path edge. -/
theorem bsolveLoop_spec {g : Graph} {cfg : Config} {algo : Algo} {s d reqk fuel : Nat}
    (hwf : WF g) (hs : s < g.nodes.length) (halgNP : algo ≠ .plain) :
    ∀ c sf ks res, bsolveLoop g cfg algo s d reqk fuel c sf ks = .ok res →
      KOK g s d ks →
      (algo = .suurballe → ∀ x, x ≠ d → plainIntoCnt g x ks.paths.flatten ≤ 1) →
      KOK g s d res ∧ res.paths.length = ks.paths.length + c ∧
      (algo = .suurballe → ∀ x, x ≠ d → plainIntoCnt g x res.paths.flatten ≤ 1) := by
  intro c
  induction c with
  | zero =>
    intro sf ks res heq hKOK hcnt1
    injection heq with heq
    subst heq
    exact ⟨hKOK, rfl, hcnt1⟩
  | succ c ih =>
    intro sf ks res heq hKOK hcnt1
    simp only [bsolveLoop] at heq
    obtain ⟨inv, hbi, heq2⟩ := bind_ok heq
    obtain ⟨st, hsl, heq3⟩ := bind_ok heq2
    -- facts about the forward-edge list and the inverse map
    have hfwdplain : ∀ e' ∈ ks.paths.flatten,
        ∃ idx, e' = PEdge.plain idx ∧ idx < g.edges.length := by
      intro e' he'
      obtain ⟨l, hl, hel⟩ := List.mem_flatten.mp he'
      obtain ⟨i, hi, hgd⟩ := mem_getD [] hl
      obtain ⟨e0, p0, hgd0, hpl, -, -, -⟩ := hKOK.2.2 i hi
      rw [hgd] at hgd0
      rw [hgd0] at hel
      exact hpl e' hel
    obtain ⟨hinva, hinvb⟩ := buildInv_spec g d ks.paths.flatten [] inv
      (fun x fe h => by cases h) hbi
    have hcok : CtxOK ⟨g, { cfg with stopFirst := sf }, algo, d, ks.paths.flatten, inv⟩ s := by
      refine ⟨hwf.1, hwf.2, hs, ?_⟩
      intro v fe hfe
      obtain ⟨h1, h2, h3⟩ := hinva v fe hfe
      rcases h3 with h3 | h3
      · obtain ⟨idx, rfl, hbnd⟩ := hfwdplain fe h3
        refine ⟨h1, ?_, h2⟩
        show (arenaEdge g idx).src < g.nodes.length
        exact (hwf.2 _ (arenaEdge_mem g hbnd)).1
      · cases h3
    rcases searchLoop_spec hcok fuel (initState _ s ks.iters) (initState_inv hcok ks.iters)
        rfl with hout | ⟨st', hok, hInv', -, -⟩
    · rw [hout] at hsl
      cases hsl
    rw [hok] at hsl
    injection hsl with hsl
    subst hsl
    rcases hpd : getk st'.prev d with - | oe
    · rw [hpd] at heq3
      simp at heq3
    rw [hpd] at heq3
    simp only [Option.isSome_some, if_true] at heq3
    obtain ⟨ks1, hks1, heq4⟩ := bind_ok heq3
    obtain ⟨ks2, hks2, hrec⟩ := bind_ok heq4
    -- invert trace_path: a walked path T is appended
    simp only [bTrace, hpd] at hks1
    obtain ⟨T, hbw, hT0⟩ := bind_ok hks1
    injection hT0 with hT
    -- structural facts about the traced path
    obtain ⟨⟨hopsT, hchT, hheadT, hlastT, t0, ht0⟩, hTmem⟩ :=
      bwalk_chain (fun v e h => (hInv'.pedge v e h).1) hInv'.pnone
        (fun v e h => (hInv'.pedge v e h).2.1) fuel oe [] [d] d T rfl hpd
        (Chain.single d) hbw
    have hlastT' : hopsT.getLast? = some d := hlastT.trans rfl
    have hshapeD : ∀ w e, getk st'.prev w = some (some e) → ∀ a b, e = .dbl a b →
        (∃ i, a = PEdge.plain i) ∧ ∃ fe, b = PEdge.invOf fe := by
      intro w e hw a b hab
      subst hab
      rcases hInv'.pprov w _ hw with hse | ⟨tr, fe, hewd, htrni, htrse, hfe⟩
      · rcases searchEdges_cases hse with ⟨i, -, h⟩ | ⟨fe, -, h⟩ <;> cases h
      · injection hewd with h1 h2
        subst h1
        subst h2
        obtain ⟨i, rfl⟩ := searchEdges_noninv_plain htrse htrni
        exact ⟨⟨i, rfl⟩, fe, rfl⟩
    have hTnodbl : ∀ a b, PEdge.dbl a b ∉ T :=
      bwalk_nodbl hshapeD fuel oe [] T hbw
        (fun e' he' => by rw [← he']; exact ⟨d, hpd⟩)
        (fun a b h => absurd h (List.not_mem_nil _))
    -- every traced edge is a bounded plain edge or an inverse edge
    have horigmem : ∀ e' ∈ T, (∃ idx, e' = PEdge.plain idx ∧ idx < g.edges.length) ∨
        ∃ fe, e' = PEdge.invOf fe := by
      intro e' he'
      rcases hTmem e' he' with hin | ⟨w, ew, hwprev, hcase⟩
      · cases hin
      rcases hInv'.pprov w ew hwprev with hse | ⟨tr, fe, hewd, htrni, htrse, hfe⟩
      · rcases hcase with rfl | ⟨a, b, hab, hor⟩
        · rcases searchEdges_cases hse with ⟨i, hi, rfl⟩ | ⟨fe, -, rfl⟩
          · refine Or.inl ⟨i, rfl, ?_⟩
            have hlt : psrc g (PEdge.plain i) < g.nodes.length := by
              obtain ⟨-, -, cs, cv, hcs, -, -⟩ := hInv'.pedge w _ hwprev
              exact hInv'.ltn _ (by rw [hcs]; rfl)
            exact (hcok.wf_out _ hlt i hi).1
          · exact Or.inr ⟨fe, rfl⟩
        · rcases searchEdges_cases hse with ⟨i, -, h⟩ | ⟨fe, -, h⟩ <;>
            (rw [hab] at h; cases h)
      · rcases hcase with rfl | ⟨a, b, hab, hor⟩
        · rw [hewd] at he'
          exact absurd he' (hTnodbl _ _)
        · rw [hewd] at hab
          injection hab with h1 h2
          obtain ⟨i, hip⟩ := searchEdges_noninv_plain htrse htrni
          rcases hor with rfl | rfl
          · rw [← h1, hip]
            refine Or.inl ⟨i, rfl, ?_⟩
            have hlt : psrc g tr < g.nodes.length := by
              obtain ⟨-, -, cs, cv, hcs, -, -⟩ := hInv'.pedge w _ hwprev
              have hcs' : getk st'.mincost (psrc g tr) = some cs := by
                rw [hewd] at hcs
                exact hcs
              exact hInv'.ltn _ (by rw [hcs']; rfl)
            rw [hip] at htrse hlt
            rcases searchEdges_cases htrse with ⟨i', hi', hieq⟩ | ⟨fe', -, hieq⟩
            · injection hieq with hieq
              subst hieq
              exact (hcok.wf_out _ hlt i hi').1
            · cases hieq
          · rw [← h2]
            exact Or.inr ⟨fe, rfl⟩
    -- every traced inverse edge cancels a distinct accepted forward edge
    have horig : ∀ fe', PEdge.invOf fe' ∈ T →
        (∃ idx, fe' = PEdge.plain idx) ∧ pdst g fe' ≠ d ∧ fe' ∉ T := by
      intro fe' hfeT
      have hkey : ∃ v', getk inv v' = some fe' := by
        rcases hTmem _ hfeT with hin | ⟨w, ew, hwprev, hcase⟩
        · cases hin
        rcases hInv'.pprov w ew hwprev with hse | ⟨tr, fe, hewd, htrni, htrse, hfe⟩
        · rcases hcase with rfl | ⟨a, b, hab, hor⟩
          · rcases searchEdges_cases hse with ⟨i, -, h⟩ | ⟨fe0, hfe0, h⟩
            · cases h
            · injection h with h
              subst h
              exact ⟨_, hfe0⟩
          · rcases searchEdges_cases hse with ⟨i, -, h⟩ | ⟨fe0, -, h⟩ <;>
              (rw [hab] at h; cases h)
        · rcases hcase with heq' | ⟨a, b, hab, hor⟩
          · rw [hewd] at heq'
            cases heq'
          · rw [hewd] at hab
            injection hab with h1 h2
            rcases hor with heq' | heq'
            · obtain ⟨i, hip⟩ := searchEdges_noninv_plain htrse htrni
              rw [← h1, hip] at heq'
              cases heq'
            · rw [← h2] at heq'
              injection heq' with heq'
              subst heq'
              exact ⟨_, hfe⟩
      obtain ⟨v', hv'⟩ := hkey
      obtain ⟨hpd', hnd', hmem'⟩ := hinva v' fe' hv'
      rcases hmem' with hmemf | himp
      · obtain ⟨idx, hplainfe, -⟩ := hfwdplain fe' hmemf
        refine ⟨⟨idx, hplainfe⟩, by rw [hpd']; exact hnd', ?_⟩
        intro hfeT'
        rcases hTmem _ hfeT' with hin | ⟨w, ew, hwprev, hcase⟩
        · cases hin
        rcases hInv'.pprov w ew hwprev with hse | ⟨tr, fe, hewd, htrni, htrse, hfe⟩
        · rcases hcase with heq' | ⟨a, b, hab, hor⟩
          · rw [← heq', hplainfe] at hse
            exact searchEdges_plain_notfwd halgNP hse (by rw [← hplainfe]; exact hmemf)
          · rcases searchEdges_cases hse with ⟨i, -, h⟩ | ⟨fe0, -, h⟩ <;>
              (rw [hab] at h; cases h)
        · rcases hcase with heq' | ⟨a, b, hab, hor⟩
          · rw [hplainfe, hewd] at heq'
            cases heq'
          · rw [hewd] at hab
            injection hab with h1 h2
            obtain ⟨i, hip⟩ := searchEdges_noninv_plain htrse htrni
            rcases hor with heq' | heq'
            · rw [← h1] at heq'
              rw [heq', hip] at hmemf
              rw [hip] at htrse
              exact searchEdges_plain_notfwd halgNP htrse hmemf
            · rw [← h2] at heq'
              rw [hplainfe] at heq'
              cases heq'
      · cases himp
    -- invert untangle_paths on the extended path list
    obtain ⟨pd0, hunt, hupd⟩ := untangle_ok hks2
    have hp1 : ks1.paths = ks.paths ++ [T] := by rw [← hT]
    have hhop1 : ks1.hopsl = ks.hopsl ++ [none] := by rw [← hT]
    have hcost1 : ks1.costs = ks.costs ++ [none] := by rw [← hT]
    have hlen1 : (ks.paths ++ [T]).length = ks.paths.length + 1 := by simp
    have hkk1 : ks1.paths.length - 1 = ks.paths.length := by
      rw [hp1, hlen1]
      omega
    rw [hkk1] at hunt hupd
    have horigT : ks1.paths.getD ks.paths.length [] = T := by
      rw [hp1]
      exact getD_append_len2 ks.paths T [] []
    rw [horigT, hp1] at hunt
    -- the per-node in-degree budget
    have hfwdcnt : ∀ x, x ≠ d → plainIntoCnt g x ks.paths.flatten =
        if (getk inv x).isSome then 1 else 0 := by
      intro x hx
      rw [← plainIntoCnt_eq_countP (fun e he => (hfwdplain e he).imp (fun idx h => h.1))]
      have hb := hinvb x hx
      simpa using hb
    have hflat : (ks.paths ++ [T]).flatten = ks.paths.flatten ++ T := by
      rw [List.flatten_append, List.flatten_cons, List.flatten_nil, List.append_nil]
    have hBex : ∃ B : Nat → Nat,
        (∀ x, x ≠ d → plainIntoCnt g x (ks.paths ++ [T]).flatten ≤
          B x + invPartnerCnt g x (T.take T.length)) ∧
        (algo = .suurballe → ∀ x, B x ≤ 1) := by
      by_cases halgoS : algo = .suurballe
      · obtain ⟨-, hcnt2, hcnt3⟩ :=
          @bwalk_cnt g st'.prev inv (fun v e h => (hInv'.pedge v e h).1)
            (fun w e hw => by
              rcases hInv'.pprov w e hw with hse | ⟨tr, fe, rfl, htrni, htrse, hfe⟩
              · rcases searchEdges_cases hse with ⟨i, -, rfl⟩ | ⟨fe, -, rfl⟩
                · exact Or.inl ⟨i, rfl⟩
                · exact Or.inr (Or.inl ⟨fe, rfl⟩)
              · obtain ⟨i, rfl⟩ := searchEdges_noninv_plain htrse htrni
                exact Or.inr (Or.inr ⟨i, fe, rfl, hfe⟩))
            (fun x e hx he => hInv'.psuur halgoS x e he hx)
            (fun w fe hw => (hinva w fe hw).1)
            fuel oe [] T hbw (fun e' he' => by rw [← he']; exact ⟨d, hpd⟩)
            (fun a b h => absurd h (List.not_mem_nil _))
        refine ⟨fun _ => 1, ?_, fun _ _ => le_rfl⟩
        intro x hx
        rw [hflat, plainIntoCnt_append, List.take_length]
        show plainIntoCnt g x ks.paths.flatten + plainIntoCnt g x T ≤
          1 + invPartnerCnt g x T
        rcases hiv : getk inv x with - | fe
        · have hf0 := hfwdcnt x hx
          rw [hiv] at hf0
          simp only [Option.isSome_none, Bool.false_eq_true, if_false] at hf0
          have h2 := (hcnt2 x hiv).1
          rw [plainIntoCnt_nil] at h2
          omega
        · have hf1 := hfwdcnt x hx
          rw [hiv] at hf1
          simp only [Option.isSome_some, if_true] at hf1
          have h3 := hcnt3 x (by rw [hiv]; rfl)
          rw [plainIntoCnt_nil, invPartnerCnt_nil] at h3
          omega
      · exact ⟨fun x => plainIntoCnt g x (ks.paths ++ [T]).flatten,
          fun x hx => Nat.le_add_right _ _, fun h => absurd h halgoS⟩
    obtain ⟨B, hB, hBle⟩ := hBex
    have hkklt : ks.paths.length < (ks.paths ++ [T]).length := by
      rw [hlen1]
      omega
    obtain ⟨r1, r2, r3, r4, r5, r6, r7⟩ :=
      untangleAt_spec B horigmem horig T.length (ks.paths ++ [T]) [] pd0 hunt
        (le_refl _) hkklt
        (by
          refine ⟨[], ?_, fun e h => absurd h (List.not_mem_nil e)⟩
          rw [List.take_length, List.append_nil]
          exact getD_append_len2 ks.paths T [] [])
        (by
          intro l' hl' hne e he
          have hl'' : l' < ks.paths.length := by
            rw [hlen1] at hl'
            omega
          rw [getD_append_left ks.paths [T] l' [] hl''] at he
          obtain ⟨e0, p0, hgd0, hpl, -, -, -⟩ := hKOK.2.2 l' hl''
          rw [hgd0] at he
          exact hpl e he)
        (by
          intro l' hl'
          by_cases hlk : l' = ks.paths.length
          · subst hlk
            rw [getD_append_len2 ks.paths T [] []]
            exact Or.inr ⟨hopsT, hchT, hheadT, hlastT'⟩
          · have hl'' : l' < ks.paths.length := by
              rw [hlen1] at hl'
              omega
            rw [getD_append_left ks.paths [T] l' [] hl'']
            obtain ⟨e0, p0, hgd0, -, hchainP, -, -⟩ := hKOK.2.2 l' hl''
            rw [hgd0]
            exact Or.inr hchainP)
        hB
    -- invert the _update_hops sweep
    obtain ⟨u1, u2, u3, u4, u5, u6⟩ :=
      updateMany_spec (ks.paths.length :: pd0.2) { ks1 with paths := pd0.1 } ks2 hupd
    have hks2p : ks2.paths = pd0.1 := u1
    have hlenp : pd0.1.length = ks.paths.length + 1 := by
      rw [r1, hlen1]
    have hhopl1 : ks1.hopsl.length = ks.paths.length + 1 := by
      rw [hhop1, List.length_append, hKOK.1]
      rfl
    have hcostl1 : ks1.costs.length = ks.paths.length + 1 := by
      rw [hcost1, List.length_append, hKOK.2.1]
      rfl
    -- the new accepted state is well-formed again
    have hKOK2 : KOK g s d ks2 := by
      refine ⟨?_, ?_, ?_⟩
      · rw [hks2p, hlenp]
        rw [show ks2.hopsl.length = ks1.hopsl.length from u3, hhopl1]
      · rw [hks2p, hlenp]
        rw [show ks2.costs.length = ks1.costs.length from u4, hcostl1]
      · intro i hi
        rw [hks2p, hlenp] at hi
        by_cases hdirty : i ∈ ks.paths.length :: pd0.2
        · obtain ⟨e, p, hp, hh, hc⟩ := u6 i hdirty
            (by rw [show ({ ks1 with paths := pd0.1 } : KState).hopsl.length =
              ks1.hopsl.length from rfl, hhopl1]; exact hi)
            (by rw [show ({ ks1 with paths := pd0.1 } : KState).costs.length =
              ks1.costs.length from rfl, hcostl1]; exact hi)
          have hp' : pd0.1.getD i [] = e :: p := hp
          have hi' : i < (ks.paths ++ [T]).length := by
            rw [hlen1]
            exact hi
          refine ⟨e, p, by rw [hks2p]; exact hp', ?_, ?_, hh, hc⟩
          · intro e' he'
            rw [← hp'] at he'
            exact r5 i hi' e' he'
          · rcases r6 i hi' with hnil | hch
            · rw [hp'] at hnil
              cases hnil
            · rw [hp'] at hch
              exact hch
        · have hne : i ≠ ks.paths.length :=
            fun hh => hdirty (by rw [hh]; exact List.mem_cons_self _ _)
          have hnr : i ∉ pd0.2 := fun hh => hdirty (List.mem_cons_of_mem _ hh)
          have hil : i < ks.paths.length := by omega
          obtain ⟨e0, p0, hgd0, hpl0, hch0, hh0, hc0⟩ := hKOK.2.2 i hil
          have hpath : ks2.paths.getD i [] = e0 :: p0 := by
            rw [hks2p, r4 i hne hnr, getD_append_left ks.paths [T] i [] hil, hgd0]
          obtain ⟨u5h, u5c⟩ := u5 i hdirty
          refine ⟨e0, p0, hpath, hpl0, hch0, ?_, ?_⟩
          · rw [u5h, show ({ ks1 with paths := pd0.1 } : KState).hopsl = ks1.hopsl from rfl,
              hhop1, getD_append_left ks.hopsl [none] i none (by rw [hKOK.1]; exact hil)]
            exact hh0
          · rw [u5c, show ({ ks1 with paths := pd0.1 } : KState).costs = ks1.costs from rfl,
              hcost1, getD_append_left ks.costs [none] i none (by rw [hKOK.2.1]; exact hil)]
            exact hc0
    -- Suurballe's in-degree budget is restored
    have hcnt2 : algo = .suurballe → ∀ x, x ≠ d →
        plainIntoCnt g x ks2.paths.flatten ≤ 1 := by
      intro halgoS x hx
      rw [hks2p]
      exact le_trans (r7 x hx) (hBle halgoS x)
    obtain ⟨ihK, ihLen, ihCnt⟩ := ih false ks2 res hrec hKOK2 hcnt2
    refine ⟨ihK, ?_, ihCnt⟩
    rw [ihLen, hks2p, hlenp]
    omega

/-- A successful `Bhandari.solve`/`Suurballe.solve` run returns `k`
well-formed paths; Suurballe additionally leaves every non-destination node
with at most one incoming accepted-path edge. -/
theorem bsolve_KOK {g : Graph} {cfg : Config} {algo : Algo} {s d k fuel : Nat}
    {ks : KState} (hwf : WF g) (hs : s < g.nodes.length) (halgNP : algo ≠ .plain)
    (h : bsolve g cfg algo s d k fuel = .ok ks) :
    KOK g s d ks ∧ ks.paths.length = k ∧
    (algo = .suurballe → ∀ x, x ≠ d → plainIntoCnt g x ks.paths.flatten ≤ 1) := by
  obtain ⟨h1, h2, h3⟩ := bsolveLoop_spec hwf hs halgNP k cfg.stopFirst ⟨[], [], [], 0⟩ ks h
    ⟨rfl, rfl, fun i hi => absurd hi (Nat.not_lt_zero i)⟩
    (fun _ x _ => Nat.zero_le 1)
  refine ⟨h1, ?_, h3⟩
  rw [h2]
  exact Nat.zero_add k

/-! ### C5: Suurballe forces the atomic `_DoubleEdge` -/

/-- C5: in Suurballe's `_add_to_queue`, a non-inverse step onto an interior
node of a previously accepted path (a node holding a pending inverse edge,
never the destination) is not recorded as a plain edge traversal: the only
candidate offered to `_better_path` is the atomic `_DoubleEdge` of the
traversed edge followed by that node's `_InverseEdge`, at the combined
cost, relaxing the inverse edge's far endpoint; consequently, for every
graph and every successful `Suurballe.solve` run, the final `k` paths
share no interior node: a node on two distinct returned hop lists is the
start or the destination (illustrated concretely on the two-paths test
graph as well). -/
theorem suurballe_forced_double_edge :
    (∀ ctx st v c tr fe, ctx.algo = .suurballe → isInv tr = false →
      getk ctx.invmap v = some fe → v ≠ ctx.dest →
      pdst ctx.g tr = psrc ctx.g (.invOf fe) →
      addQ ctx st v c tr =
        if better st (pdst ctx.g (.invOf fe))
            (c + pwt ctx.g (.invOf fe) + nw ctx.g (pdst ctx.g (.invOf fe)))
        then .ok (addQbase ctx st (pdst ctx.g (.invOf fe))
          (c + pwt ctx.g (.invOf fe) + nw ctx.g (pdst ctx.g (.invOf fe)))
          (.dbl tr (.invOf fe)))
        else .ok st) ∧
    (∀ g cfg s d k fuel ks, WF g → s < g.nodes.length →
      bsolve g cfg .suurballe s d k fuel = .ok ks →
      ∀ i j ha hb x, i < k → j < k → i ≠ j →
        ks.hopsl.getD i none = some ha → ks.hopsl.getD j none = some hb →
        x ∈ ha → x ∈ hb → x = s ∨ x = d) ∧
    bsolve (twoPaths 3 1 1) bhandariCfg .suurballe 0 7 2 2000 =
      .ok ⟨[[.plain 2, .plain 14, .plain 16, .plain 18],
            [.plain 0, .plain 4, .plain 6, .plain 12]],
           [some [0, 4, 5, 6, 7], some [0, 1, 2, 3, 7]],
           [some 6, some 4], 15⟩ ∧
    (∀ x ∈ (([0, 4, 5, 6, 7] : List Nat).dropLast.drop 1),
      x ∉ (([0, 1, 2, 3, 7] : List Nat).dropLast.drop 1)) := by
  refine ⟨fun ctx st v c tr fe h1 h2 h3 h4 h5 => addQ_suur_dbl h1 h2 h3 h4 h5,
    ?_, by decide, by decide⟩
  intro g cfg s d k fuel ks hwf hs hbs i j ha hb x hik hjk hij hha hhb hxa hxb
  obtain ⟨hK, hlen, hcnt⟩ := bsolve_KOK hwf hs (fun h => by cases h) hbs
  by_cases hxs : x = s
  · exact Or.inl hxs
  by_cases hxd : x = d
  · exact Or.inr hxd
  exfalso
  have hmain : ∀ l hl, l < k → ks.hopsl.getD l none = some hl → x ∈ hl →
      1 ≤ plainIntoCnt g x (ks.paths.getD l []) := by
    intro l hl hlk hhl hxl
    obtain ⟨e, p0, hgd, hplain, ⟨h, hch, hhead, hlast⟩, hhops, hcost⟩ :=
      hK.2.2 l (by rw [hlen]; exact hlk)
    rw [hhops] at hhl
    injection hhl with hhl
    subst hhl
    rcases List.mem_cons.mp hxl with hxh | hxt
    · have hcanon := Chain.canonical hch e p0 rfl
      rw [hcanon] at hhead
      rw [List.head?_cons, Option.some_inj] at hhead
      exact absurd (hxh.trans hhead) hxs
    · obtain ⟨e2, he2, hpe2⟩ := List.mem_map.mp hxt
      rw [hgd]
      have hpos : 0 < plainIntoCnt g x (e :: p0) := by
        unfold plainIntoCnt
        apply List.countP_pos.mpr
        refine ⟨e2, he2, ?_⟩
        obtain ⟨idx, hidx, -⟩ := hplain e2 he2
        rw [hidx]
        exact decide_eq_true (by rw [← hidx]; exact hpe2)
      omega
  have h1 := hmain i ha hik hha hxa
  have h2 := hmain j hb hjk hhb hxb
  have hflat : plainIntoCnt g x ks.paths.flatten =
      (ks.paths.map (fun p => plainIntoCnt g x p)).sum :=
    countP_flatten_eq _ _
  have hgi : (ks.paths.map (fun p => plainIntoCnt g x p)).getD i 0 =
      plainIntoCnt g x (ks.paths.getD i []) :=
    map_getD _ ks.paths i [] (by rw [hlen]; exact hik)
  have hgj : (ks.paths.map (fun p => plainIntoCnt g x p)).getD j 0 =
      plainIntoCnt g x (ks.paths.getD j []) :=
    map_getD _ ks.paths j [] (by rw [hlen]; exact hjk)
  have hle1 := hcnt rfl x hxd
  rw [hflat] at hle1
  rcases Nat.lt_or_ge i j with hlt | hge
  · have hsum := two_getD_le_sum (ks.paths.map (fun p => plainIntoCnt g x p)) i j hlt
      (by rw [List.length_map, hlen]; exact hjk)
    rw [hgi, hgj] at hsum
    omega
  · have hlt : j < i := by omega
    have hsum := two_getD_le_sum (ks.paths.map (fun p => plainIntoCnt g x p)) j i hlt
      (by rw [List.length_map, hlen]; exact hik)
    rw [hgi, hgj] at hsum
    omega

/-- Witness for C5 at a concrete interior-node step: on the two-paths
graph, stepping onto node `1` (interior to an accepted path, with pending
inverse of edge `0`) offers only the combined `_DoubleEdge` candidate. -/
theorem suurballe_forced_double_edge_witness :
    addQ ⟨twoPaths 3 1 1, bhandariCfg, .suurballe, 7, [], [(1, .plain 0)]⟩
        ⟨[], [], [], [], 0, false⟩ 1 0 (.plain 0) =
      if better ⟨[], [], [], [], 0, false⟩
          (pdst (twoPaths 3 1 1) (.invOf (.plain 0)))
          (0 + pwt (twoPaths 3 1 1) (.invOf (.plain 0)) +
            nw (twoPaths 3 1 1) (pdst (twoPaths 3 1 1) (.invOf (.plain 0))))
      then .ok (addQbase ⟨twoPaths 3 1 1, bhandariCfg, .suurballe, 7, [], [(1, .plain 0)]⟩
        ⟨[], [], [], [], 0, false⟩ (pdst (twoPaths 3 1 1) (.invOf (.plain 0)))
        (0 + pwt (twoPaths 3 1 1) (.invOf (.plain 0)) +
          nw (twoPaths 3 1 1) (pdst (twoPaths 3 1 1) (.invOf (.plain 0))))
        (.dbl (.plain 0) (.invOf (.plain 0))))
      else .ok ⟨[], [], [], [], 0, false⟩ :=
  suurballe_forced_double_edge.1 _ _ _ _ _ _ rfl rfl (by decide) (by decide) (by decide)

/-! ### C1: the round-trip law, amended -/

/-- C1 amended: a successful single-path `solve` always satisfies the
structural round-trip clauses — `hops` starts at the start node, ends at
the destination, and aligns with the edges of `path` — and satisfies the
cost-sum law whenever the search ended by exhausting its queue (no
`stop_first_answer` break); and every successful `Bhandari.solve`/
`Suurballe.solve` run returns exactly `k` paths, each of which satisfies
all four clauses — `hops[0] = start`, `hops[-1] = destination`, full
source/destination alignment, and the cost-sum law — as re-established by
`_update_hops` after untangling. -/
theorem path_result_roundtrip_amended :
    (∀ g cfg s d fuel r, WF g → s < g.nodes.length →
      solve g cfg s d fuel = .ok r →
      r.hops.head? = some s ∧ r.hops.getLast? = some d ∧
      r.hops.length = r.path.length + 1 ∧
      (∀ i < r.path.length, psrc g (r.path.getD i (.plain 0)) = r.hops.getD i 0 ∧
        pdst g (r.path.getD i (.plain 0)) = r.hops.getD (i + 1) 0) ∧
      (∀ st, createTree ⟨g, cfg, .plain, d, [], []⟩ s 0 fuel = .ok st →
        st.early = false →
        r.cost = (r.path.map (pwt g)).sum + (r.hops.map (nw g)).sum)) ∧
    (∀ g cfg algo s d k fuel ks, WF g → s < g.nodes.length →
      (algo = .bhandari ∨ algo = .suurballe) →
      bsolve g cfg algo s d k fuel = .ok ks →
      ks.paths.length = k ∧ ks.hopsl.length = k ∧ ks.costs.length = k ∧
      ∀ i < k, ∃ p hops, ks.paths.getD i [] = p ∧ p ≠ [] ∧
        ks.hopsl.getD i none = some hops ∧
        ks.costs.getD i none = some ((p.map (pwt g)).sum + (hops.map (nw g)).sum) ∧
        hops.head? = some s ∧ hops.getLast? = some d ∧
        hops.length = p.length + 1 ∧
        ∀ j < p.length, psrc g (p.getD j (.plain 0)) = hops.getD j 0 ∧
          pdst g (p.getD j (.plain 0)) = hops.getD (j + 1) 0) := by
  constructor
  · intro g cfg s d fuel r hwf hs hsv
    have cok : CtxOK ⟨g, cfg, .plain, d, [], []⟩ s := ctxOK_plain g cfg d s hwf hs
    have hsolveEq : solve g cfg s d fuel =
        Res.bind (createTree ⟨g, cfg, .plain, d, [], []⟩ s 0 fuel) (fun st =>
          if (getk st.prev d).isSome then tracePath g st d fuel
          else .noPath (some s) d none) := rfl
    rcases createTree_spec cok 0 fuel with hout | ⟨st, hok, hInv, hqe, hearly⟩
    · rw [hsolveEq, hout] at hsv
      cases hsv
    by_cases hpd : (getk st.prev d).isSome
    · obtain ⟨c, hmc⟩ := Option.isSome_iff_exists.mp ((hInv.dom_pc d).mpr hpd)
      obtain ⟨oe, hpe⟩ := Option.isSome_iff_exists.mp hpd
      have psl : ∀ v e, getk st.prev v = some (some e) →
          (getk st.prev (psrc g e)).isSome := by
        intro v e h
        obtain ⟨-, -, cs, cv, hcs, -, -⟩ := hInv.pedge v e h
        exact (hInv.dom_pc _).mp (by rw [hcs]; rfl)
      have hval : solve g cfg s d fuel =
          Res.bind (walkPrev g st.prev fuel oe [] [d])
            (fun ph => .ok ⟨ph.1, ph.2, c⟩) := by
        rw [hsolveEq, hok]
        show (if (getk st.prev d).isSome then tracePath g st d fuel
          else Res.noPath (some s) d none) = _
        rw [if_pos hpd]
        simp only [tracePath, hmc, hpe]
      have hoe : ∀ e, oe = some e → (getk st.prev (psrc g e)).isSome := by
        intro e he
        subst he
        exact psl d e hpe
      rcases hw : walkPrev g st.prev fuel oe [] [d] with res | ⟨a, b, k⟩ | - | -
      · have hrval : r = ⟨res.1, res.2, c⟩ := by
          rw [hval, hw] at hsv
          injection hsv with hsv
          exact hsv.symm
        obtain ⟨hch, hhd, hps, ⟨t1, ht1⟩, -⟩ := walkPrev_ok
          (fun v f h => (hInv.pedge v f h).1) hInv.pnone
          fuel oe [] [d] d res rfl hpe (Chain.single d) hw
        obtain ⟨hlen, halign⟩ := Chain.align hch
        refine ⟨?_, ?_, ?_, ?_, ?_⟩
        · rw [hrval]
          exact hhd
        · rw [hrval]
          show res.2.getLast? = some d
          rw [ht1, List.getLast?_concat]
        · rw [hrval]
          exact hlen
        · rw [hrval]
          exact halign
        · intro st2 hok2 hne2
          rw [hok] at hok2
          injection hok2 with hok2
          subst hok2
          have halgo2 : (⟨g, cfg, .plain, d, [], []⟩ : Ctx).algo ≠ .suurballe := by
            intro h
            cases h
          have pex := prev_exact hInv (hqe hne2) hne2 halgo2
          have pex2 : ∀ v e, getk st.prev v = some (some e) →
              ∃ cs cv, getk st.mincost (psrc g e) = some cs ∧
                getk st.mincost v = some cv ∧
                cv = cs + (pwt g e + nw g (pdst g e)) := by
            intro v e hv
            obtain ⟨cs, cv, hcs, hcv, hdec⟩ := pex v e hv
            have hmem := hInv.pmem halgo2 v e hv
            rw [searchEdges_charge hmem] at hdec
            exact ⟨cs, cv, hcs, hcv, hdec⟩
          obtain ⟨cx, hcx, hsum⟩ :=
            walkPrev_cost pex2 fuel oe [] [d] d res rfl hpe hw c hmc s hhd
          have hcxs : cx = nw g s := by
            have hsn := hInv.snone hps
            rw [hsn] at hcx
            injection hcx with hcx
            exact hcx.symm
          have hdec : res.2 = s :: res.1.map (pdst g) := Chain.decomp hch hhd
          rw [hrval]
          show c = (res.1.map (pwt g)).sum + (res.2.map (nw g)).sum
          rw [hdec]
          simp only [List.map_cons, List.sum_cons, List.map_map] at hsum ⊢
          simp only [List.map_nil, List.sum_nil, add_zero] at hsum
          have hcomp : res.1.map (nw g ∘ pdst g) =
              res.1.map (fun e => nw g (pdst g e)) := rfl
          rw [hcomp, hcxs] at *
          linarith [hsum]
      · exact absurd hw (walkPrev_not_nopath fuel oe [] [d] a b k)
      · exact absurd hw (walkPrev_not_fatal psl fuel oe [] [d] hoe)
      · rw [hval, hw] at hsv
        cases hsv
    · have hnp : solve g cfg s d fuel = .noPath (some s) d none := by
        rw [hsolveEq, hok]
        simp only [Res.bind]
        rw [if_neg hpd]
      rw [hnp] at hsv
      cases hsv
  · intro g cfg algo s d k fuel ks hwf hs halgo hbs
    have halgNP : algo ≠ .plain := by
      rcases halgo with rfl | rfl <;> (intro h; cases h)
    obtain ⟨hK, hlen, -⟩ := bsolve_KOK hwf hs halgNP hbs
    refine ⟨hlen, by rw [hK.1, hlen], by rw [hK.2.1, hlen], ?_⟩
    intro i hik
    obtain ⟨e, p0, hgd, hplain, ⟨h, hch, hhead, hlast⟩, hhops, hcost⟩ :=
      hK.2.2 i (by rw [hlen]; exact hik)
    have hcanon := Chain.canonical hch e p0 rfl
    obtain ⟨halen, halign⟩ := Chain.align hch
    refine ⟨e :: p0, psrc g e :: (e :: p0).map (pdst g), hgd,
      (by intro hh; cases hh), hhops, hcost, ?_, ?_, ?_, ?_⟩
    · rw [← hcanon]
      exact hhead
    · rw [← hcanon]
      exact hlast
    · rw [← hcanon]
      exact halen
    · intro j hj
      rw [← hcanon]
      exact halign j hj

end PF
